import Mathlib

/-!
# Atom table (memory/atom.c)

A shallow embedding of the atom table of `memory/atom.c` and theorems about it.

Modelling conventions.

* A segment is a typed view of its 64K of memory: `tables h` is the memory at
  offset `h` read as an `ATOMTABLE`, `atoms h` the memory at offset `h` read as
  an `ATOMENTRY`, `atomtable` the field of the instance data at offset 0.
  Freeing a block does not change what the memory holds.
* Machine integers are natural numbers; conversions to `WORD`/`HANDLE16` are
  written `% 65536`.
* A C string is the list of its bytes before the terminating NUL; reading past
  the end of the list reads the terminator (`byteAt`).  Bytes are the values
  0..255 of the characters; where the code reads a byte as a plain `char`, which
  is signed, and the sign matters (`ATOM_Hash`), the value read is `charAt`.
* The local heap (`LOCAL_Alloc`, `LOCAL_Free`) is outside `atom.c`: the handle
  an allocation returns is an argument of the operation that allocates, 0 for
  a failed allocation.
* The chain walks are loops over memory; they are run with `CHAIN_FUEL` steps
  and an operation whose walk does not end within them yields `none`.
* `long` and `INT` are 32 bits wide, `WORD`, `ATOM` and `HANDLE16` 16 bits.
* The functions are defined on offsets: a pointer into a segment is the offset
  it points to.  Where a statement is about linear addresses and the relocation
  of a segment, the functions it needs are given a second time with the
  addresses they use (`ATOM_InitTableLin`, `ATOM_GetTableLin`, `ATOM_AddAtomLin`,
  and `AddAtom16`, which calls `ATOM_AddAtom` with an address it has resolved).

The definitions of the functions of `atom.c` come first, then the notions the
statements use, then the lemmas and the theorems on the claims `C1`, `C2`, ….
-/

namespace Atom

/-! ## Constants and the handle/atom transform -/

def DEFAULT_ATOMTABLE_SIZE : Nat := 37
def MIN_STR_ATOM : Nat := 0xc000
def MAX_ATOM_LEN : Nat := 255

/-- The macro `ATOMTOHANDLE(atom)`, `((HANDLE16)(atom) << 2)`, as a `HANDLE16`. -/
def ATOMTOHANDLE (atom : Nat) : Nat := (atom <<< 2) % 65536

/-- The macro `HANDLETOATOM(handle)`, `((ATOM)(0xc000 | ((handle) >> 2)))`. -/
def HANDLETOATOM (handle : Nat) : Nat := (0xc000 ||| (handle >>> 2)) % 65536

/-! ## Data model -/

/-- The struct `ATOMENTRY`; `str` is the whole string area of the block (from
the field `str` to the end of the block). -/
structure ATOMENTRY where
  next : Nat
  refCount : Nat
  length : Nat
  str : List Nat

/-- The struct `ATOMTABLE`; `entries i` is the handle in `entries[i]`. -/
structure ATOMTABLE where
  size : Nat
  entries : Nat → Nat

/-- One segment: the `atomtable` field of its instance data, its memory read
as tables and as entries, and the blocks of its local heap (`arena h` is the
size of the block allocated at `h`, `none` when no block is allocated there). -/
structure Segment where
  atomtable : Nat
  tables : Nat → ATOMTABLE
  atoms : Nat → ATOMENTRY
  arena : Nat → Option Nat

/-- The state of the program: the static `ATOM_GlobalTable` and the segments,
by selector. -/
structure State where
  ATOM_GlobalTable : Nat
  seg : Nat → Segment

/-- The argument type `LPCSTR` of the atom functions: a pointer whose high word
is zero (an integer atom passed by `MAKEINTATOM`, `atom w` with `w` its low
word) or a pointer to a NUL-terminated string with the bytes `s`. -/
inductive LPCSTR where
  | atom (w : Nat)
  | str (s : List Nat)

/-- The bytes of the string an `LPCSTR` points to. -/
def LPCSTR.bytes : LPCSTR → List Nat
  | .atom _ => []
  | .str s => s

/-- The place `prevEntry` points to in `ATOM_DeleteAtom`: a bucket of the table
or the `next` field of an entry. -/
inductive Slot where
  | bucket (i : Nat)
  | next (h : Nat)

/-! ## C library and Wine helpers -/

/-- The byte at index `i` of a C string (the terminator past its end). -/
def byteAt (s : List Nat) (i : Nat) : Nat := s.getD i 0

/-- C `toupper` in the C locale. -/
def toupper (c : Nat) : Nat := if 97 ≤ c ∧ c ≤ 122 then c - 32 else c

/-- C `isspace` in the C locale. -/
def isspace (c : Nat) : Bool := c = 32 || (9 ≤ c && c ≤ 13)

/-- C `isdigit`. -/
def isdigit (c : Nat) : Bool := 48 ≤ c && c ≤ 57

/-- The value `LONG_MAX` of a 32-bit `long`. -/
def LONG_MAX : Int := 2147483647

/-- The value `LONG_MIN` of a 32-bit `long`. -/
def LONG_MIN : Int := -2147483648

/-- The value of a sequence of decimal digit characters. -/
def digitsValue (ds : List Nat) : Nat := ds.foldl (fun a d => 10 * a + (d - 48)) 0

/-- C `strtol(s, &end, 10)`: the value and `end - s`.  White space is skipped,
a sign is optional, the longest run of digits is read; without a digit the
value is 0 and `end = s`; a value out of range is `LONG_MAX` or `LONG_MIN`. -/
def strtol (s : List Nat) : Int × Nat :=
  let ws := s.takeWhile isspace
  let r1 := s.dropWhile isspace
  let neg := r1.head? = some 45
  let signLen := if r1.head? = some 45 ∨ r1.head? = some 43 then 1 else 0
  let r2 := r1.drop signLen
  let ds := r2.takeWhile isdigit
  if ds = [] then (0, 0)
  else
    let v : Int := digitsValue ds
    let val : Int := if neg then max (-v) LONG_MIN else min v LONG_MAX
    (val, ws.length + signLen + ds.length)

/-- C `sprintf(text, "%d", n)` for `n ≥ 0`: the decimal digits of `n`. -/
def sprintf_d (n : Nat) : List Nat := (Nat.toDigits 10 n).map Char.toNat

/-- C `strncpy(dest, src, n)`: the `n` bytes written to `dest`. -/
def strncpy (src : List Nat) (n : Nat) : List Nat :=
  src.take n ++ List.replicate (n - src.length) 0

/-- C `memcpy(dest, src, n)`: the `n` bytes read from `src`. -/
def memcpy (src : List Nat) : Nat → List Nat
  | 0 => []
  | n + 1 => byteAt src 0 :: memcpy src.tail n

/-- Modelled from the spec: `lstrncmpiA` (its source is not in `atom.c`), the
case-insensitive comparison of at most `n` bytes of two strings with `toupper`
semantics, 0 when they are equal. -/
def lstrncmpiA (s1 s2 : List Nat) : Nat → Int
  | 0 => 0
  | n + 1 =>
    let c1 := toupper (byteAt s1 0)
    let c2 := toupper (byteAt s2 0)
    if c1 ≠ c2 then (c1 : Int) - (c2 : Int)
    else if c1 = 0 then 0
    else lstrncmpiA s1.tail s2.tail n

/-- Modelled from the spec: `LOCAL_Alloc` of the handle-addressed arena (its
source is not in `atom.c`).  The handle the arena returns is the argument `h`,
0 when the allocation fails; a block of `size` bytes is then allocated at `h`. -/
def LOCAL_Alloc (seg : Segment) (size h : Nat) : Nat × Segment :=
  if h = 0 then (0, seg)
  else (h, { seg with arena := Function.update seg.arena h (some (size % 65536)) })

/-- Modelled from the spec: `LOCAL_Free` of the handle-addressed arena (its
source is not in `atom.c`): the block at `h` is no longer allocated. -/
def LOCAL_Free (seg : Segment) (h : Nat) : Segment :=
  { seg with arena := Function.update seg.arena h none }

/-- Replace the segment of a selector. -/
def State.setSeg (st : State) (selector : Nat) (seg : Segment) : State :=
  { st with seg := Function.update st.seg selector seg }

/-- The number of steps a chain walk is run for: a `HANDLE16` has 65536 values,
so a walk that has not ended after as many steps has come back to an entry it
has visited and never ends. -/
def CHAIN_FUEL : Nat := 65536

/-! ## The functions of atom.c -/

/-- The function `ATOM_InitTable(selector, entries)`; `h` is the handle `LOCAL_Alloc`
returns.  The result is the returned handle and the new state.  The size asked
for, `sizeof(ATOMTABLE) + (entries-1) * sizeof(HANDLE16)` with
`sizeof(ATOMTABLE) = 4`, is `4 + 2 * entries - 2`. -/
def ATOM_InitTable (st : State) (selector entries h : Nat) : Nat × State :=
  let st1 : State :=
    if st.ATOM_GlobalTable = 0 then { st with ATOM_GlobalTable := selector } else st
  let r := LOCAL_Alloc (st1.seg selector) (4 + entries * 2 - 2) h
  if r.1 = 0 then (0, st1)
  else
    let seg := r.2
    let old := seg.tables r.1
    let table : ATOMTABLE :=
      { size := entries, entries := fun i => if i < entries then 0 else old.entries i }
    let seg1 : Segment :=
      { seg with tables := Function.update seg.tables r.1 table, atomtable := r.1 }
    (r.1, st1.setSeg selector seg1)

/-- The function `ATOM_Init(globalTableSel)`. -/
def ATOM_Init (st : State) (globalTableSel h : Nat) : Bool × State :=
  let r := ATOM_InitTable st globalTableSel DEFAULT_ATOMTABLE_SIZE h
  (r.1 ≠ 0, r.2)

/-- The function `ATOM_GetTable(selector, create)`; `h` is the handle `LOCAL_Alloc` returns
if the table is created.  The result is the handle of the table the returned
pointer points to (`none` for `NULL`) and the new state. -/
def ATOM_GetTable (st : State) (selector : Nat) (create : Bool) (h : Nat) :
    Option Nat × State :=
  let ptr := st.seg selector
  if ptr.atomtable ≠ 0 ∧ (ptr.tables ptr.atomtable).size ≠ 0 then (some ptr.atomtable, st)
  else if !create then (none, st)
  else
    let r := ATOM_InitTable st selector DEFAULT_ATOMTABLE_SIZE h
    if r.1 = 0 then (none, r.2)
    else (some (r.2.seg selector).atomtable, r.2)

/-- The function `ATOM_MakePtr(selector, handle)`: the entry at a handle. -/
def ATOM_MakePtr (st : State) (selector handle : Nat) : ATOMENTRY :=
  (st.seg selector).atoms handle

/-- The value of `str[i]` for `str` an `LPCSTR`: a plain `char`, which is signed on
the x86 target, so that the bytes 128..255 are read as the values -128..-1. -/
def charAt (str : List Nat) (i : Nat) : Int :=
  if byteAt str i < 128 then (byteAt str i : Int) else (byteAt str i : Int) - 256

/-- C `toupper` of an `int` in the C locale: a lower-case letter goes to upper
case, any other value is returned as it is.  So is `EOF`, -1; for the other
negative values, on which C leaves `toupper` open, the same is taken. -/
def toupperInt (c : Int) : Int := if 97 ≤ c ∧ c ≤ 122 then c - 32 else c

/-- The function `ATOM_Hash(entries, str, len)`.  `hash` and `i` are `WORD`s and
`toupper(str[i]) + i` is an `int`: its low 16 bits are XORed into `hash`. -/
def ATOM_Hash (entries : Nat) (str : List Nat) (len : Nat) : Nat :=
  ((List.range len).foldl
    (fun hash i =>
      (hash ^^^ ((toupperInt (charAt str i) + (i : Int)) % 65536).toNat) % 65536) 0) % entries

/-- The function `ATOM_IsIntAtom(atomstr, &atomid)`: `some atomid` when it returns TRUE,
`none` when it returns FALSE. -/
def ATOM_IsIntAtom : LPCSTR → Option Nat
  | .atom w => some (w % 65536)
  | .str s =>
    if byteAt s 0 ≠ 35 then none
    else
      let r := strtol s.tail
      if byteAt s (1 + r.2) ≠ 0 then none
      else some (r.1 % 65536).toNat

/-- The loop `while (entry) …` of `ATOM_AddAtom` and `ATOM_FindAtom`: the
handle of the first entry of the chain from `entry` with length `len` and the
bytes of `str` up to case, 0 when the chain ends without one, `none` when the
walk does not end. -/
def findEntry (seg : Segment) (str : List Nat) (len : Nat) : Nat → Nat → Option Nat
  | 0, _ => none
  | fuel + 1, entry =>
    if entry = 0 then some 0
    else
      let entryPtr := seg.atoms entry
      if entryPtr.length = len ∧ lstrncmpiA entryPtr.str str len = 0 then some entry
      else findEntry seg str len fuel entryPtr.next

/-- The size `ae_len` of the block of an entry,
`(sizeof(ATOMENTRY)+len+3) & ~3` with `sizeof(ATOMENTRY) = 6`. -/
def ae_len (len : Nat) : Nat := (6 + len + 3) / 4 * 4

/-- The function `ATOM_AddAtom(selector, str)`; `hTable` and `hEntry` are the handles
`LOCAL_Alloc` returns for the table and for the entry, if they are allocated.
The result is the returned atom and the new state. -/
def ATOM_AddAtom (st : State) (selector : Nat) (str : LPCSTR) (hTable hEntry : Nat) :
    Option (Nat × State) :=
  match ATOM_IsIntAtom str with
  | some iatom => some (iatom, st)
  | none =>
    let s := str.bytes
    let len := if s.length > MAX_ATOM_LEN then MAX_ATOM_LEN else s.length
    match ATOM_GetTable st selector true hTable with
    | (none, st1) => some (0, st1)
    | (some t, st1) =>
      let seg := st1.seg selector
      let hash := ATOM_Hash (seg.tables t).size s len
      match findEntry seg s len CHAIN_FUEL ((seg.tables t).entries hash) with
      | none => none
      | some 0 =>
        let r := LOCAL_Alloc seg (ae_len len) hEntry
        if r.1 = 0 then some (0, st1)
        else
          let entry := r.1
          let st2 := st1.setSeg selector r.2
          match ATOM_GetTable st2 selector false 0 with
          | (none, _) => none
          | (some t2, _) =>
            let seg2 := st2.seg selector
            let table := seg2.tables t2
            let e : ATOMENTRY :=
              { next := table.entries hash, refCount := 1, length := len,
                str := strncpy s (ae_len len - 6 + 1) }
            let seg3 : Segment := { seg2 with atoms := Function.update seg2.atoms entry e }
            let table3 : ATOMTABLE :=
              { table with entries := Function.update table.entries hash entry }
            let seg4 : Segment := { seg3 with tables := Function.update seg3.tables t2 table3 }
            some (HANDLETOATOM entry, st2.setSeg selector seg4)
      | some entry =>
        let entryPtr := seg.atoms entry
        let e : ATOMENTRY := { entryPtr with refCount := (entryPtr.refCount + 1) % 65536 }
        let seg1 : Segment := { seg with atoms := Function.update seg.atoms entry e }
        some (HANDLETOATOM entry, st1.setSeg selector seg1)

/-- Read `*prevEntry`. -/
def readSlot (seg : Segment) (t : Nat) : Slot → Nat
  | .bucket i => (seg.tables t).entries i
  | .next h => (seg.atoms h).next

/-- Store to `*prevEntry`. -/
def writeSlot (seg : Segment) (t : Nat) (v : Nat) : Slot → Segment
  | .bucket i =>
    let table : ATOMTABLE :=
      { (seg.tables t) with entries := Function.update (seg.tables t).entries i v }
    { seg with tables := Function.update seg.tables t table }
  | .next h =>
    let e : ATOMENTRY := { (seg.atoms h) with next := v }
    { seg with atoms := Function.update seg.atoms h e }

/-- The loop `while (*prevEntry && *prevEntry != entry) …` of `ATOM_DeleteAtom`:
the final `prevEntry`, `none` when the walk does not end. -/
def findPrev (seg : Segment) (t entry : Nat) : Nat → Slot → Option Slot
  | 0, _ => none
  | fuel + 1, prevEntry =>
    let cur := readSlot seg t prevEntry
    if cur ≠ 0 ∧ cur ≠ entry then findPrev seg t entry fuel (.next cur)
    else some prevEntry

/-- The function `ATOM_DeleteAtom(selector, atom)`: the returned atom and the new state. -/
def ATOM_DeleteAtom (st : State) (selector atom : Nat) : Option (Nat × State) :=
  if atom < MIN_STR_ATOM then some (0, st)
  else
    match ATOM_GetTable st selector false 0 with
    | (none, st1) => some (0, st1)
    | (some t, st1) =>
      let seg := st1.seg selector
      let entry := ATOMTOHANDLE atom
      let entryPtr := seg.atoms entry
      let hash := ATOM_Hash (seg.tables t).size entryPtr.str entryPtr.length
      match findPrev seg t entry CHAIN_FUEL (.bucket hash) with
      | none => none
      | some prevEntry =>
        if readSlot seg t prevEntry = 0 then some (atom, st1)
        else
          let rc := (entryPtr.refCount + 65535) % 65536
          let e : ATOMENTRY := { entryPtr with refCount := rc }
          let seg1 : Segment := { seg with atoms := Function.update seg.atoms entry e }
          if rc = 0 then
            let seg2 := writeSlot seg1 t (seg1.atoms entry).next prevEntry
            some (0, st1.setSeg selector (LOCAL_Free seg2 entry))
          else some (0, st1.setSeg selector seg1)

/-- The function `ATOM_FindAtom(selector, str)`: the returned atom and the state after the
call. -/
def ATOM_FindAtom (st : State) (selector : Nat) (str : LPCSTR) : Option (Nat × State) :=
  match ATOM_IsIntAtom str with
  | some iatom => some (iatom, st)
  | none =>
    let s := str.bytes
    let len := if s.length > 255 then 255 else s.length
    match ATOM_GetTable st selector false 0 with
    | (none, st1) => some (0, st1)
    | (some t, st1) =>
      let seg := st1.seg selector
      let hash := ATOM_Hash (seg.tables t).size s len
      match findEntry seg s len CHAIN_FUEL ((seg.tables t).entries hash) with
      | none => none
      | some 0 => some (0, st1)
      | some entry => some (HANDLETOATOM entry, st1)

/-- What `ATOM_GetAtomName` returns and does: the returned length, the bytes it
stores into `buffer` from index 0 on (none when it stores nothing), and the
state after the call. -/
structure NameResult where
  ret : Nat
  buffer : List Nat
  state : State

/-- The function `ATOM_GetAtomName(selector, atom, buffer, count)`; `count` is the signed
`INT` argument. -/
def ATOM_GetAtomName (st : State) (selector atom : Nat) (count : Int) : NameResult :=
  if count = 0 then { ret := 0, buffer := [], state := st }
  else
    let clamp (len : Nat) : Nat :=
      let ucount := (count % 4294967296).toNat
      if len ≥ ucount then ucount - 1 else len
    if atom < MIN_STR_ATOM then
      let text := 35 :: sprintf_d atom
      let len := clamp text.length
      { ret := len, buffer := memcpy text len ++ [0], state := st }
    else
      match ATOM_GetTable st selector false 0 with
      | (none, st1) => { ret := 0, buffer := [], state := st1 }
      | (some _, st1) =>
        let entry := ATOMTOHANDLE atom
        let entryPtr := ATOM_MakePtr st1 selector entry
        let len := clamp entryPtr.length
        { ret := len, buffer := memcpy entryPtr.str len ++ [0], state := st1 }

/-! ## The public shims -/

/-- The function `GlobalAddAtomA(str)`. -/
def GlobalAddAtomA (st : State) (str : LPCSTR) (hTable hEntry : Nat) : Option (Nat × State) :=
  match str with
  | .atom w => some (w % 65536, st)
  | .str s => ATOM_AddAtom st st.ATOM_GlobalTable (.str s) hTable hEntry

/-- The function `GlobalFindAtomA(str)`. -/
def GlobalFindAtomA (st : State) (str : LPCSTR) : Option (Nat × State) :=
  match str with
  | .atom w => some (w % 65536, st)
  | .str s => ATOM_FindAtom st st.ATOM_GlobalTable (.str s)

/-- The function `GlobalDeleteAtom(atom)` (without `CONFIG_IPC`). -/
def GlobalDeleteAtom (st : State) (atom : Nat) : Option (Nat × State) :=
  ATOM_DeleteAtom st st.ATOM_GlobalTable atom

/-- The function `GlobalGetAtomNameA(atom, buffer, count)`. -/
def GlobalGetAtomNameA (st : State) (atom : Nat) (count : Int) : NameResult :=
  ATOM_GetAtomName st st.ATOM_GlobalTable atom count

/-- The function `InitAtomTable16(entries)`; `ds` is `CURRENT_DS`. -/
def InitAtomTable16 (st : State) (ds entries h : Nat) : Nat × State :=
  ATOM_InitTable st ds (if entries = 0 then DEFAULT_ATOMTABLE_SIZE else entries) h

/-- The function `GetAtomHandle16(atom)`. -/
def GetAtomHandle16 (atom : Nat) : Nat :=
  if atom < MIN_STR_ATOM then 0 else ATOMTOHANDLE atom

/-! ## Notions used in the statements -/

/-- Two byte strings are equal up to ASCII case. -/
def ciEq (s t : List Nat) : Prop := s.map toupper = t.map toupper

instance (s t : List Nat) : Decidable (ciEq s t) := by unfold ciEq; infer_instance

/-- The first `n` bytes of two C strings are equal up to ASCII case. -/
def ciUpTo (n : Nat) (s t : List Nat) : Prop :=
  ∀ i, i < n → toupper (byteAt s i) = toupper (byteAt t i)

/-- A C string: no byte is NUL and every byte is below 256. -/
def IsCStr (s : List Nat) : Prop := ∀ b ∈ s, 0 < b ∧ b < 256

instance (s : List Nat) : Decidable (IsCStr s) := by unfold IsCStr; infer_instance

/-- The segment has a table that `ATOM_GetTable` returns. -/
def HasTable (seg : Segment) : Prop :=
  seg.atomtable ≠ 0 ∧ (seg.tables seg.atomtable).size ≠ 0

instance (seg : Segment) : Decidable (HasTable seg) := by unfold HasTable; infer_instance

/-- The length `len` the atom functions use for a string. -/
def atomLen (s : List Nat) : Nat := if s.length > 255 then 255 else s.length

/-- The table of a segment. -/
def Segment.table (seg : Segment) : ATOMTABLE := seg.tables seg.atomtable

/-- The bucket of a string in the table of a segment. -/
def Segment.hashOf (seg : Segment) (s : List Nat) : Nat :=
  ATOM_Hash seg.table.size s (atomLen s)

/-- The head of the chain of a bucket. -/
def Segment.head (seg : Segment) (b : Nat) : Nat := seg.table.entries b

/-- The segment after `ATOM_AddAtom` has linked a new entry at `h` for `s`. -/
def Segment.link (seg : Segment) (s : List Nat) (h : Nat) : Segment :=
  { atomtable := seg.atomtable,
    tables := Function.update seg.tables seg.atomtable
      { size := seg.table.size, entries := Function.update seg.table.entries (seg.hashOf s) h },
    atoms := Function.update seg.atoms h
      { next := seg.head (seg.hashOf s), refCount := 1, length := atomLen s,
        str := strncpy s (ae_len (atomLen s) - 6 + 1) },
    arena := Function.update seg.arena h (some (ae_len (atomLen s) % 65536)) }

/-- The segment after the reference count of the entry at `h` is set to `rc`. -/
def Segment.setRef (seg : Segment) (h rc : Nat) : Segment :=
  { seg with atoms := Function.update seg.atoms h { (seg.atoms h) with refCount := rc } }

/-- The handles of the entries linked from `h` on, following `next`; `none`
when the chain does not end. -/
def chainOf (seg : Segment) : Nat → Nat → Option (List Nat)
  | 0, _ => none
  | fuel + 1, h =>
    if h = 0 then some []
    else (chainOf seg fuel (seg.atoms h).next).map (fun l => h :: l)

/-- The handles linked in the chains of the given buckets, in order. -/
def chainsOf (seg : Segment) : List Nat → Option (List Nat)
  | [] => some []
  | b :: bs =>
    match chainOf seg CHAIN_FUEL (seg.head b), chainsOf seg bs with
    | some c, some l => some (c ++ l)
    | _, _ => none

/-- The handles of all entries of the table of a segment, bucket by bucket. -/
def tableEntries (seg : Segment) : Option (List Nat) :=
  chainsOf seg (List.range seg.table.size)

/-- The table of the segment is valid and all its buckets are empty. -/
def EmptyTable (seg : Segment) : Prop :=
  HasTable seg ∧ ∀ b, b < seg.table.size → seg.table.entries b = 0

/-- The entry at `e` has the length and, up to case, the bytes of `s`: the
test of the chain walk. -/
def Segment.isMatch (seg : Segment) (s : List Nat) (e : Nat) : Prop :=
  (seg.atoms e).length = atomLen s ∧ lstrncmpiA (seg.atoms e).str s (atomLen s) = 0

/-- A segment whose memory holds zeros: no table, no block allocated. -/
def Segment.blank : Segment :=
  { atomtable := 0, tables := fun _ => ⟨0, fun _ => 0⟩, atoms := fun _ => ⟨0, 0, 0, []⟩,
    arena := fun _ => none }

/-- The state before any table is initialised. -/
def State.blank : State := { ATOM_GlobalTable := 0, seg := fun _ => Segment.blank }

/-- The calls number `i`, `i + 1`, …, `n` of them, of `ATOM_AddAtom` for the
same string; `hT j` and `hE j` are the handles the arena returns in call `j`.
The result is the atoms returned, in order, and the final state. -/
def addMany (sel : Nat) (s : List Nat) (hT hE : Nat → Nat) :
    Nat → Nat → State → Option (List Nat × State)
  | _, 0, st => some ([], st)
  | i, n + 1, st =>
    match ATOM_AddAtom st sel (.str s) (hT i) (hE i) with
    | none => none
    | some (a, st1) =>
      match addMany sel s hT hE (i + 1) n st1 with
      | none => none
      | some (l, st2) => some (a :: l, st2)

/-- The state after `n` calls of `ATOM_DeleteAtom` for the same atom. -/
def deleteMany (sel atom : Nat) : Nat → State → Option State
  | 0, st => some st
  | n + 1, st =>
    match ATOM_DeleteAtom st sel atom with
    | none => none
    | some (_, st1) => deleteMany sel atom n st1

/-- The reference-count lifecycle for `N` interns of `s` followed by `N`
releases: the `N` interns return the atom of the handle allocated in the first,
each of the first `N - 1` releases returns 0 and leaves the entry the head of
its bucket and allocated, with its reference count decremented by one (as a
`WORD`), and the `N`th release returns 0, restores the former head of the
bucket and frees the block. -/
def RefLifecycle (st : State) (sel : Nat) (s : List Nat) (hT hE : Nat → Nat) (N : Nat) : Prop :=
  ∃ stN, addMany sel s hT hE 0 N st = some (List.replicate N (HANDLETOATOM (hE 0)), stN) ∧
    (∀ k, k + 1 < N → ∃ stk stk1, deleteMany sel (HANDLETOATOM (hE 0)) k stN = some stk ∧
      ATOM_DeleteAtom stk sel (HANDLETOATOM (hE 0)) = some (0, stk1) ∧
      (stk1.seg sel).head ((st.seg sel).hashOf s) = hE 0 ∧
      (stk1.seg sel).arena (hE 0) ≠ none ∧
      ((stk1.seg sel).atoms (hE 0)).refCount
        = (((stk.seg sel).atoms (hE 0)).refCount + 65535) % 65536) ∧
    (∃ stk stf, deleteMany sel (HANDLETOATOM (hE 0)) (N - 1) stN = some stk ∧
      ATOM_DeleteAtom stk sel (HANDLETOATOM (hE 0)) = some (0, stf) ∧
      (stf.seg sel).head ((st.seg sel).hashOf s) = (st.seg sel).head ((st.seg sel).hashOf s) ∧
      (stf.seg sel).arena (hE 0) = none)

/-- The segment after the last release of a linked entry. -/
def Segment.unlink (seg : Segment) (s : List Nat) (h : Nat) : Segment :=
  LOCAL_Free (writeSlot ((seg.link s h).setRef h 0) seg.atomtable (seg.head (seg.hashOf s))
    (.bucket (seg.hashOf s))) h

/-- The string `s` is absent from the table of the segment: `ATOM_FindAtom`
returns 0. -/
def Absent (st : State) (sel : Nat) (s : List Nat) : Prop :=
  ATOM_FindAtom st sel (.str s) = some (0, st)

/-- The state after `ATOM_InitTable` has made a table of 37 buckets at handle 8
for segment 7, from the blank state. -/
def State.fresh : State := (ATOM_InitTable State.blank 7 37 8).2

/-- A value is 0 or a handle of the arena: 16 bits wide and 4-byte aligned. -/
def IsHandle (h : Nat) : Prop := h % 4 = 0 ∧ h < 65536

instance (h : Nat) : Decidable (IsHandle h) := by unfold IsHandle; infer_instance

/-- The entries linked in the table of a segment: the entry a bucket of the
table points to, and the entry the `next` field of a linked entry points to. -/
inductive Segment.Linked (seg : Segment) : Nat → Prop
  | head (b : Nat) : HasTable seg → b < seg.table.size → seg.head b ≠ 0 →
      Segment.Linked seg (seg.head b)
  | next (h : Nat) : Segment.Linked seg h → (seg.atoms h).next ≠ 0 →
      Segment.Linked seg (seg.atoms h).next

/-- Every handle stored in a bucket of the table or in the `next` field of an
entry linked in the table is a handle of the arena. -/
def AlignedSeg (seg : Segment) : Prop := ∀ h, seg.Linked h → IsHandle h

/-- The largest value of the 32-bit `INT`. -/
def INT_MAX : Int := 2147483647

/-- The state after "hello" is interned in the fresh table, its entry at
handle 16. -/
def State.withHello : State :=
  match ATOM_AddAtom State.fresh 7 (.str [104, 101, 108, 108, 111]) 0 16 with
  | some r => r.2
  | none => State.blank

/-- The 256-byte string `#11…1x`: `#`, 254 digits `1` and `x`. -/
def digitsThenX : List Nat := 35 :: (List.replicate 254 49 ++ [120])

/-- The 256-byte string `#11…1`: `#` and 255 digits `1`. -/
def digitsOnly : List Nat := 35 :: List.replicate 255 49

/-- The walk for `u` in the table of the segment, run for `n` steps, ends with
`e` (0 when `u` is not found). -/
def Finds (seg : Segment) (u : List Nat) (n e : Nat) : Prop :=
  findEntry seg u (atomLen u) n (seg.head (seg.hashOf u)) = some e

/-- A handle the arena may return for a new block of the segment: not 0, 16
bits wide and 4-byte aligned, and no block is allocated at it. -/
def FreshHandle (seg : Segment) (h : Nat) : Prop :=
  h ≠ 0 ∧ IsHandle h ∧ seg.arena h = none

/-- What a successful `ATOM_AddAtom` of `u` does to a segment in which the walk
for `u` ends with `e`: it bumps the count of `e`, or links a new entry at `hE`
when `e = 0`; `x` is the handle of the entry of the returned atom. -/
def AddStep (seg : Segment) (u : List Nat) (e hE x : Nat) (seg1 : Segment) : Prop :=
  (e ≠ 0 ∧ x = e ∧ seg1 = seg.setRef e (((seg.atoms e).refCount + 1) % 65536)) ∨
  (e = 0 ∧ x = hE ∧ seg1 = seg.link u hE)

/-- The scenario of the specification: "Hello", "hello" and "World" are
interned in a fresh table of 37 buckets (entries at handles 16 and 24).  The
result is the three atoms, the handles of the entries of the final table and
the reference count of the entry of "Hello". -/
def scenarioHelloWorld : Option (Nat × Nat × Nat × Option (List Nat) × Nat) :=
  match ATOM_AddAtom State.fresh 7 (.str [72, 101, 108, 108, 111]) 0 16 with
  | none => none
  | some (a1, st1) =>
    match ATOM_AddAtom st1 7 (.str [104, 101, 108, 108, 111]) 0 20 with
    | none => none
    | some (a2, st2) =>
      match ATOM_AddAtom st2 7 (.str [87, 111, 114, 108, 100]) 0 24 with
      | none => none
      | some (a3, st3) =>
        some (a1, a2, a3, tableEntries (st3.seg 7), ((st3.seg 7).atoms 16).refCount)

/-- A string of 300 bytes `A`. -/
def longString : List Nat := List.replicate 300 65

/-- The text `ATOM_GetAtomName` copies from (`strPtr`): for an integer atom
`#` and its decimal digits, for a string atom the string area of the entry at
its handle. -/
def nameText (st : State) (sel atom : Nat) : List Nat :=
  if atom < MIN_STR_ATOM then 35 :: sprintf_d atom
  else ((st.seg sel).atoms (ATOMTOHANDLE atom)).str

/-- The length `len` of the text `ATOM_GetAtomName` copies from, before it is
clamped: for an integer atom the length of `#` and its digits, for a string
atom the stored length of the entry at its handle. -/
def nameLen (st : State) (sel atom : Nat) : Nat :=
  if atom < MIN_STR_ATOM then (35 :: sprintf_d atom).length
  else ((st.seg sel).atoms (ATOMTOHANDLE atom)).length

instance (n : Nat) (s t : List Nat) : Decidable (ciUpTo n s t) := by
  unfold ciUpTo; infer_instance

/-- The entry at `e` has the length and, up to ASCII case, the bytes of `s`
truncated to 255 bytes. -/
def Segment.holds (seg : Segment) (e : Nat) (s : List Nat) : Prop :=
  (seg.atoms e).length = atomLen s ∧ ciUpTo (atomLen s) (seg.atoms e).str s

instance (seg : Segment) (e : Nat) (s : List Nat) : Decidable (seg.holds e s) := by
  unfold Segment.holds; infer_instance

/-- The bucket `ATOM_DeleteAtom` looks for the entry at `h` in: the hash of its
stored string. -/
def Segment.bucketOf (seg : Segment) (h : Nat) : Nat :=
  ATOM_Hash seg.table.size (seg.atoms h).str (seg.atoms h).length

/-- The state after "a" is interned twice in the fresh table, its entry at
handle 16 with reference count 2. -/
def State.withTwoRefs : State :=
  match addMany 7 [97] (fun _ => 0) (fun _ => 16) 0 2 State.fresh with
  | some r => r.2
  | none => State.blank

/-- The state after "hello" is interned in the fresh table and its atom 0xC004
is released: the table is empty again and the block at handle 16 is free. -/
def State.afterDelete : State :=
  match ATOM_DeleteAtom State.withHello 7 0xc004 with
  | some r => r.2
  | none => State.blank

/-- The state after "hello" is interned in the fresh table and a new table of 37
buckets is then initialised for the segment at handle 32: the entry at handle
16 is still allocated but is not an entry of the table of the segment. -/
def State.reinit : State := (ATOM_InitTable State.withHello 7 37 32).2

/-- The call of `ATOM_AddAtom` fails: the table cannot be created (there is
none and the arena returns 0 for it), or the entry cannot be allocated (the
string is absent from the table, so that an entry is asked for, and the arena
returns 0 for it). -/
def AddFails (st : State) (sel : Nat) (s : List Nat) (hT hE : Nat) : Prop :=
  (¬ HasTable (st.seg sel) ∧ hT = 0) ∨
  (Absent (ATOM_GetTable st sel true hT).2 sel s ∧ hE = 0)

/-- The bytes an entry stores: the `length` bytes at its `str`. -/
def ATOMENTRY.stored (e : ATOMENTRY) : List Nat := memcpy e.str e.length

/-- The upper-case mapping in the words of the specification: ASCII `a`..`z` go
to `A`..`Z`, every other byte is left as it is. -/
def uppercase (b : Nat) : Nat := if 97 ≤ b ∧ b ≤ 122 then b - 97 + 65 else b

/-- The hash in the words of the specification: the XOR over `i` in `[0, len)`
of `uppercase (byte i) + i`, kept in a 16-bit word, modulo the bucket count. -/
def hashSpec (n : Nat) (s : List Nat) (len : Nat) : Nat :=
  (((List.range len).map (fun i => uppercase (byteAt s i) + i)).foldr Nat.xor 0 % 65536) % n

/-- The state after `ATOM_InitTable` for segment 5 fails in the allocation, from
the blank state, and `ATOM_InitTable` for segment 7 then makes a table of 37
buckets at handle 8. -/
def State.failedThenInit : State :=
  (ATOM_InitTable (ATOM_InitTable State.blank 5 37 0).2 7 37 8).2

/-- The handles `l` are the entries linked from the handle `h` on, following
`next`, up to the end of the chain. -/
def IsChain (seg : Segment) : Nat → List Nat → Prop
  | h, [] => h = 0
  | h, e :: l => h ≠ 0 ∧ e = h ∧ IsChain seg (seg.atoms h).next l

/-- The place `prevEntry` points to after the walk of `ATOM_DeleteAtom` has
passed the entries `l` from the place `p`. -/
def prevSlot (p : Slot) : List Nat → Slot
  | [] => p
  | x :: l => prevSlot (.next x) l

/-- Two entries have the same length and, up to ASCII case, the same stored
bytes. -/
def Segment.sameName (seg : Segment) (e1 e2 : Nat) : Prop :=
  (seg.atoms e1).length = (seg.atoms e2).length ∧
  ciEq (seg.atoms e1).stored (seg.atoms e2).stored

/-- The deduplication predicate: the chains of the table end, and no two of the
entries linked in them have the same length and, up to ASCII case, the same
stored bytes. -/
def Dedup (seg : Segment) : Prop :=
  ∃ L, tableEntries seg = some L ∧ L.Pairwise (fun e1 e2 => ¬ seg.sameName e1 e2)

/-- A call on the table of a segment: `ATOM_AddAtom` of a string, with the
handles the arena returns for a table and for an entry if they are allocated,
or `ATOM_DeleteAtom` of an atom. -/
inductive Op where
  | add (s : List Nat) (hT hE : Nat)
  | del (atom : Nat)

/-- Run one call: the returned atom and the new state. -/
def Op.run (sel : Nat) (st : State) : Op → Option (Nat × State)
  | .add s hT hE => ATOM_AddAtom st sel (.str s) hT hE
  | .del atom => ATOM_DeleteAtom st sel atom

/-- Run a sequence of calls: the final state. -/
def runOps (sel : Nat) : List Op → State → Option State
  | [], st => some st
  | op :: ops, st =>
    match op.run sel st with
    | none => none
    | some r => runOps sel ops r.2

/-- The argument of a call is well formed: a string is a C string, and the
handle the arena returns for a new entry is 0 (no memory) or a handle at which
no block is allocated. -/
def Op.ok (seg : Segment) : Op → Prop
  | .add s _ hE => IsCStr s ∧ (hE = 0 ∨ FreshHandle seg hE)
  | .del _ => True

/-- Every call of the sequence is well formed in the state it is made in. -/
def OpsOk (sel : Nat) : List Op → State → Prop
  | [], _ => True
  | op :: ops, st => op.ok (st.seg sel) ∧ ∀ r, op.run sel st = some r → OpsOk sel ops r.2

/-- The state `st` is reached from a state in which the segment has a valid
table with empty buckets by a sequence of calls of `ATOM_AddAtom` and
`ATOM_DeleteAtom` with well-formed arguments (the arena returning fresh handles). -/
def Reachable (sel : Nat) (st : State) : Prop :=
  ∃ st0 ops, EmptyTable (st0.seg sel) ∧ OpsOk sel ops st0 ∧ runOps sel ops st0 = some st

/-- The number of `ATOM_AddAtom` calls in a sequence of calls. -/
def countAdds : List Op → Nat
  | [] => 0
  | .add _ _ _ :: ops => countAdds ops + 1
  | .del _ :: ops => countAdds ops

/-- The chains `ch b` of the buckets of a table: the table is valid, `ch b` is
the chain of bucket `b`, its entries are allocated blocks at handles of the
arena and hash to `b`, and no two of them have the same name. -/
def TableInv (seg : Segment) (ch : Nat → List Nat) : Prop :=
  HasTable seg ∧
  (∀ b, b < seg.table.size → IsChain seg (seg.head b) (ch b)) ∧
  (∀ b, b < seg.table.size → ∀ e ∈ ch b,
    IsHandle e ∧ seg.arena e ≠ none ∧ seg.bucketOf e = b) ∧
  (∀ b, b < seg.table.size → (ch b).Pairwise (fun e1 e2 => ¬ seg.sameName e1 e2))

instance (seg : Segment) (h : Nat) : Decidable (FreshHandle seg h) := by
  unfold FreshHandle; infer_instance

/-- The calls of the witnesses: "Hello" is interned (the arena returning the
handle 16), "hello" is interned, and the atom 0xC004 is released twice. -/
def sampleOps : List Op :=
  [.add [72, 101, 108, 108, 111] 0 16, .add [104, 101, 108, 108, 111] 0 0, .del 0xc004,
    .del 0xc004]

/-- 65536 interns of "a": in the first the arena returns the handle 16, the
others find the entry and allocate nothing. -/
def manyAdds : List Op := .add [97] 0 16 :: List.replicate 65535 (.add [97] 0 0)

/-! ## Linear addresses and the relocation of a segment -/

/-- Modelled from the spec: the placement of the segments in linear memory (the
arena and `PTR_SEG_OFF_TO_LIN` are not in `atom.c`).  `st` is the contents of the
segments by offset, which a relocation keeps; `epoch sel` counts the times the
arena has moved the memory of the segment `sel`. -/
structure Lin where
  st : State
  epoch : Nat → Nat

/-- A linear address into a segment: the selector and offset it was resolved
from, and the placement of the segment at the time of the resolution. -/
structure LinPtr where
  sel : Nat
  off : Nat
  epoch : Nat

/-- Modelled from the spec: the macro `PTR_SEG_OFF_TO_LIN(sel, off)`, resolved
in the current placement of the segment. -/
def PTR_SEG_OFF_TO_LIN (m : Lin) (sel off : Nat) : LinPtr := ⟨sel, off, m.epoch sel⟩

/-- Dereference a linear address: the offset of the segment it reads or writes,
`none` when the segment has been moved since the address was resolved (the
address is stale). -/
def Lin.deref (m : Lin) (p : LinPtr) : Option Nat :=
  if p.epoch = m.epoch p.sel then some p.off else none

/-- Modelled from the spec: the placement of the segments after an allocation
in the segment `sel`; `moves` tells whether the arena relocates the memory of
the segment in this allocation. -/
def relocate (epoch : Nat → Nat) (sel : Nat) (moves : Bool) : Nat → Nat :=
  if moves then Function.update epoch sel (epoch sel + 1) else epoch

/-- The string argument of `ATOM_AddAtom` with the place it points to: a raw
integer atom, a string outside the segments of the arena (a buffer on the
stack), or a string in a segment, at an address the caller has resolved. -/
inductive StrPtr where
  | atom (w : Nat)
  | ext (s : List Nat)
  | seg (p : LinPtr) (s : List Nat)

/-- The argument as the `LPCSTR` of the functions on offsets. -/
def StrPtr.arg : StrPtr → LPCSTR
  | .atom w => .atom w
  | .ext s => .str s
  | .seg _ s => .str s

/-- Read the string through the pointer: `none` when the address is stale. -/
def StrPtr.read (m : Lin) : StrPtr → Option LPCSTR
  | .atom w => some (.atom w)
  | .ext s => some (.str s)
  | .seg p s => if (m.deref p).isSome then some (.str s) else none

/-- The string argument is valid at the call and does not lie in the segment
`sel`. -/
def StrPtr.stable (m : Lin) (sel : Nat) : StrPtr → Prop
  | .atom _ => True
  | .ext _ => True
  | .seg p _ => p.sel ≠ sel ∧ p.epoch = m.epoch p.sel

/-- The function `ATOM_InitTable` with the linear addresses it uses; `moves` tells
whether the allocation relocates the segment.  `none` when a stale address is
used. -/
def ATOM_InitTableLin (m : Lin) (selector entries h : Nat) (moves : Bool) :
    Option (Nat × Lin) :=
  let st1 : State :=
    if m.st.ATOM_GlobalTable = 0 then { m.st with ATOM_GlobalTable := selector } else m.st
  let r := LOCAL_Alloc (st1.seg selector) (4 + entries * 2 - 2) h
  let m1 : Lin := ⟨st1, relocate m.epoch selector moves⟩
  if r.1 = 0 then some (0, m1)
  else
    let table := PTR_SEG_OFF_TO_LIN m1 selector r.1
    match m1.deref table, m1.deref (PTR_SEG_OFF_TO_LIN m1 selector 0) with
    | some t, some _ =>
      let seg := r.2
      let old := seg.tables t
      let tbl : ATOMTABLE :=
        { size := entries, entries := fun i => if i < entries then 0 else old.entries i }
      let seg1 : Segment :=
        { seg with tables := Function.update seg.tables t tbl, atomtable := r.1 }
      some (r.1, ⟨st1.setSeg selector seg1, m1.epoch⟩)
    | _, _ => none

/-- The function `ATOM_GetTable` with the linear addresses it uses: the pointer
to the table it returns (`none` for `NULL`).  `none` when a stale address is
used. -/
def ATOM_GetTableLin (m : Lin) (selector : Nat) (create : Bool) (h : Nat) (moves : Bool) :
    Option (Option LinPtr × Lin) :=
  let ptr := PTR_SEG_OFF_TO_LIN m selector 0
  match m.deref ptr with
  | none => none
  | some i =>
    let atomtable := (m.st.seg selector).atomtable
    let table : LinPtr := ⟨ptr.sel, i + atomtable, ptr.epoch⟩
    match m.deref table with
    | none => none
    | some t =>
      if atomtable ≠ 0 ∧ ((m.st.seg selector).tables t).size ≠ 0 then some (some table, m)
      else if !create then some (none, m)
      else
        match ATOM_InitTableLin m selector DEFAULT_ATOMTABLE_SIZE h moves with
        | none => none
        | some r =>
          if r.1 = 0 then some (none, r.2)
          else
            let ptr2 := PTR_SEG_OFF_TO_LIN r.2 selector 0
            match r.2.deref ptr2 with
            | none => none
            | some i2 =>
              some (some ⟨ptr2.sel, i2 + (r.2.st.seg selector).atomtable, ptr2.epoch⟩, r.2)

/-- The function `ATOM_AddAtom` with the linear addresses it uses: `str` is read
through the pointer the caller passes, the table and the entries through the
pointers the function resolves; `mT` and `mE` tell whether the allocation of
the table and of the entry relocate the segment.  `none` when a stale address
is used or the walk does not end. -/
def ATOM_AddAtomLin (m : Lin) (selector : Nat) (str : StrPtr) (hTable hEntry : Nat)
    (mT mE : Bool) : Option (Nat × Lin) :=
  match str.read m with
  | none => none
  | some a0 =>
    match ATOM_IsIntAtom a0 with
    | some iatom => some (iatom, m)
    | none =>
      let len := if a0.bytes.length > MAX_ATOM_LEN then MAX_ATOM_LEN else a0.bytes.length
      match ATOM_GetTableLin m selector true hTable mT with
      | none => none
      | some (none, m1) => some (0, m1)
      | some (some table, m1) =>
        match m1.deref table, str.read m1 with
        | some t, some a1 =>
          let seg := m1.st.seg selector
          let hash := ATOM_Hash (seg.tables t).size a1.bytes len
          match findEntry seg a1.bytes len CHAIN_FUEL ((seg.tables t).entries hash) with
          | none => none
          | some 0 =>
            let r := LOCAL_Alloc seg (ae_len len) hEntry
            let epoch2 := relocate m1.epoch selector mE
            if r.1 = 0 then some (0, ⟨m1.st, epoch2⟩)
            else
              let entry := r.1
              let m2 : Lin := ⟨m1.st.setSeg selector r.2, epoch2⟩
              match ATOM_GetTableLin m2 selector false 0 false with
              | some (some table2, _) =>
                let entryPtr := PTR_SEG_OFF_TO_LIN m2 selector entry
                match m2.deref table2, m2.deref entryPtr, str.read m2 with
                | some t2, some ep, some a2 =>
                  let seg2 := m2.st.seg selector
                  let tbl := seg2.tables t2
                  let e : ATOMENTRY :=
                    { next := tbl.entries hash, refCount := 1, length := len,
                      str := strncpy a2.bytes (ae_len len - 6 + 1) }
                  let seg3 : Segment := { seg2 with atoms := Function.update seg2.atoms ep e }
                  let tbl3 : ATOMTABLE :=
                    { tbl with entries := Function.update tbl.entries hash entry }
                  let seg4 : Segment :=
                    { seg3 with tables := Function.update seg3.tables t2 tbl3 }
                  some (HANDLETOATOM entry, ⟨m2.st.setSeg selector seg4, m2.epoch⟩)
                | _, _, _ => none
              | _ => none
          | some entry =>
            match m1.deref (PTR_SEG_OFF_TO_LIN m1 selector entry) with
            | none => none
            | some ep =>
              let entryPtr := seg.atoms ep
              let e : ATOMENTRY :=
                { entryPtr with refCount := (entryPtr.refCount + 1) % 65536 }
              let seg1 : Segment := { seg with atoms := Function.update seg.atoms ep e }
              some (HANDLETOATOM entry, ⟨m1.st.setSeg selector seg1, m1.epoch⟩)
        | _, _ => none

/-- The fresh state with every segment at its first placement. -/
def Lin.fresh : Lin := ⟨State.fresh, fun _ => 0⟩

/-- The string "hello" at offset 256 of segment 7, the address resolved in the
first placement of the segment. -/
def helloInSeg : StrPtr := .seg ⟨7, 256, 0⟩ [104, 101, 108, 108, 111]

/-- The macro `HIWORD`: the high word of a 32-bit value, the selector of a `SEGPTR`. -/
def HIWORD (x : Nat) : Nat := x / 65536 % 65536

/-- The macro `LOWORD`: the low word of a 32-bit value, the offset of a `SEGPTR`. -/
def LOWORD (x : Nat) : Nat := x % 65536

/-- The macro `SELECTOR_TO_ENTRY(sel)` of the header `ldt.h` (not in `atom.c`),
`(((int)(sel) & 0xffff) >> 3)`: the index of the descriptor of a selector. -/
def SELECTOR_TO_ENTRY (sel : Nat) : Nat := (sel % 65536) >>> 3

/-- The function `lstrcpynA(dst, src, n)` (its source is not in `atom.c`): the
string copied to `dst`, at most `n - 1` bytes of `src`. -/
def lstrcpynA (src : List Nat) (n : Nat) : List Nat := src.take (n - 1)

/-- The function `AddAtom16(str)` with the linear addresses it uses.  `ds` is
`CURRENT_DS`, `str` the `SEGPTR` and `s` the bytes of the string at `str`; the
buffer the string is copied to is on the stack, outside the segments of the
arena.  `mT` and `mE` tell whether the allocation of the table and of the entry
relocate the segment `ds`. -/
def AddAtom16 (m : Lin) (ds str : Nat) (s : List Nat) (hTable hEntry : Nat) (mT mE : Bool) :
    Option (Nat × Lin) :=
  if HIWORD str = 0 then some (LOWORD str, m)
  else if SELECTOR_TO_ENTRY (LOWORD str) = SELECTOR_TO_ENTRY ds then
    ATOM_AddAtomLin m ds (.ext (lstrcpynA s (MAX_ATOM_LEN + 1))) hTable hEntry mT mE
  else
    ATOM_AddAtomLin m ds (.seg (PTR_SEG_OFF_TO_LIN m (HIWORD str) (LOWORD str)) s)
      hTable hEntry mT mE

/-- The size `sizeof(ATOMENTRY)`: `next` and `refCount` of 2 bytes each,
`length` and `str[1]` of 1 byte each. -/
def SIZEOF_ATOMENTRY : Nat := 6

/-- The offset of the field `str` in an `ATOMENTRY`. -/
def OFFSET_str : Nat := 5

/-- The size of the local buffer `text[8]` of `ATOM_GetAtomName`. -/
def TEXT_SIZE : Nat := 8

/-- The only difference between the states `st` and `st1` is the reference
count of the entry at `e` of segment `sel`, which is `c` in `st1`: the global
table designation, the other segments, the registered table, the tables (the
bucket arrays), the arena and every other entry are the same, and so are
`next`, `length` and `str` of the entry. -/
def OnlyRefCount (st st1 : State) (sel e c : Nat) : Prop :=
  st1.ATOM_GlobalTable = st.ATOM_GlobalTable ∧
  (∀ sel2, sel2 ≠ sel → st1.seg sel2 = st.seg sel2) ∧
  (st1.seg sel).atomtable = (st.seg sel).atomtable ∧
  (st1.seg sel).tables = (st.seg sel).tables ∧
  (st1.seg sel).arena = (st.seg sel).arena ∧
  (∀ x, x ≠ e → (st1.seg sel).atoms x = (st.seg sel).atoms x) ∧
  ((st1.seg sel).atoms e).next = ((st.seg sel).atoms e).next ∧
  ((st1.seg sel).atoms e).length = ((st.seg sel).atoms e).length ∧
  ((st1.seg sel).atoms e).str = ((st.seg sel).atoms e).str ∧
  ((st1.seg sel).atoms e).refCount = c

/-- The state in which `ATOM_AddAtom` walks the chain: the state after
`ATOM_GetTable` with `create = TRUE` (the state of the call when the segment has a
table). -/
def State.withTable (st : State) (sel hT : Nat) : State := (ATOM_GetTable st sel true hT).2

/-! ## Lemmas: the handle/atom transform -/

theorem HANDLETOATOM_lt (h : Nat) : HANDLETOATOM h < 65536 := by
  unfold HANDLETOATOM; omega

theorem HANDLETOATOM_ge (h : Nat) : 0xc000 ≤ HANDLETOATOM h := by
  unfold HANDLETOATOM
  apply Nat.le_of_testBit
  intro i hi
  have h16 : (65536 : Nat) = 2 ^ 16 := by norm_num
  rw [h16, Nat.testBit_mod_two_pow, Nat.testBit_or, hi]
  have : i < 16 := by
    by_contra hge
    have hlt : (0xc000 : Nat) < 2 ^ i :=
      lt_of_lt_of_le (by norm_num) (Nat.pow_le_pow_right (by norm_num) (not_lt.mp hge))
    rw [Nat.testBit_lt_two_pow hlt] at hi
    exact Bool.false_ne_true hi
  simp [this]

theorem HANDLETOATOM_eq (h : Nat) (hlt : h < 65536) : HANDLETOATOM h = 0xc000 + h / 4 := by
  unfold HANDLETOATOM
  have hb : h / 4 < 2 ^ 14 := by norm_num; omega
  have e := Nat.mul_add_lt_is_or hb 3
  have e2 : h >>> 2 = h / 4 := by rw [Nat.shiftRight_eq_div_pow]
  rw [e2]
  norm_num at e
  rw [← e]
  omega

theorem ATOMTOHANDLE_HANDLETOATOM (h : Nat) (h4 : h % 4 = 0) (hlt : h < 65536) :
    ATOMTOHANDLE (HANDLETOATOM h) = h := by
  rw [HANDLETOATOM_eq h hlt]
  unfold ATOMTOHANDLE
  rw [Nat.shiftLeft_eq]
  omega

theorem HANDLETOATOM_inj (h1 h2 : Nat) (a1 : h1 % 4 = 0) (l1 : h1 < 65536)
    (a2 : h2 % 4 = 0) (l2 : h2 < 65536) (e : HANDLETOATOM h1 = HANDLETOATOM h2) : h1 = h2 := by
  rw [HANDLETOATOM_eq h1 l1, HANDLETOATOM_eq h2 l2] at e
  omega

/-! ## Lemmas: strings -/

theorem byteAt_nil (i : Nat) : byteAt [] i = 0 := by simp [byteAt]

theorem byteAt_cons_zero (a : Nat) (s : List Nat) : byteAt (a :: s) 0 = a := by simp [byteAt]

theorem byteAt_cons_succ (a : Nat) (s : List Nat) (i : Nat) :
    byteAt (a :: s) (i + 1) = byteAt s i := by simp [byteAt]

theorem byteAt_tail (s : List Nat) (i : Nat) : byteAt s.tail i = byteAt s (i + 1) := by
  cases s <;> simp [byteAt]

theorem byteAt_take (s : List Nat) (k i : Nat) (h : i < k) : byteAt (s.take k) i = byteAt s i := by
  induction s generalizing k i with
  | nil => simp [byteAt]
  | cons a s ih =>
    cases k with
    | zero => omega
    | succ k =>
      cases i with
      | zero => simp [byteAt]
      | succ i =>
        rw [List.take_succ_cons, byteAt_cons_succ, byteAt_cons_succ]
        exact ih k i (by omega)

theorem byteAt_of_le (s : List Nat) (i : Nat) (h : s.length ≤ i) : byteAt s i = 0 := by
  induction s generalizing i with
  | nil => simp [byteAt]
  | cons a s ih =>
    cases i with
    | zero => simp at h
    | succ i => rw [byteAt_cons_succ]; exact ih i (by simpa using h)

theorem byteAt_mem (s : List Nat) (i : Nat) (h : i < s.length) : byteAt s i ∈ s := by
  induction s generalizing i with
  | nil => simp at h
  | cons a s ih =>
    cases i with
    | zero => simp [byteAt]
    | succ i =>
      rw [byteAt_cons_succ]
      exact List.mem_cons_of_mem _ (ih i (by simpa using h))

theorem toupper_eq_zero (c : Nat) : toupper c = 0 ↔ c = 0 := by
  unfold toupper; split <;> omega

theorem toupper_byteAt_map (s : List Nat) (i : Nat) :
    byteAt (s.map toupper) i = toupper (byteAt s i) := by
  induction s generalizing i with
  | nil => simp [byteAt, toupper]
  | cons a s ih =>
    cases i with
    | zero => simp [byteAt]
    | succ i => rw [List.map_cons, byteAt_cons_succ, byteAt_cons_succ]; exact ih i

theorem ciEq_length {s t : List Nat} (h : ciEq s t) : s.length = t.length := by
  have := congrArg List.length h
  simpa using this

theorem ciEq_ciUpTo {s t : List Nat} (h : ciEq s t) (n : Nat) : ciUpTo n s t := by
  intro i _
  rw [← toupper_byteAt_map, ← toupper_byteAt_map, h]

theorem ciUpTo_of_take {s t : List Nat} (k : Nat) (h : ciEq (s.take k) (t.take k)) :
    ciUpTo k s t := by
  intro i hi
  have := ciEq_ciUpTo h k i hi
  rwa [byteAt_take s k i hi, byteAt_take t k i hi] at this

theorem ciUpTo_mono {n m : Nat} {s t : List Nat} (h : ciUpTo n s t) (hm : m ≤ n) :
    ciUpTo m s t := fun i hi => h i (by omega)

theorem ciUpTo_tail {n : Nat} {s t : List Nat} (h : ciUpTo (n + 1) s t) :
    ciUpTo n s.tail t.tail := by
  intro i hi
  rw [byteAt_tail, byteAt_tail]
  exact h (i + 1) (by omega)

theorem lstrncmpiA_eq_zero_of_ciUpTo (n : Nat) (s t : List Nat) (h : ciUpTo n s t) :
    lstrncmpiA s t n = 0 := by
  induction n generalizing s t with
  | zero => simp [lstrncmpiA]
  | succ n ih =>
    have h0 := h 0 (by omega)
    simp only [lstrncmpiA, h0, ne_eq, not_true_eq_false, if_false]
    split
    · rfl
    · exact ih _ _ (ciUpTo_tail h)

/-- A match of the comparison on `n` bytes of which those of `t` are not NUL is
an equality up to case of these bytes. -/
theorem ciUpTo_of_lstrncmpiA_eq_zero (n : Nat) (s t : List Nat)
    (hnz : ∀ i, i < n → byteAt t i ≠ 0) (h : lstrncmpiA s t n = 0) : ciUpTo n s t := by
  induction n generalizing s t with
  | zero => intro i hi; omega
  | succ n ih =>
    simp only [lstrncmpiA] at h
    by_cases hc : toupper (byteAt s 0) = toupper (byteAt t 0)
    · simp only [hc, ne_eq, not_true_eq_false, if_false] at h
      have hz : ¬ toupper (byteAt t 0) = 0 := by
        rw [toupper_eq_zero]; exact hnz 0 (by omega)
      simp only [hz, if_false] at h
      have hrec := ih s.tail t.tail
        (fun i hi => by rw [byteAt_tail]; exact hnz (i + 1) (by omega)) h
      intro i hi
      cases i with
      | zero => exact hc
      | succ i =>
        have := hrec i (by omega)
        rwa [byteAt_tail, byteAt_tail] at this
    · simp only [ne_eq, hc, not_false_eq_true, if_true] at h
      exfalso
      apply hc
      have : ((toupper (byteAt s 0) : Nat) : Int) = ((toupper (byteAt t 0) : Nat) : Int) := by
        omega
      exact_mod_cast this

/-- Two bytes that are equal up to ASCII case are read by `ATOM_Hash` as the
same value: the bytes that differ are letters, which are not negative. -/
theorem toupperInt_charAt (s t : List Nat) (i : Nat)
    (h : toupper (byteAt s i) = toupper (byteAt t i)) :
    toupperInt (charAt s i) = toupperInt (charAt t i) := by
  unfold toupper at h
  unfold toupperInt charAt
  split_ifs at h ⊢ <;> omega

theorem ATOM_Hash_congr (entries len : Nat) (s t : List Nat) (h : ciUpTo len s t) :
    ATOM_Hash entries s len = ATOM_Hash entries t len := by
  unfold ATOM_Hash
  congr 1
  apply List.foldl_ext
  intro a i hi
  rw [toupperInt_charAt s t i (h i (by simpa using hi))]

/-! ## Lemmas: integer atoms -/

theorem isspace_toupper (c : Nat) : isspace (toupper c) = isspace c := by
  rw [Bool.eq_iff_iff]
  unfold isspace toupper
  split <;> simp
  all_goals omega

theorem isdigit_toupper (c : Nat) : isdigit (toupper c) = isdigit c := by
  rw [Bool.eq_iff_iff]
  unfold isdigit toupper
  split <;> simp
  all_goals omega

theorem toupper_of_isdigit (c : Nat) (h : isdigit c = true) : toupper c = c := by
  unfold isdigit at h
  unfold toupper
  simp at h
  split <;> omega

theorem toupper_eq_iff_of_lt (c k : Nat) (hk : k < 65) : toupper c = k ↔ c = k := by
  unfold toupper; split <;> omega

theorem head?_map_toupper_eq (l : List Nat) (k : Nat) (hk : k < 65) :
    (l.map toupper).head? = some k ↔ l.head? = some k := by
  cases l with
  | nil => simp
  | cons a l => simp [toupper_eq_iff_of_lt a k hk]

theorem takeWhile_isdigit_map_toupper (l : List Nat) :
    (l.map toupper).takeWhile isdigit = l.takeWhile isdigit := by
  induction l with
  | nil => rfl
  | cons a l ih =>
    simp only [List.map_cons, List.takeWhile_cons, isdigit_toupper]
    split
    · rename_i h; rw [toupper_of_isdigit a h, ih]
    · rfl

theorem takeWhile_isspace_map_toupper (l : List Nat) :
    ((l.map toupper).takeWhile isspace).length = (l.takeWhile isspace).length := by
  induction l with
  | nil => rfl
  | cons a l ih =>
    simp only [List.map_cons, List.takeWhile_cons, isspace_toupper]
    split
    · simp [ih]
    · rfl

theorem dropWhile_isspace_map_toupper (l : List Nat) :
    (l.map toupper).dropWhile isspace = (l.dropWhile isspace).map toupper := by
  induction l with
  | nil => rfl
  | cons a l ih =>
    simp only [List.map_cons, List.dropWhile_cons, isspace_toupper]
    split
    · exact ih
    · rfl

theorem strtol_map_toupper (s : List Nat) : strtol (s.map toupper) = strtol s := by
  unfold strtol
  simp only [dropWhile_isspace_map_toupper, takeWhile_isspace_map_toupper,
    head?_map_toupper_eq _ 45 (by norm_num), head?_map_toupper_eq _ 43 (by norm_num),
    ← List.map_drop, takeWhile_isdigit_map_toupper]

theorem ATOM_IsIntAtom_map_toupper (s : List Nat) :
    ATOM_IsIntAtom (.str (s.map toupper)) = ATOM_IsIntAtom (.str s) := by
  unfold ATOM_IsIntAtom
  simp only [toupper_byteAt_map, ← List.map_tail, strtol_map_toupper, ne_eq,
    toupper_eq_iff_of_lt _ 35 (by norm_num), toupper_eq_zero]

theorem ATOM_IsIntAtom_ciEq {s t : List Nat} (h : ciEq s t) :
    ATOM_IsIntAtom (.str s) = ATOM_IsIntAtom (.str t) := by
  rw [← ATOM_IsIntAtom_map_toupper s, ← ATOM_IsIntAtom_map_toupper t, h]

/-! ## Lemmas: the operations on a segment with a table -/

@[simp] theorem setSeg_seg_same (st : State) (sel : Nat) (seg : Segment) :
    (st.setSeg sel seg).seg sel = seg := by simp [State.setSeg]

theorem setSeg_seg_ne (st : State) (sel sel2 : Nat) (seg : Segment) (h : sel2 ≠ sel) :
    (st.setSeg sel seg).seg sel2 = st.seg sel2 := by simp [State.setSeg, h]

@[simp] theorem setSeg_global (st : State) (sel : Nat) (seg : Segment) :
    (st.setSeg sel seg).ATOM_GlobalTable = st.ATOM_GlobalTable := rfl

@[simp] theorem setSeg_setSeg (st : State) (sel : Nat) (seg seg2 : Segment) :
    (st.setSeg sel seg).setSeg sel seg2 = st.setSeg sel seg2 := by
  simp [State.setSeg]

theorem ATOM_GetTable_of_hasTable (st : State) (sel : Nat) (create : Bool) (h : Nat)
    (ht : HasTable (st.seg sel)) :
    ATOM_GetTable st sel create h = (some (st.seg sel).atomtable, st) := by
  unfold ATOM_GetTable
  simp only [ht.1, ht.2, ne_eq, not_false_eq_true, and_self, if_true]

theorem ATOM_AddAtom_new (st : State) (sel : Nat) (s : List Nat) (hT hE : Nat)
    (hint : ATOM_IsIntAtom (.str s) = none) (ht : HasTable (st.seg sel))
    (hfind : findEntry (st.seg sel) s (atomLen s) CHAIN_FUEL
      ((st.seg sel).head ((st.seg sel).hashOf s)) = some 0)
    (hE0 : hE ≠ 0) :
    ATOM_AddAtom st sel (.str s) hT hE
      = some (HANDLETOATOM hE, st.setSeg sel ((st.seg sel).link s hE)) := by
  have h1 := ht.1
  have h2 := ht.2
  unfold ATOM_AddAtom
  simp only [hint, LPCSTR.bytes, ATOM_GetTable_of_hasTable st sel true hT ht, MAX_ATOM_LEN]
  simp only [Segment.head, Segment.hashOf, Segment.table, atomLen] at hfind
  simp only [hfind, LOCAL_Alloc, hE0, if_false]
  simp only [ATOM_GetTable, setSeg_seg_same, h1, h2, ne_eq, not_false_eq_true, and_self, if_true]
  simp [Segment.link, Segment.head, Segment.hashOf, Segment.table, atomLen]

theorem ATOM_AddAtom_existing (st : State) (sel : Nat) (s : List Nat) (hT hE e : Nat)
    (hint : ATOM_IsIntAtom (.str s) = none) (ht : HasTable (st.seg sel))
    (hfind : findEntry (st.seg sel) s (atomLen s) CHAIN_FUEL
      ((st.seg sel).head ((st.seg sel).hashOf s)) = some e)
    (he0 : e ≠ 0) :
    ATOM_AddAtom st sel (.str s) hT hE
      = some (HANDLETOATOM e, st.setSeg sel
          ((st.seg sel).setRef e ((((st.seg sel).atoms e).refCount + 1) % 65536))) := by
  obtain ⟨k, rfl⟩ := Nat.exists_eq_succ_of_ne_zero he0
  unfold ATOM_AddAtom
  simp only [hint, LPCSTR.bytes, ATOM_GetTable_of_hasTable st sel true hT ht, MAX_ATOM_LEN]
  simp only [Segment.head, Segment.hashOf, Segment.table, atomLen] at hfind
  simp only [hfind]
  rfl

theorem ATOM_AddAtom_alloc_fails (st : State) (sel : Nat) (s : List Nat) (hT : Nat)
    (hint : ATOM_IsIntAtom (.str s) = none) (ht : HasTable (st.seg sel))
    (hfind : findEntry (st.seg sel) s (atomLen s) CHAIN_FUEL
      ((st.seg sel).head ((st.seg sel).hashOf s)) = some 0) :
    ATOM_AddAtom st sel (.str s) hT 0 = some (0, st) := by
  unfold ATOM_AddAtom
  simp only [hint, LPCSTR.bytes, ATOM_GetTable_of_hasTable st sel true hT ht, MAX_ATOM_LEN]
  simp only [Segment.head, Segment.hashOf, Segment.table, atomLen] at hfind
  simp only [hfind, LOCAL_Alloc, if_true]

theorem ATOM_FindAtom_of_hasTable (st : State) (sel : Nat) (s : List Nat) (e : Nat)
    (hint : ATOM_IsIntAtom (.str s) = none) (ht : HasTable (st.seg sel))
    (hfind : findEntry (st.seg sel) s (atomLen s) CHAIN_FUEL
      ((st.seg sel).head ((st.seg sel).hashOf s)) = some e) :
    ATOM_FindAtom st sel (.str s) = some (if e = 0 then 0 else HANDLETOATOM e, st) := by
  unfold ATOM_FindAtom
  simp only [hint, LPCSTR.bytes, ATOM_GetTable_of_hasTable st sel false 0 ht]
  simp only [Segment.head, Segment.hashOf, Segment.table, atomLen] at hfind
  simp only [hfind]
  cases e with
  | zero => rfl
  | succ k => rfl

theorem CHAIN_FUEL_eq : CHAIN_FUEL = 65535 + 1 := rfl

theorem findEntry_null (seg : Segment) (s : List Nat) (len fuel : Nat) :
    findEntry seg s len (fuel + 1) 0 = some 0 := by
  simp [findEntry]

theorem findEntry_hit (seg : Segment) (s : List Nat) (fuel e : Nat) (he : e ≠ 0)
    (hm : seg.isMatch s e) : findEntry seg s (atomLen s) (fuel + 1) e = some e := by
  unfold Segment.isMatch at hm
  simp [findEntry, he, hm.1, hm.2]

theorem findEntry_miss (seg : Segment) (s : List Nat) (fuel e : Nat) (he : e ≠ 0)
    (hm : ¬ seg.isMatch s e) :
    findEntry seg s (atomLen s) (fuel + 1) e
      = findEntry seg s (atomLen s) fuel (seg.atoms e).next := by
  unfold Segment.isMatch at hm
  simp [findEntry, he, hm]

theorem chainOf_null (seg : Segment) (fuel : Nat) : chainOf seg (fuel + 1) 0 = some [] := by
  simp [chainOf]

theorem chainOf_cons (seg : Segment) (fuel h : Nat) (h0 : h ≠ 0) :
    chainOf seg (fuel + 1) h = (chainOf seg fuel (seg.atoms h).next).map (fun l => h :: l) := by
  simp [chainOf, h0]

theorem atomLen_le (s : List Nat) : atomLen s ≤ s.length := by
  unfold atomLen; split <;> omega

theorem atomLen_le_255 (s : List Nat) : atomLen s ≤ 255 := by
  unfold atomLen; split <;> omega

theorem atomLen_eq_min (s : List Nat) : atomLen s = min s.length 255 := by
  unfold atomLen; split <;> omega

theorem atomLen_take (s : List Nat) : atomLen s = (s.take 255).length := by
  rw [atomLen_eq_min, List.length_take]; omega

theorem atomLen_ciEq {s t : List Nat} (h : ciEq s t) : atomLen s = atomLen t := by
  unfold atomLen; rw [ciEq_length h]

theorem ae_len_ge (len : Nat) : len + 6 ≤ ae_len len := by
  unfold ae_len; omega

theorem getD_replicate_zero (k j : Nat) : (List.replicate k 0).getD j 0 = 0 := by
  induction k generalizing j with
  | zero => simp
  | succ k ih =>
    cases j with
    | zero => simp [List.replicate_succ]
    | succ j => simp [List.replicate_succ]

theorem byteAt_strncpy (s : List Nat) (n i : Nat) (hi : i < n) :
    byteAt (strncpy s n) i = byteAt s i := by
  unfold strncpy byteAt
  by_cases h : i < s.length
  · rw [List.getD_append _ _ _ _ (by rw [List.length_take]; omega)]
    exact byteAt_take s n i hi
  · rw [List.getD_append_right _ _ _ _ (by rw [List.length_take]; omega)]
    rw [List.getD_eq_default s 0 (by omega)]
    exact getD_replicate_zero _ _

/-- The entry `ATOM_AddAtom` writes for `s` passes the test of the walk for
every string equal to `s` up to case. -/
theorem isMatch_link (seg : Segment) (s t : List Nat) (h : Nat) (hci : ciEq s t) :
    (seg.link s h).isMatch t h := by
  unfold Segment.isMatch Segment.link
  simp only [Function.update_same]
  refine ⟨atomLen_ciEq hci, ?_⟩
  apply lstrncmpiA_eq_zero_of_ciUpTo
  intro i hi
  rw [byteAt_strncpy s _ i (by have := ae_len_ge (atomLen s); rw [← atomLen_ciEq hci] at hi; omega)]
  exact ciEq_ciUpTo hci _ i hi

theorem ATOM_Hash_lt (entries : Nat) (s : List Nat) (len : Nat) (h : entries ≠ 0) :
    ATOM_Hash entries s len < entries := by
  unfold ATOM_Hash
  exact Nat.mod_lt _ (Nat.pos_of_ne_zero h)

theorem chainsOf_single (seg : Segment) (k h m : Nat) (h0 : h ≠ 0)
    (hheads : ∀ b, b < m → seg.head b = if b = k then h else 0)
    (hnext : (seg.atoms h).next = 0) (a n : Nat) (ham : a + n ≤ m) :
    chainsOf seg (List.range' a n) = some (if a ≤ k ∧ k < a + n then [h] else []) := by
  induction n generalizing a with
  | zero =>
    have : ¬ (a ≤ k ∧ k < a + 0) := by omega
    simp [chainsOf, this]
  | succ n ih =>
    rw [List.range'_succ]
    simp only [chainsOf, ih (a + 1) (by omega), hheads a (by omega)]
    by_cases hak : a = k
    · subst hak
      have h1 : ¬ (a + 1 ≤ a ∧ a < a + 1 + n) := by omega
      have h2 : a ≤ a ∧ a < a + (n + 1) := by omega
      simp only [if_true, h1, h2, if_false, CHAIN_FUEL_eq, chainOf_cons seg _ h h0, hnext,
        chainOf_null, Option.map_some', List.append_nil, le_refl, and_self]
    · simp only [hak, if_false, CHAIN_FUEL_eq, chainOf_null, List.nil_append]
      congr 1
      by_cases hc : a + 1 ≤ k ∧ k < a + 1 + n
      · have : a ≤ k ∧ k < a + (n + 1) := by omega
        simp [hc, this]
      · have : ¬ (a ≤ k ∧ k < a + (n + 1)) := by omega
        simp [hc, this]

theorem tableEntries_single (seg : Segment) (k h : Nat) (hk : k < seg.table.size) (h0 : h ≠ 0)
    (hheads : ∀ b, b < seg.table.size → seg.head b = if b = k then h else 0)
    (hnext : (seg.atoms h).next = 0) :
    tableEntries seg = some [h] := by
  unfold tableEntries
  rw [List.range_eq_range',
    chainsOf_single seg k h seg.table.size h0 hheads hnext 0 seg.table.size (by omega)]
  simp [hk]

theorem head_of_emptyTable (seg : Segment) (he : EmptyTable seg) (b : Nat)
    (hb : b < seg.table.size) : seg.head b = 0 :=
  he.2 b hb

theorem head_hashOf_of_emptyTable (seg : Segment) (he : EmptyTable seg) (s : List Nat) :
    seg.head (seg.hashOf s) = 0 :=
  he.2 _ (ATOM_Hash_lt _ _ _ he.1.2)

theorem hashOf_lt (seg : Segment) (s : List Nat) (ht : HasTable seg) :
    seg.hashOf s < seg.table.size :=
  ATOM_Hash_lt _ _ _ ht.2

@[simp] theorem link_atomtable (seg : Segment) (s : List Nat) (h : Nat) :
    (seg.link s h).atomtable = seg.atomtable := rfl

@[simp] theorem link_table_size (seg : Segment) (s : List Nat) (h : Nat) :
    (seg.link s h).table.size = seg.table.size := by
  simp [Segment.link, Segment.table]

theorem link_table_entries (seg : Segment) (s : List Nat) (h : Nat) :
    (seg.link s h).table.entries = Function.update seg.table.entries (seg.hashOf s) h := by
  simp [Segment.link, Segment.table]

theorem link_hasTable (seg : Segment) (s : List Nat) (h : Nat) (ht : HasTable seg) :
    HasTable (seg.link s h) := by
  refine ⟨ht.1, ?_⟩
  have := link_table_size seg s h
  unfold Segment.table at this
  rw [this]
  exact ht.2

theorem link_hashOf (seg : Segment) (s t : List Nat) (h : Nat) :
    (seg.link s h).hashOf t = seg.hashOf t := by
  unfold Segment.hashOf
  rw [link_table_size]

theorem link_head (seg : Segment) (s : List Nat) (h b : Nat) :
    (seg.link s h).head b = if b = seg.hashOf s then h else seg.head b := by
  unfold Segment.head
  rw [link_table_entries, Function.update_apply]

theorem link_atoms_same (seg : Segment) (s : List Nat) (h : Nat) :
    (seg.link s h).atoms h =
      ⟨seg.head (seg.hashOf s), 1, atomLen s, strncpy s (ae_len (atomLen s) - 6 + 1)⟩ := by
  simp [Segment.link]

theorem hashOf_ciEq (seg : Segment) {s t : List Nat} (h : ciEq s t) :
    seg.hashOf s = seg.hashOf t := by
  unfold Segment.hashOf
  rw [← atomLen_ciEq h]
  exact ATOM_Hash_congr _ _ _ _ (ciEq_ciUpTo h _)

@[simp] theorem setRef_atomtable (seg : Segment) (h rc : Nat) :
    (seg.setRef h rc).atomtable = seg.atomtable := rfl

@[simp] theorem setRef_table (seg : Segment) (h rc : Nat) :
    (seg.setRef h rc).table = seg.table := rfl

@[simp] theorem setRef_head (seg : Segment) (h rc b : Nat) :
    (seg.setRef h rc).head b = seg.head b := rfl

@[simp] theorem setRef_hashOf (seg : Segment) (h rc : Nat) (s : List Nat) :
    (seg.setRef h rc).hashOf s = seg.hashOf s := rfl

theorem setRef_next (seg : Segment) (h rc e : Nat) :
    ((seg.setRef h rc).atoms e).next = (seg.atoms e).next := by
  unfold Segment.setRef
  by_cases he : e = h
  · subst he; simp
  · simp [Function.update_noteq he]

theorem setRef_refCount (seg : Segment) (h rc : Nat) :
    ((seg.setRef h rc).atoms h).refCount = rc := by
  simp [Segment.setRef]

theorem emptyTable_init (st : State) (sel n h : Nat) (hn : n ≠ 0) (h0 : h ≠ 0) :
    EmptyTable ((ATOM_InitTable st sel n h).2.seg sel) := by
  unfold ATOM_InitTable LOCAL_Alloc
  simp only [h0, EmptyTable, HasTable, Segment.table, if_false, setSeg_seg_same,
    Function.update_same, ne_eq, not_false_eq_true, hn, and_self, true_and]
  intro b hb
  simp [hb]

theorem fresh_empty : EmptyTable (State.fresh.seg 7) :=
  emptyTable_init State.blank 7 37 8 (by decide) (by decide)

/-- Claim C1. Starting from a valid table with all buckets empty, with the entry
allocation succeeding (`hE ≠ 0`), for every string `s` that is not an integer
atom and every `t` equal to `s` up to ASCII case, `ATOM_AddAtom` of `s` and then
of `t` both return the atom of the allocated handle, and the table then holds
exactly one entry, that handle, with reference count 2. -/
theorem C1_dedup_same_atom (st : State) (sel : Nat) (s t : List Nat) (hT hE hT2 hE2 : Nat)
    (hint : ATOM_IsIntAtom (.str s) = none) (hci : ciEq s t)
    (hempty : EmptyTable (st.seg sel)) (hE0 : hE ≠ 0) :
    ∃ st1 st2, ATOM_AddAtom st sel (.str s) hT hE = some (HANDLETOATOM hE, st1) ∧
      ATOM_AddAtom st1 sel (.str t) hT2 hE2 = some (HANDLETOATOM hE, st2) ∧
      tableEntries (st2.seg sel) = some [hE] ∧
      ((st2.seg sel).atoms hE).refCount = 2 := by
  have ht := hempty.1
  have hadd1 := ATOM_AddAtom_new st sel s hT hE hint ht
    (by rw [head_hashOf_of_emptyTable _ hempty, CHAIN_FUEL_eq, findEntry_null]) hE0
  have hint2 : ATOM_IsIntAtom (.str t) = none := by rw [← ATOM_IsIntAtom_ciEq hci]; exact hint
  have hhead : ((st.seg sel).link s hE).head (((st.seg sel).link s hE).hashOf t) = hE := by
    rw [link_hashOf, ← hashOf_ciEq _ hci, link_head, if_pos rfl]
  have hadd2 := ATOM_AddAtom_existing (st.setSeg sel ((st.seg sel).link s hE)) sel t hT2 hE2 hE
    hint2 (by rw [setSeg_seg_same]; exact link_hasTable _ _ _ ht)
    (by rw [setSeg_seg_same, hhead, CHAIN_FUEL_eq]
        exact findEntry_hit _ _ _ _ hE0 (isMatch_link _ _ _ _ hci)) hE0
  refine ⟨_, _, hadd1, hadd2, ?_, ?_⟩
  · simp only [setSeg_setSeg, setSeg_seg_same]
    apply tableEntries_single _ ((st.seg sel).hashOf s) hE _ hE0
    · intro b hb
      rw [setRef_head, link_head]
      split
      · rfl
      · rw [setRef_table, link_table_size] at hb
        exact head_of_emptyTable _ hempty b hb
    · rw [setRef_next, link_atoms_same]
      exact head_hashOf_of_emptyTable _ hempty _
    · rw [setRef_table, link_table_size]; exact hashOf_lt _ _ ht
  · simp only [setSeg_setSeg, setSeg_seg_same, setRef_refCount, link_atoms_same]

/-- Witness of claim C1: "Foo" and "FOO" in a fresh table of 37 buckets. -/
theorem C1_dedup_same_atom_witness :
    ∃ st1 st2, ATOM_AddAtom State.fresh 7 (.str [70, 111, 111]) 0 16
        = some (HANDLETOATOM 16, st1) ∧
      ATOM_AddAtom st1 7 (.str [70, 79, 79]) 0 0 = some (HANDLETOATOM 16, st2) ∧
      tableEntries (st2.seg 7) = some [16] ∧ ((st2.seg 7).atoms 16).refCount = 2 :=
  C1_dedup_same_atom State.fresh 7 [70, 111, 111] [70, 79, 79] 0 16 0 0 (by decide) (by decide)
    fresh_empty (by decide)

/-! ## Lemmas: repeated interns and releases -/

theorem setRef_setRef (seg : Segment) (h c d : Nat) :
    (seg.setRef h c).setRef h d = seg.setRef h d := by
  simp [Segment.setRef]

theorem setRef_hasTable (seg : Segment) (h c : Nat) (ht : HasTable seg) :
    HasTable (seg.setRef h c) := ht

theorem setRef_isMatch (seg : Segment) (h c : Nat) (s : List Nat) (e : Nat)
    (hm : seg.isMatch s e) : (seg.setRef h c).isMatch s e := by
  unfold Segment.isMatch Segment.setRef at *
  by_cases he : e = h
  · subst he; simpa using hm
  · simpa [Function.update_noteq he] using hm

theorem setRef_self (seg : Segment) (h : Nat) : seg.setRef h (seg.atoms h).refCount = seg := by
  unfold Segment.setRef
  simp

theorem link_refCount (seg : Segment) (s : List Nat) (h : Nat) :
    ((seg.link s h).atoms h).refCount = 1 := by
  rw [link_atoms_same]

/-- Interning a string whose entry heads its bucket bumps the count of it. -/
theorem ATOM_AddAtom_bump (st : State) (sel : Nat) (s : List Nat) (hT hE h c : Nat)
    (hint : ATOM_IsIntAtom (.str s) = none) (ht : HasTable (st.seg sel)) (h0 : h ≠ 0)
 :
    ATOM_AddAtom (st.setSeg sel (((st.seg sel).link s h).setRef h c)) sel (.str s) hT hE
      = some (HANDLETOATOM h,
          st.setSeg sel (((st.seg sel).link s h).setRef h ((c + 1) % 65536))) := by
  have hci : ciEq s s := rfl
  have := ATOM_AddAtom_existing (st.setSeg sel (((st.seg sel).link s h).setRef h c)) sel s hT hE h
    hint (by rw [setSeg_seg_same]; exact setRef_hasTable _ _ _ (link_hasTable _ _ _ ht))
    (by rw [setSeg_seg_same, setRef_head, setRef_hashOf, link_hashOf, link_head,
          if_pos rfl, CHAIN_FUEL_eq]
        exact findEntry_hit _ _ _ _ h0 (setRef_isMatch _ _ _ _ _ (isMatch_link _ _ _ _ hci))) h0
  rw [this]
  simp only [setSeg_setSeg, setSeg_seg_same, setRef_setRef, setRef_refCount]

theorem addMany_bump (st : State) (sel : Nat) (s : List Nat) (hT hE : Nat → Nat) (h : Nat)
    (hint : ATOM_IsIntAtom (.str s) = none) (ht : HasTable (st.seg sel)) (h0 : h ≠ 0)
    (n : Nat) :
    ∀ i c, addMany sel s hT hE i n
        (st.setSeg sel (((st.seg sel).link s h).setRef h (c % 65536)))
      = some (List.replicate n (HANDLETOATOM h),
          st.setSeg sel (((st.seg sel).link s h).setRef h ((c + n) % 65536))) := by
  induction n with
  | zero => intro i c; simp [addMany]
  | succ n ih =>
    intro i c
    simp only [addMany, ATOM_AddAtom_bump st sel s (hT i) (hE i) h _ hint ht h0]
    have e : (c % 65536 + 1) % 65536 = (c + 1) % 65536 := by omega
    rw [e, ih (i + 1) (c + 1)]
    have e2 : c + 1 + n = c + (n + 1) := by omega
    simp [List.replicate_succ, e2]

/-- The state after `n ≥ 1` interns of a string that was absent. -/
theorem addMany_new (st : State) (sel : Nat) (s : List Nat) (hT hE : Nat → Nat)
    (hint : ATOM_IsIntAtom (.str s) = none) (ht : HasTable (st.seg sel))
    (habs : findEntry (st.seg sel) s (atomLen s) CHAIN_FUEL
      ((st.seg sel).head ((st.seg sel).hashOf s)) = some 0)
    (h0 : hE 0 ≠ 0)
    (n : Nat) :
    addMany sel s hT hE 0 (n + 1) st
      = some (List.replicate (n + 1) (HANDLETOATOM (hE 0)),
          st.setSeg sel (((st.seg sel).link s (hE 0)).setRef (hE 0) ((n + 1) % 65536))) := by
  simp only [addMany, ATOM_AddAtom_new st sel s (hT 0) (hE 0) hint ht habs h0]
  have e : (st.seg sel).link s (hE 0)
      = ((st.seg sel).link s (hE 0)).setRef (hE 0) (1 % 65536) := by
    have := setRef_self ((st.seg sel).link s (hE 0)) (hE 0)
    rw [link_refCount] at this
    exact this.symm
  rw [e, addMany_bump st sel s hT hE (hE 0) hint ht h0 n (0 + 1) 1, ← e]
  have e2 : 1 + n = n + 1 := by omega
  simp [List.replicate_succ, e2]

theorem findPrev_head (seg : Segment) (t entry fuel b : Nat)
    (hb : readSlot seg t (.bucket b) = entry) :
    findPrev seg t entry (fuel + 1) (.bucket b) = some (.bucket b) := by
  simp [findPrev, hb]

/-- Releasing the atom of an entry that heads the bucket of its stored string:
the count is decremented as a `WORD`; when it reaches 0 the bucket takes the
entry's `next` and the block is freed. -/
theorem ATOM_DeleteAtom_head (st : State) (sel h : Nat) (ht : HasTable (st.seg sel))
    (h0 : h ≠ 0) (h4 : h % 4 = 0) (hlt : h < 65536)
    (hhead : (st.seg sel).head (ATOM_Hash (st.seg sel).table.size ((st.seg sel).atoms h).str
      ((st.seg sel).atoms h).length) = h) :
    ATOM_DeleteAtom st sel (HANDLETOATOM h)
      = some (0, st.setSeg sel
          (if (((st.seg sel).atoms h).refCount + 65535) % 65536 = 0 then
            LOCAL_Free (writeSlot ((st.seg sel).setRef h 0) (st.seg sel).atomtable
              ((st.seg sel).atoms h).next
              (.bucket (ATOM_Hash (st.seg sel).table.size ((st.seg sel).atoms h).str
                ((st.seg sel).atoms h).length))) h
          else (st.seg sel).setRef h ((((st.seg sel).atoms h).refCount + 65535) % 65536))) := by
  have hge : ¬ HANDLETOATOM h < MIN_STR_ATOM := by
    have := HANDLETOATOM_ge h
    unfold MIN_STR_ATOM; omega
  unfold ATOM_DeleteAtom
  simp only [hge, if_false, ATOM_GetTable_of_hasTable st sel false 0 ht,
    ATOMTOHANDLE_HANDLETOATOM h h4 hlt]
  simp only [Segment.head, Segment.table] at hhead
  rw [CHAIN_FUEL_eq, findPrev_head _ _ _ _ _ (by simpa [readSlot] using hhead)]
  simp only [readSlot, hhead, h0, if_false]
  by_cases hz : (((st.seg sel).atoms h).refCount + 65535) % 65536 = 0
  · simp only [hz, if_true, Segment.setRef, Segment.table, Function.update_same]
  · simp only [hz, if_false, Segment.setRef]

theorem hash_strncpy (entries : Nat) (s : List Nat) :
    ATOM_Hash entries (strncpy s (ae_len (atomLen s) - 6 + 1)) (atomLen s)
      = ATOM_Hash entries s (atomLen s) := by
  apply ATOM_Hash_congr
  intro i hi
  rw [byteAt_strncpy s _ i (by have := ae_len_ge (atomLen s); omega)]

theorem setRef_atoms_same (seg : Segment) (h c : Nat) :
    (seg.setRef h c).atoms h = ⟨(seg.atoms h).next, c, (seg.atoms h).length, (seg.atoms h).str⟩ := by
  simp [Segment.setRef]

/-- The hypothesis of `ATOM_DeleteAtom_head` for a linked entry. -/
theorem link_setRef_head (seg : Segment) (s : List Nat) (h c : Nat)
 :
    ((seg.link s h).setRef h c).head
      (ATOM_Hash ((seg.link s h).setRef h c).table.size (((seg.link s h).setRef h c).atoms h).str
        (((seg.link s h).setRef h c).atoms h).length) = h := by
  rw [setRef_atoms_same, link_atoms_same, setRef_table, link_table_size, hash_strncpy,
    setRef_head]
  have := link_head seg s h (seg.hashOf s)
  rw [if_pos rfl] at this
  exact this

/-- A release that leaves the count of a linked entry non-zero. -/
theorem ATOM_DeleteAtom_drop (st : State) (sel : Nat) (s : List Nat) (h c : Nat)
    (ht : HasTable (st.seg sel)) (h0 : h ≠ 0) (h4 : h % 4 = 0) (hlt : h < 65536)
    (hc : (c + 65535) % 65536 ≠ 0) :
    ATOM_DeleteAtom (st.setSeg sel (((st.seg sel).link s h).setRef h c)) sel (HANDLETOATOM h)
      = some (0, st.setSeg sel (((st.seg sel).link s h).setRef h ((c + 65535) % 65536))) := by
  have := ATOM_DeleteAtom_head (st.setSeg sel (((st.seg sel).link s h).setRef h c)) sel h
    (by rw [setSeg_seg_same]; exact setRef_hasTable _ _ _ (link_hasTable _ _ _ ht)) h0 h4 hlt
    (by rw [setSeg_seg_same]; exact link_setRef_head _ _ _ _)
  rw [this]
  simp only [setSeg_seg_same, setSeg_setSeg, setRef_refCount, hc, if_false, setRef_setRef]

/-- The release that brings the count of a linked entry to 0. -/
theorem ATOM_DeleteAtom_last (st : State) (sel : Nat) (s : List Nat) (h c : Nat)
    (ht : HasTable (st.seg sel)) (h0 : h ≠ 0) (h4 : h % 4 = 0) (hlt : h < 65536)
    (hc : (c + 65535) % 65536 = 0) :
    ATOM_DeleteAtom (st.setSeg sel (((st.seg sel).link s h).setRef h c)) sel (HANDLETOATOM h)
      = some (0, st.setSeg sel ((st.seg sel).unlink s h)) := by
  have := ATOM_DeleteAtom_head (st.setSeg sel (((st.seg sel).link s h).setRef h c)) sel h
    (by rw [setSeg_seg_same]; exact setRef_hasTable _ _ _ (link_hasTable _ _ _ ht)) h0 h4 hlt
    (by rw [setSeg_seg_same]; exact link_setRef_head _ _ _ _)
  rw [this]
  simp only [setSeg_seg_same, setSeg_setSeg, setRef_refCount, hc, if_true, setRef_setRef,
    setRef_atoms_same, link_atoms_same, setRef_table, link_table_size, hash_strncpy,
    setRef_atomtable, link_atomtable, Segment.unlink]
  rfl

theorem unlink_head (seg : Segment) (s : List Nat) (h : Nat)
 :
    (seg.unlink s h).head (seg.hashOf s) = seg.head (seg.hashOf s) := by
  simp [Segment.unlink, LOCAL_Free, writeSlot, Segment.head, Segment.table, Segment.setRef,
    Segment.link]

theorem unlink_arena (seg : Segment) (s : List Nat) (h : Nat) :
    (seg.unlink s h).arena h = none := by
  simp [Segment.unlink, LOCAL_Free]

theorem link_setRef_arena (seg : Segment) (s : List Nat) (h c : Nat) :
    ((seg.link s h).setRef h c).arena h ≠ none := by
  simp [Segment.link, Segment.setRef]

theorem deleteMany_drop (st : State) (sel : Nat) (s : List Nat) (h : Nat)
    (ht : HasTable (st.seg sel)) (h0 : h ≠ 0) (h4 : h % 4 = 0) (hlt : h < 65536)
    (k : Nat) :
    ∀ c, k < c → c ≤ 65536 →
      deleteMany sel (HANDLETOATOM h) k
          (st.setSeg sel (((st.seg sel).link s h).setRef h (c % 65536)))
        = some (st.setSeg sel (((st.seg sel).link s h).setRef h ((c - k) % 65536))) := by
  induction k with
  | zero => intro c _ _; simp [deleteMany]
  | succ k ih =>
    intro c hk hc
    have hnz : (c % 65536 + 65535) % 65536 ≠ 0 := by omega
    simp only [deleteMany, ATOM_DeleteAtom_drop st sel s h _ ht h0 h4 hlt hnz]
    have e : (c % 65536 + 65535) % 65536 = (c - 1) % 65536 := by omega
    rw [e, ih (c - 1) (by omega) (by omega)]
    have e2 : c - 1 - k = c - (k + 1) := by omega
    rw [e2]

theorem HANDLETOATOM_ne_zero (h : Nat) : HANDLETOATOM h ≠ 0 := by
  have := HANDLETOATOM_ge h
  omega

theorem findEntry_of_absent (st : State) (sel : Nat) (s : List Nat)
    (hint : ATOM_IsIntAtom (.str s) = none) (ht : HasTable (st.seg sel))
    (habs : Absent st sel s) :
    findEntry (st.seg sel) s (atomLen s) CHAIN_FUEL
      ((st.seg sel).head ((st.seg sel).hashOf s)) = some 0 := by
  unfold Absent at habs
  cases hf : findEntry (st.seg sel) s (atomLen s) CHAIN_FUEL
      ((st.seg sel).head ((st.seg sel).hashOf s)) with
  | none =>
    exfalso
    unfold ATOM_FindAtom at habs
    simp only [hint, LPCSTR.bytes, ATOM_GetTable_of_hasTable st sel false 0 ht] at habs
    simp only [Segment.head, Segment.hashOf, Segment.table, atomLen] at hf
    simp only [hf] at habs
    exact Option.noConfusion habs
  | some e =>
    rw [ATOM_FindAtom_of_hasTable st sel s e hint ht hf] at habs
    by_cases he : e = 0
    · rw [he]
    · simp [he, HANDLETOATOM_ne_zero] at habs

theorem absent_of_empty (st : State) (sel : Nat) (s : List Nat)
    (hint : ATOM_IsIntAtom (.str s) = none) (he : EmptyTable (st.seg sel)) : Absent st sel s := by
  unfold Absent
  rw [ATOM_FindAtom_of_hasTable st sel s 0 hint he.1
    (by rw [head_hashOf_of_emptyTable _ he, CHAIN_FUEL_eq, findEntry_null])]
  rfl

/-- Claim C2, amended. For every `N` with `1 ≤ N ≤ 65536` and every string `s`
that is not an integer atom and is absent from the table of the segment, when
the arena returns a non-zero 4-byte aligned 16-bit handle for the entry, `N`
interns of `s` followed by `N` releases of the returned atom behave as
`RefLifecycle` says: each of the first `N - 1` releases leaves the entry linked
with its 16-bit count decremented by one and the `N`th unlinks and frees it. -/
theorem C2_refcount_lifecycle (st : State) (sel : Nat) (s : List Nat) (hT hE : Nat → Nat)
    (N : Nat) (hint : ATOM_IsIntAtom (.str s) = none) (ht : HasTable (st.seg sel))
    (habs : Absent st sel s)
    (h0 : hE 0 ≠ 0) (h4 : hE 0 % 4 = 0) (hlt : hE 0 < 65536)
    (hN1 : 1 ≤ N) (hN : N ≤ 65536) : RefLifecycle st sel s hT hE N := by
  have hfind := findEntry_of_absent st sel s hint ht habs
  obtain ⟨n, rfl⟩ : ∃ n, N = n + 1 := ⟨N - 1, by omega⟩
  refine ⟨_, addMany_new st sel s hT hE hint ht hfind h0 n, ?_, ?_⟩
  · intro k hk
    have hd := deleteMany_drop st sel s (hE 0) ht h0 h4 hlt k (n + 1) (by omega) hN
    have hnz : ((n + 1 - k) % 65536 + 65535) % 65536 ≠ 0 := by omega
    refine ⟨_, _, hd, ATOM_DeleteAtom_drop st sel s (hE 0) _ ht h0 h4 hlt hnz, ?_, ?_, ?_⟩
    · rw [setSeg_seg_same, setRef_head, link_head, if_pos rfl]
    · rw [setSeg_seg_same]; exact link_setRef_arena _ _ _ _
    · simp only [setSeg_seg_same, setRef_refCount]
  · have hd := deleteMany_drop st sel s (hE 0) ht h0 h4 hlt n (n + 1) (by omega) hN
    have hz : ((n + 1 - n) % 65536 + 65535) % 65536 = 0 := by omega
    refine ⟨_, _, hd, ATOM_DeleteAtom_last st sel s (hE 0) _ ht h0 h4 hlt hz, ?_, ?_⟩
    · rw [setSeg_seg_same]; exact unlink_head _ _ _
    · rw [setSeg_seg_same]; exact unlink_arena _ _ _

/-- Witness of claim C2: three interns and three releases of "a" in a fresh table
of 37 buckets, the entry at handle 16. -/
theorem C2_refcount_lifecycle_witness :
    RefLifecycle State.fresh 7 [97] (fun _ => 0) (fun _ => 16) 3 :=
  C2_refcount_lifecycle State.fresh 7 [97] (fun _ => 0) (fun _ => 16) 3 (by decide)
    fresh_empty.1
    (absent_of_empty _ _ _ (by decide) fresh_empty) (by decide) (by decide) (by decide)
    (by decide) (by decide)

/-- Counterexample to claim C2 as stated (every `N ≥ 1`): with `N = 65537` interns
of "a" the 16-bit count has wrapped to 1, and the first of the `N` releases
already unlinks the entry, so the lifecycle fails. -/
theorem C2_counterexample :
    ¬ RefLifecycle State.fresh 7 [97] (fun _ => 0) (fun _ => 16) 65537 := by
  intro hL
  have he := fresh_empty
  have hint : ATOM_IsIntAtom (.str [97]) = none := by decide
  have hfind := findEntry_of_absent State.fresh 7 [97] hint he.1 (absent_of_empty _ _ _ hint he)
  have hadd := addMany_new State.fresh 7 [97] (fun _ => 0) (fun _ => 16) hint he.1 hfind
    (by decide) 65536
  obtain ⟨stN, h1, h2, _⟩ := hL
  rw [hadd] at h1
  have hst : stN = State.fresh.setSeg 7
      (((State.fresh.seg 7).link [97] 16).setRef 16 ((65536 + 1) % 65536)) := by
    have := Option.some.inj h1
    exact (Prod.mk.inj this).2.symm
  obtain ⟨stk, stk1, hk, hdel, hhead, _, _⟩ := h2 0 (by norm_num)
  simp only [deleteMany] at hk
  have hk2 : stk = stN := (Option.some.inj hk).symm
  rw [hk2, hst, ATOM_DeleteAtom_last State.fresh 7 [97] 16 _ he.1 (by decide) (by decide)
    (by decide) (by decide)] at hdel
  have hs1 : stk1 = State.fresh.setSeg 7 ((State.fresh.seg 7).unlink [97] 16) :=
    (Prod.mk.inj (Option.some.inj hdel)).2.symm
  rw [hs1, setSeg_seg_same, unlink_head _ _ _, head_hashOf_of_emptyTable _ he] at hhead
  exact absurd hhead (by decide)

/-! ## Lemmas: the cases of `ATOM_AddAtom` -/

theorem ATOM_AddAtom_diverges (st : State) (sel : Nat) (s : List Nat) (hT hE : Nat)
    (hint : ATOM_IsIntAtom (.str s) = none) (ht : HasTable (st.seg sel))
    (hfind : findEntry (st.seg sel) s (atomLen s) CHAIN_FUEL
      ((st.seg sel).head ((st.seg sel).hashOf s)) = none) :
    ATOM_AddAtom st sel (.str s) hT hE = none := by
  unfold ATOM_AddAtom
  simp only [hint, LPCSTR.bytes, ATOM_GetTable_of_hasTable st sel true hT ht, MAX_ATOM_LEN]
  simp only [Segment.head, Segment.hashOf, Segment.table, atomLen] at hfind
  simp only [hfind]

/-- On a segment with a table a call of `ATOM_AddAtom` that returns has failed
to allocate, has linked a new entry, or has found an entry. -/
theorem ATOM_AddAtom_cases (st : State) (sel : Nat) (s : List Nat) (hT hE a : Nat) (st1 : State)
    (hint : ATOM_IsIntAtom (.str s) = none) (ht : HasTable (st.seg sel))
    (hadd : ATOM_AddAtom st sel (.str s) hT hE = some (a, st1)) :
    (findEntry (st.seg sel) s (atomLen s) CHAIN_FUEL
        ((st.seg sel).head ((st.seg sel).hashOf s)) = some 0 ∧
      ((hE = 0 ∧ a = 0 ∧ st1 = st) ∨
       (hE ≠ 0 ∧ a = HANDLETOATOM hE ∧ st1 = st.setSeg sel ((st.seg sel).link s hE)))) ∨
    (∃ e, e ≠ 0 ∧
      findEntry (st.seg sel) s (atomLen s) CHAIN_FUEL
        ((st.seg sel).head ((st.seg sel).hashOf s)) = some e ∧
      a = HANDLETOATOM e ∧
      st1 = st.setSeg sel ((st.seg sel).setRef e ((((st.seg sel).atoms e).refCount + 1) % 65536))) := by
  cases hf : findEntry (st.seg sel) s (atomLen s) CHAIN_FUEL
      ((st.seg sel).head ((st.seg sel).hashOf s)) with
  | none =>
    rw [ATOM_AddAtom_diverges st sel s hT hE hint ht hf] at hadd
    exact Option.noConfusion hadd
  | some e =>
    by_cases he : e = 0
    · subst he
      left
      refine ⟨rfl, ?_⟩
      by_cases hE0 : hE = 0
      · subst hE0
        rw [ATOM_AddAtom_alloc_fails st sel s hT hint ht hf] at hadd
        have := Prod.mk.inj (Option.some.inj hadd)
        exact Or.inl ⟨rfl, this.1.symm, this.2.symm⟩
      · rw [ATOM_AddAtom_new st sel s hT hE hint ht hf hE0] at hadd
        have := Prod.mk.inj (Option.some.inj hadd)
        exact Or.inr ⟨hE0, this.1.symm, this.2.symm⟩
    · right
      rw [ATOM_AddAtom_existing st sel s hT hE e hint ht hf he] at hadd
      have := Prod.mk.inj (Option.some.inj hadd)
      exact ⟨e, he, rfl, this.1.symm, this.2.symm⟩

/-- Without a table `ATOM_AddAtom` first initialises one with 37 buckets. -/
theorem ATOM_AddAtom_create (st : State) (sel : Nat) (s : List Nat) (hT hE : Nat)
    (hint : ATOM_IsIntAtom (.str s) = none) (ht : ¬ HasTable (st.seg sel)) (hT0 : hT ≠ 0) :
    ATOM_AddAtom st sel (.str s) hT hE
      = ATOM_AddAtom (ATOM_InitTable st sel DEFAULT_ATOMTABLE_SIZE hT).2 sel (.str s) hT hE := by
  have he := emptyTable_init st sel DEFAULT_ATOMTABLE_SIZE hT (by decide) hT0
  have hr1 : (ATOM_InitTable st sel DEFAULT_ATOMTABLE_SIZE hT).1 ≠ 0 := by
    unfold ATOM_InitTable LOCAL_Alloc; simp [hT0]
  have hg : ATOM_GetTable st sel true hT
      = (some ((ATOM_InitTable st sel DEFAULT_ATOMTABLE_SIZE hT).2.seg sel).atomtable,
          (ATOM_InitTable st sel DEFAULT_ATOMTABLE_SIZE hT).2) := by
    unfold HasTable at ht
    unfold ATOM_GetTable
    simp only [ht, if_false, hr1, Bool.not_true, Bool.false_eq_true]
  conv_lhs => unfold ATOM_AddAtom
  conv_rhs => unfold ATOM_AddAtom
  simp only [hint, hg, ATOM_GetTable_of_hasTable _ sel true hT he.1]

theorem ATOM_AddAtom_no_table_fails (st : State) (sel : Nat) (s : List Nat) (hE : Nat)
    (hint : ATOM_IsIntAtom (.str s) = none) (ht : ¬ HasTable (st.seg sel)) :
    ∃ st1, ATOM_AddAtom st sel (.str s) 0 hE = some (0, st1) := by
  have hg : (ATOM_GetTable st sel true 0).1 = none := by
    unfold HasTable at ht
    unfold ATOM_GetTable ATOM_InitTable LOCAL_Alloc
    simp [ht]
  unfold ATOM_AddAtom
  simp only [hint]
  generalize ATOM_GetTable st sel true 0 = r at hg
  obtain ⟨r1, r2⟩ := r
  simp only at hg
  subst hg
  exact ⟨r2, rfl⟩

/-! ## Lemmas: `ATOM_GetAtomName` -/

theorem memcpy_length (src : List Nat) (n : Nat) : (memcpy src n).length = n := by
  induction n generalizing src with
  | zero => rfl
  | succ n ih => simp [memcpy, ih]

theorem byteAt_memcpy (src : List Nat) (n i : Nat) (hi : i < n) :
    byteAt (memcpy src n) i = byteAt src i := by
  induction n generalizing src i with
  | zero => omega
  | succ n ih =>
    cases i with
    | zero => simp [memcpy, byteAt_cons_zero]
    | succ i =>
      simp only [memcpy, byteAt_cons_succ]
      rw [ih src.tail i (by omega), byteAt_tail]

theorem list_ext_byteAt (a b : List Nat) (hl : a.length = b.length)
    (h : ∀ i, i < a.length → byteAt a i = byteAt b i) : a = b := by
  induction a generalizing b with
  | nil =>
    cases b with
    | nil => rfl
    | cons y b => simp at hl
  | cons x a ih =>
    cases b with
    | nil => simp at hl
    | cons y b =>
      have h0 := h 0 (by simp)
      rw [byteAt_cons_zero, byteAt_cons_zero] at h0
      rw [h0, ih b (by simpa using hl) (fun i hi => by
        have := h (i + 1) (by simpa using hi)
        rwa [byteAt_cons_succ, byteAt_cons_succ] at this)]

theorem ciEq_of_ciUpTo (a b : List Nat) (hl : a.length = b.length)
    (h : ciUpTo a.length a b) : ciEq a b := by
  unfold ciEq
  apply list_ext_byteAt
  · simp [hl]
  · intro i hi
    rw [toupper_byteAt_map, toupper_byteAt_map]
    exact h i (by simpa using hi)

theorem memcpy_eq_take (src : List Nat) (n : Nat) (h : n ≤ src.length) :
    memcpy src n = src.take n := by
  apply list_ext_byteAt
  · rw [memcpy_length, List.length_take]; omega
  · intro i hi
    rw [memcpy_length] at hi
    rw [byteAt_memcpy _ _ _ hi, byteAt_take _ _ _ hi]

theorem memcpy_strncpy (s : List Nat) (m n : Nat) (hn : n ≤ s.length) (hm : n ≤ m) :
    memcpy (strncpy s m) n = s.take n := by
  apply list_ext_byteAt
  · rw [memcpy_length, List.length_take]; omega
  · intro i hi
    rw [memcpy_length] at hi
    rw [byteAt_memcpy _ _ _ hi, byteAt_take _ _ _ hi, byteAt_strncpy _ _ _ (by omega)]

theorem take_atomLen (s : List Nat) : s.take (atomLen s) = s.take 255 := by
  unfold atomLen
  split
  · rfl
  · rw [List.take_of_length_le (le_refl _), List.take_of_length_le (by omega)]

/-- The name of a string atom whose stored length is below the capacity. -/
theorem ATOM_GetAtomName_entry (st : State) (sel h : Nat) (count : Int)
    (ht : HasTable (st.seg sel)) (h4 : h % 4 = 0) (hlt : h < 65536)
    (hcmax : count ≤ INT_MAX) (hlen : (((st.seg sel).atoms h).length : Int) < count) :
    ATOM_GetAtomName st sel (HANDLETOATOM h) count
      = ⟨((st.seg sel).atoms h).length,
          memcpy ((st.seg sel).atoms h).str ((st.seg sel).atoms h).length ++ [0], st⟩ := by
  have hge : ¬ HANDLETOATOM h < MIN_STR_ATOM := by
    have := HANDLETOATOM_ge h
    unfold MIN_STR_ATOM; omega
  have hc0 : count ≠ 0 := by omega
  unfold INT_MAX at hcmax
  have hcl : ¬ ((st.seg sel).atoms h).length ≥ (count % 4294967296).toNat := by omega
  unfold ATOM_GetAtomName
  simp only [hc0, if_false, hge, ATOM_GetTable_of_hasTable st sel false 0 ht,
    ATOMTOHANDLE_HANDLETOATOM h h4 hlt, ATOM_MakePtr, hcl]

theorem findEntry_some (seg : Segment) (s : List Nat) (fuel start e : Nat)
    (h : findEntry seg s (atomLen s) fuel start = some e) (he : e ≠ 0) : seg.isMatch s e := by
  induction fuel generalizing start with
  | zero => simp [findEntry] at h
  | succ fuel ih =>
    by_cases h0 : start = 0
    · subst h0
      rw [findEntry_null] at h
      exact absurd (Option.some.inj h).symm he
    · by_cases hm : seg.isMatch s start
      · rw [findEntry_hit _ _ _ _ h0 hm] at h
        rw [← Option.some.inj h]; exact hm
      · rw [findEntry_miss _ _ _ _ h0 hm] at h
        exact ih _ h

/-- The walk from a bucket of the table, or from a linked entry, ends with 0 or
with a linked entry, which is a handle of the arena when the stored handles
are. -/
theorem findEntry_isHandle (seg : Segment) (s : List Nat) (fuel start e : Nat)
    (hal : AlignedSeg seg) (hs : start = 0 ∨ seg.Linked start)
    (h : findEntry seg s (atomLen s) fuel start = some e) : IsHandle e := by
  induction fuel generalizing start with
  | zero => simp [findEntry] at h
  | succ fuel ih =>
    by_cases h0 : start = 0
    · subst h0
      rw [findEntry_null] at h
      rw [← Option.some.inj h]; exact ⟨rfl, by norm_num⟩
    · have hl : seg.Linked start := hs.resolve_left h0
      by_cases hm : seg.isMatch s start
      · rw [findEntry_hit _ _ _ _ h0 hm] at h
        rw [← Option.some.inj h]; exact hal _ hl
      · rw [findEntry_miss _ _ _ _ h0 hm] at h
        by_cases hn : (seg.atoms start).next = 0
        · exact ih _ (Or.inl hn) h
        · exact ih _ (Or.inr (Segment.Linked.next start hl hn)) h

/-- The head of a bucket of a valid table is 0 or a linked entry. -/
theorem head_linked (seg : Segment) (ht : HasTable seg) (b : Nat) (hb : b < seg.table.size) :
    seg.head b = 0 ∨ seg.Linked (seg.head b) := by
  by_cases h0 : seg.head b = 0
  · exact Or.inl h0
  · exact Or.inr (Segment.Linked.head b ht hb h0)

theorem byteAt_ne_zero_of_isCStr (s : List Nat) (hs : IsCStr s) (i : Nat) (hi : i < s.length) :
    byteAt s i ≠ 0 := by
  have := (hs _ (byteAt_mem s i hi)).1
  omega

/-- The bytes `ATOM_GetAtomName` copies from an entry that passes the test of
the walk for the C string `s` are those of `s`, truncated, up to case. -/
theorem memcpy_of_isMatch (seg : Segment) (s : List Nat) (e : Nat) (hs : IsCStr s)
    (hm : seg.isMatch s e) :
    ciEq (memcpy (seg.atoms e).str (seg.atoms e).length) (s.take 255) := by
  unfold Segment.isMatch at hm
  have hup := ciUpTo_of_lstrncmpiA_eq_zero _ _ _
    (fun i hi => byteAt_ne_zero_of_isCStr s hs i (by have := atomLen_le s; omega)) hm.2
  apply ciEq_of_ciUpTo
  · rw [memcpy_length, hm.1, atomLen_take]
  · rw [memcpy_length, hm.1]
    intro i hi
    rw [byteAt_memcpy _ _ _ hi,
      byteAt_take _ _ _ (by have := atomLen_le_255 s; omega)]
    exact hup i hi

/-- No entry is linked in a table whose buckets are empty. -/
theorem not_linked_of_empty (seg : Segment) (he : EmptyTable seg) (h : Nat) :
    ¬ seg.Linked h := by
  intro hl
  induction hl with
  | head b _ hb hne => exact hne (head_of_emptyTable _ he b hb)
  | next h _ _ ih => exact ih

theorem alignedSeg_of_empty (seg : Segment) (he : EmptyTable seg) : AlignedSeg seg :=
  fun h hl => absurd hl (not_linked_of_empty seg he h)

theorem alignedSeg_init (st : State) (sel n h : Nat) (hn : n ≠ 0) (h0 : h ≠ 0) :
    AlignedSeg ((ATOM_InitTable st sel n h).2.seg sel) :=
  alignedSeg_of_empty _ (emptyTable_init st sel n h hn h0)

theorem alignedSeg_fresh : AlignedSeg (State.fresh.seg 7) :=
  alignedSeg_init State.blank 7 37 8 (by decide) (by decide)

theorem C3_core (st : State) (sel : Nat) (s : List Nat) (hT hE a : Nat) (st1 : State)
    (count : Int) (hint : ATOM_IsIntAtom (.str s) = none) (hs : IsCStr s)
    (ht : HasTable (st.seg sel)) (hal : AlignedSeg (st.seg sel)) (hEh : IsHandle hE)
    (hc : 256 ≤ count) (hcmax : count ≤ INT_MAX)
    (hadd : ATOM_AddAtom st sel (.str s) hT hE = some (a, st1)) (ha : a ≠ 0) :
    (ATOM_GetAtomName st1 sel a count).ret = min s.length 255 ∧
    ∃ name, (ATOM_GetAtomName st1 sel a count).buffer = name ++ [0] ∧
      ciEq name (s.take 255) ∧
      (findEntry (st.seg sel) s (atomLen s) CHAIN_FUEL
        ((st.seg sel).head ((st.seg sel).hashOf s)) = some 0 → name = s.take 255) := by
  have h255 := atomLen_le_255 s
  rcases ATOM_AddAtom_cases st sel s hT hE a st1 hint ht hadd with
    ⟨_, ⟨_, ha0, _⟩ | ⟨_, rfl, rfl⟩⟩ | ⟨e, he, hf, rfl, rfl⟩
  · exact absurd ha0 ha
  · have hlen : ((((st.setSeg sel ((st.seg sel).link s hE)).seg sel).atoms hE).length : Int)
        < count := by
      rw [setSeg_seg_same, link_atoms_same]
      show ((atomLen s : Nat) : Int) < count
      omega
    rw [ATOM_GetAtomName_entry _ sel hE count
      (by rw [setSeg_seg_same]; exact link_hasTable _ _ _ ht) hEh.1 hEh.2 hcmax hlen]
    simp only [setSeg_seg_same, link_atoms_same]
    refine ⟨atomLen_eq_min s, s.take 255, ?_, rfl, fun _ => rfl⟩
    rw [memcpy_strncpy s _ _ (atomLen_le s) (by have := ae_len_ge (atomLen s); omega),
      take_atomLen]
  · have hm := findEntry_some _ _ _ _ _ hf he
    have heh := findEntry_isHandle _ _ _ _ _ hal (head_linked _ ht _ (hashOf_lt _ _ ht)) hf
    have hlen : ((((st.setSeg sel ((st.seg sel).setRef e
        ((((st.seg sel).atoms e).refCount + 1) % 65536))).seg sel).atoms e).length : Int)
        < count := by
      rw [setSeg_seg_same, setRef_atoms_same, hm.1]
      show ((atomLen s : Nat) : Int) < count
      omega
    rw [ATOM_GetAtomName_entry _ sel e count
      (by rw [setSeg_seg_same]; exact setRef_hasTable _ _ _ ht) heh.1 heh.2 hcmax hlen]
    simp only [setSeg_seg_same, setRef_atoms_same]
    refine ⟨by rw [hm.1]; exact atomLen_eq_min s, _, rfl, memcpy_of_isMatch _ s e hs hm, ?_⟩
    intro h0
    rw [hf] at h0
    exact absurd (Option.some.inj h0) he

/-- Claim C3, amended. For every state in which the handles stored in the table
of the segment (in its buckets and in the `next` field of the entries linked in
it) are handles of the arena, every C string `s` that is not an integer atom
and every capacity from 256 to `INT_MAX`, when `ATOM_AddAtom` of `s` succeeds with
atom `a` (the arena returning a handle for a new entry),
`ATOM_GetAtomName` of `a` returns `min |s| 255` and writes a name followed by
NUL that equals `s` truncated to 255 bytes up to ASCII case, and exactly when
`s` was absent before the call. -/
theorem C3_name_roundtrip (st : State) (sel : Nat) (s : List Nat) (hT hE a : Nat) (st1 : State)
    (count : Int) (hint : ATOM_IsIntAtom (.str s) = none) (hs : IsCStr s)
    (hal : AlignedSeg (st.seg sel)) (hEh : IsHandle hE)
    (hc : 256 ≤ count) (hcmax : count ≤ INT_MAX)
    (hadd : ATOM_AddAtom st sel (.str s) hT hE = some (a, st1)) (ha : a ≠ 0) :
    (ATOM_GetAtomName st1 sel a count).ret = min s.length 255 ∧
    ∃ name, (ATOM_GetAtomName st1 sel a count).buffer = name ++ [0] ∧
      ciEq name (s.take 255) ∧ (Absent st sel s → name = s.take 255) := by
  by_cases ht : HasTable (st.seg sel)
  · obtain ⟨h1, name, h2, h3, h4⟩ :=
      C3_core st sel s hT hE a st1 count hint hs ht hal hEh hc hcmax hadd ha
    exact ⟨h1, name, h2, h3, fun habs => h4 (findEntry_of_absent st sel s hint ht habs)⟩
  · by_cases hT0 : hT = 0
    · subst hT0
      obtain ⟨st2, h2⟩ := ATOM_AddAtom_no_table_fails st sel s hE hint ht
      rw [h2] at hadd
      exact absurd (Prod.mk.inj (Option.some.inj hadd)).1.symm ha
    · rw [ATOM_AddAtom_create st sel s hT hE hint ht hT0] at hadd
      have he := emptyTable_init st sel DEFAULT_ATOMTABLE_SIZE hT (by decide) hT0
      obtain ⟨h1, name, h2, h3, h4⟩ :=
        C3_core _ sel s hT hE a st1 count hint hs he.1
          (alignedSeg_init st sel _ hT (by decide) hT0) hEh hc hcmax hadd ha
      refine ⟨h1, name, h2, h3, fun _ => h4 ?_⟩
      rw [head_hashOf_of_emptyTable _ he, CHAIN_FUEL_eq, findEntry_null]

/-- Counterexample to claim C3 as stated: in the table that holds "hello",
`ATOM_AddAtom` of "Hello" succeeds with the atom 0xC004 of that entry and
`ATOM_GetAtomName` of it writes "hello", not "Hello". -/
theorem C3_counterexample :
    ATOM_IsIntAtom (.str [72, 101, 108, 108, 111]) = none ∧
    (ATOM_AddAtom State.withHello 7 (.str [72, 101, 108, 108, 111]) 0 20).map
        (fun r => (r.1, (ATOM_GetAtomName r.2 7 r.1 256).ret,
          (ATOM_GetAtomName r.2 7 r.1 256).buffer))
      = some (0xc004, 5, [104, 101, 108, 108, 111, 0]) ∧
    [104, 101, 108, 108, 111, 0] ≠ [72, 101, 108, 108, 111].take 255 ++ [0] := by
  decide

/-! ## Lemmas: decimal integer atoms -/

theorem digitChar_toNat : ∀ k, k < 10 → (Nat.digitChar k).toNat = 48 + k := by decide

theorem digitsValue_append (pre : List Nat) (x : Nat) :
    digitsValue (pre ++ [x]) = 10 * digitsValue pre + (x - 48) := by
  simp [digitsValue, List.foldl_append]

theorem toDigitsCore_spec (fuel : Nat) : ∀ (n : Nat) (ds : List Char), n < fuel →
    ∃ pre : List Nat, (Nat.toDigitsCore 10 fuel n ds).map Char.toNat = pre ++ ds.map Char.toNat ∧
      pre ≠ [] ∧ (∀ c ∈ pre, isdigit c = true) ∧ digitsValue pre = n ∧
      (∀ e, n < 10 ^ (e + 1) → pre.length ≤ e + 1) := by
  induction fuel with
  | zero => intro n ds h; omega
  | succ fuel ih =>
    intro n ds hf
    have hd := digitChar_toNat (n % 10) (Nat.mod_lt _ (by norm_num))
    by_cases h0 : n / 10 = 0
    · refine ⟨[48 + n % 10], ?_, by simp, ?_, ?_, ?_⟩
      · simp [Nat.toDigitsCore, h0, hd]
      · intro c hc
        simp only [List.mem_singleton] at hc
        subst hc
        simp only [isdigit, Bool.and_eq_true, decide_eq_true_eq]
        omega
      · simp [digitsValue]; omega
      · intro e _; simp
    · obtain ⟨pre, h1, h2, h3, h4, h5⟩ := ih (n / 10) (Nat.digitChar (n % 10) :: ds) (by omega)
      refine ⟨pre ++ [48 + n % 10], ?_, by simp, ?_, ?_, ?_⟩
      · simp only [Nat.toDigitsCore, h0, if_false, h1, List.map_cons, hd]
        simp
      · intro c hc
        rcases List.mem_append.mp hc with hc | hc
        · exact h3 c hc
        · simp only [List.mem_singleton] at hc
          subst hc
          simp only [isdigit, Bool.and_eq_true, decide_eq_true_eq]
          omega
      · rw [digitsValue_append, h4]; omega
      · intro e he
        cases e with
        | zero => omega
        | succ e =>
          have := h5 e (by rw [pow_succ] at he; omega)
          simp only [List.length_append, List.length_singleton]
          omega

/-- The decimal digits `sprintf` writes: a non-empty run of digit characters
with the value `n`. -/
theorem sprintf_d_spec (n : Nat) :
    sprintf_d n ≠ [] ∧ (∀ c ∈ sprintf_d n, isdigit c = true) ∧ digitsValue (sprintf_d n) = n ∧
      (∀ e, n < 10 ^ (e + 1) → (sprintf_d n).length ≤ e + 1) := by
  obtain ⟨pre, h1, h2, h3, h4, h5⟩ := toDigitsCore_spec (n + 1) n [] (by omega)
  have : sprintf_d n = pre := by
    unfold sprintf_d Nat.toDigits
    rw [h1]; simp
  rw [this]
  exact ⟨h2, h3, h4, h5⟩

theorem isdigit_not_isspace (c : Nat) (h : isdigit c = true) : isspace c = false := by
  simp only [isdigit, Bool.and_eq_true, decide_eq_true_eq] at h
  simp only [isspace, Bool.or_eq_false_iff, decide_eq_false_iff_not, Bool.and_eq_false_iff]
  omega

/-- What `strtol` reads from a non-empty run of digits in range. -/
theorem strtol_digits (ds : List Nat) (hne : ds ≠ []) (hd : ∀ c ∈ ds, isdigit c = true)
    (hv : (digitsValue ds : Int) ≤ LONG_MAX) :
    strtol ds = ((digitsValue ds : Int), ds.length) := by
  obtain ⟨c, tl, rfl⟩ := List.exists_cons_of_ne_nil hne
  have hc := hd c (List.mem_cons_self _ _)
  have hsp := isdigit_not_isspace c hc
  have h45 : c ≠ 45 := by
    simp only [isdigit, Bool.and_eq_true, decide_eq_true_eq] at hc; omega
  have h43 : c ≠ 43 := by
    simp only [isdigit, Bool.and_eq_true, decide_eq_true_eq] at hc; omega
  have htw : (c :: tl).takeWhile isdigit = c :: tl := by
    rw [List.takeWhile_eq_self_iff]; exact hd
  unfold strtol
  simp only [List.takeWhile_cons, List.dropWhile_cons, hsp, Bool.false_eq_true, if_false,
    List.head?_cons, Option.some.injEq, h45, h43, or_self, List.drop_zero, hc, if_true]
  rw [← List.takeWhile_cons_of_pos hc, htw]
  simp [min_eq_left hv]

theorem ATOM_IsIntAtom_decimal (n : Nat) (hn : (n : Int) ≤ LONG_MAX) :
    ATOM_IsIntAtom (.str (35 :: sprintf_d n)) = some (n % 65536) := by
  obtain ⟨h1, h2, h3, _⟩ := sprintf_d_spec n
  have hs := strtol_digits (sprintf_d n) h1 h2 (by rw [h3]; exact hn)
  unfold ATOM_IsIntAtom
  simp only [byteAt_cons_zero, ne_eq, not_true_eq_false, if_false, List.tail_cons, hs, h3]
  have e : 1 + (sprintf_d n).length = (sprintf_d n).length + 1 := by omega
  rw [e, byteAt_cons_succ, byteAt_of_le _ _ (le_refl _)]
  simp only [if_false]
  congr 1

/-- The name of an integer atom, with a capacity above its length. -/
theorem ATOM_GetAtomName_int (st : State) (sel atom : Nat) (count : Int)
    (ha : atom < MIN_STR_ATOM) (hcmax : count ≤ INT_MAX)
    (hc : (((35 :: sprintf_d atom).length : Nat) : Int) < count) :
    ATOM_GetAtomName st sel atom count
      = ⟨(35 :: sprintf_d atom).length, (35 :: sprintf_d atom) ++ [0], st⟩ := by
  have hc0 : count ≠ 0 := by omega
  unfold INT_MAX at hcmax
  have hcl : ¬ (35 :: sprintf_d atom).length ≥ (count % 4294967296).toNat := by omega
  unfold ATOM_GetAtomName
  simp only [hc0, if_false, ha, if_true, hcl]
  rw [memcpy_eq_take _ _ (le_refl _), List.take_length]

/-- Claim C4. For every `n < 0xC000`, `ATOM_AddAtom` of the string `#` followed by
the decimal digits of `n` returns `n` and leaves the state unchanged (no table
and no entry is created), and `ATOM_GetAtomName` of `n` with a capacity of at
least 7 writes `#`, the decimal digits of `n` and NUL, and returns the length
of `#` and the digits. -/
theorem C4_integer_atom_roundtrip (st : State) (sel n hT hE : Nat) (count : Int)
    (hn : n < 0xc000) (hc : 7 ≤ count) (hcmax : count ≤ INT_MAX) :
    ATOM_AddAtom st sel (.str (35 :: sprintf_d n)) hT hE = some (n, st) ∧
    ATOM_GetAtomName st sel n count
      = ⟨(35 :: sprintf_d n).length, (35 :: sprintf_d n) ++ [0], st⟩ := by
  have hlen := (sprintf_d_spec n).2.2.2 4 (by norm_num; omega)
  constructor
  · unfold ATOM_AddAtom
    rw [ATOM_IsIntAtom_decimal n (by unfold LONG_MAX; omega)]
    have : n % 65536 = n := by omega
    simp only [this]
  · apply ATOM_GetAtomName_int st sel n count (by unfold MIN_STR_ATOM; omega) hcmax
    simp only [List.length_cons]
    omega

/-- Witness of claim C4: "#1234" and 1234. -/
theorem C4_integer_atom_roundtrip_witness :
    sprintf_d 1234 = [49, 50, 51, 52] ∧
    ATOM_AddAtom State.blank 7 (.str (35 :: sprintf_d 1234)) 0 0 = some (1234, State.blank) ∧
    ATOM_GetAtomName State.blank 7 1234 8
      = ⟨(35 :: sprintf_d 1234).length, (35 :: sprintf_d 1234) ++ [0], State.blank⟩ :=
  ⟨by decide, C4_integer_atom_roundtrip State.blank 7 1234 0 0 8 (by decide) (by decide)
    (by decide)⟩

/-! ## Lemmas: lookup after interning -/

theorem lstrncmpiA_congr_right (n : Nat) (a s t : List Nat) (h : ciUpTo n s t) :
    lstrncmpiA a s n = lstrncmpiA a t n := by
  induction n generalizing a s t with
  | zero => rfl
  | succ n ih =>
    simp only [lstrncmpiA, h 0 (by omega)]
    rw [ih a.tail s.tail t.tail (ciUpTo_tail h)]

theorem atomLen_of_trunc {s t : List Nat} (h : ciEq (s.take 255) (t.take 255)) :
    atomLen s = atomLen t := by
  rw [atomLen_take, atomLen_take, ciEq_length h]

theorem ciUpTo_of_trunc {s t : List Nat} (h : ciEq (s.take 255) (t.take 255)) :
    ciUpTo (atomLen s) s t :=
  ciUpTo_mono (ciUpTo_of_take 255 h) (atomLen_le_255 s)

theorem isMatch_congr (seg : Segment) {s t : List Nat} (h : ciEq (s.take 255) (t.take 255))
    (e : Nat) : seg.isMatch s e ↔ seg.isMatch t e := by
  unfold Segment.isMatch
  rw [← atomLen_of_trunc h, lstrncmpiA_congr_right _ _ s t (ciUpTo_of_trunc h)]

theorem findEntry_congr (seg : Segment) {s t : List Nat} (h : ciEq (s.take 255) (t.take 255))
    (fuel start : Nat) :
    findEntry seg s (atomLen s) fuel start = findEntry seg t (atomLen t) fuel start := by
  induction fuel generalizing start with
  | zero => rfl
  | succ fuel ih =>
    by_cases h0 : start = 0
    · subst h0; rw [findEntry_null, findEntry_null]
    · by_cases hm : seg.isMatch s start
      · rw [findEntry_hit _ _ _ _ h0 hm, findEntry_hit _ _ _ _ h0 ((isMatch_congr seg h _).mp hm)]
      · rw [findEntry_miss _ _ _ _ h0 hm,
          findEntry_miss _ _ _ _ h0 (fun hc => hm ((isMatch_congr seg h _).mpr hc))]
        exact ih _

theorem setRef_isMatch_iff (seg : Segment) (h c : Nat) (s : List Nat) (e : Nat) :
    (seg.setRef h c).isMatch s e ↔ seg.isMatch s e := by
  unfold Segment.isMatch Segment.setRef
  by_cases he : e = h
  · subst he; simp
  · simp [Function.update_noteq he]

theorem findEntry_setRef (seg : Segment) (h c : Nat) (s : List Nat) (fuel start : Nat) :
    findEntry (seg.setRef h c) s (atomLen s) fuel start
      = findEntry seg s (atomLen s) fuel start := by
  induction fuel generalizing start with
  | zero => rfl
  | succ fuel ih =>
    by_cases h0 : start = 0
    · subst h0; rw [findEntry_null, findEntry_null]
    · by_cases hm : seg.isMatch s start
      · rw [findEntry_hit _ _ _ _ h0 hm,
          findEntry_hit _ _ _ _ h0 ((setRef_isMatch_iff seg h c s _).mpr hm)]
      · rw [findEntry_miss _ _ _ _ h0 hm,
          findEntry_miss _ _ _ _ h0 (fun hc => hm ((setRef_isMatch_iff seg h c s _).mp hc)),
          setRef_next]
        exact ih _

theorem hashOf_of_trunc (seg : Segment) {s t : List Nat} (h : ciEq (s.take 255) (t.take 255)) :
    seg.hashOf s = seg.hashOf t := by
  unfold Segment.hashOf
  rw [← atomLen_of_trunc h]
  exact ATOM_Hash_congr _ _ _ _ (ciUpTo_of_trunc h)

theorem isMatch_link_self (seg : Segment) (s : List Nat) (h : Nat) :
    (seg.link s h).isMatch s h :=
  isMatch_link seg s s h rfl

theorem C5_core (st : State) (sel : Nat) (s t : List Nat) (hT hE a : Nat) (st1 : State)
    (hs : ATOM_IsIntAtom (.str s) = none) (hti : ATOM_IsIntAtom (.str t) = none)
    (hci : ciEq (s.take 255) (t.take 255)) (ht : HasTable (st.seg sel))
    (hadd : ATOM_AddAtom st sel (.str s) hT hE = some (a, st1)) (ha : a ≠ 0) :
    ATOM_FindAtom st1 sel (.str t) = some (a, st1) := by
  rcases ATOM_AddAtom_cases st sel s hT hE a st1 hs ht hadd with
    ⟨_, ⟨_, ha0, _⟩ | ⟨hE0, rfl, rfl⟩⟩ | ⟨e, he, hf, rfl, rfl⟩
  · exact absurd ha0 ha
  · rw [ATOM_FindAtom_of_hasTable _ sel t hE hti
      (by rw [setSeg_seg_same]; exact link_hasTable _ _ _ ht)
      (by rw [setSeg_seg_same, link_hashOf, ← hashOf_of_trunc _ hci, link_head, if_pos rfl,
            CHAIN_FUEL_eq]
          exact findEntry_hit _ _ _ _ hE0
            ((isMatch_congr _ hci _).mp (isMatch_link_self _ _ _)))]
    simp [hE0]
  · rw [ATOM_FindAtom_of_hasTable _ sel t e hti
      (by rw [setSeg_seg_same]; exact setRef_hasTable _ _ _ ht)
      (by rw [setSeg_seg_same, findEntry_setRef, setRef_head, setRef_hashOf,
            ← hashOf_of_trunc _ hci, ← findEntry_congr _ hci]
          exact hf)]
    simp [he]

/-- Claim C5, amended. For all strings `s` and `t` that are not integer atoms and
whose first 255 bytes are equal up to ASCII case, once `ATOM_AddAtom` of `s` has
succeeded with atom `a`, `ATOM_FindAtom` of `t` on the same segment returns `a`
and leaves the state as it is. -/
theorem C5_find_after_add (st : State) (sel : Nat) (s t : List Nat) (hT hE a : Nat)
    (st1 : State) (hs : ATOM_IsIntAtom (.str s) = none) (hti : ATOM_IsIntAtom (.str t) = none)
    (hci : ciEq (s.take 255) (t.take 255))
    (hadd : ATOM_AddAtom st sel (.str s) hT hE = some (a, st1)) (ha : a ≠ 0) :
    ATOM_FindAtom st1 sel (.str t) = some (a, st1) := by
  by_cases ht : HasTable (st.seg sel)
  · exact C5_core st sel s t hT hE a st1 hs hti hci ht hadd ha
  · by_cases hT0 : hT = 0
    · subst hT0
      obtain ⟨st2, h2⟩ := ATOM_AddAtom_no_table_fails st sel s hE hs ht
      rw [h2] at hadd
      exact absurd (Prod.mk.inj (Option.some.inj hadd)).1.symm ha
    · rw [ATOM_AddAtom_create st sel s hT hE hs ht hT0] at hadd
      have he := emptyTable_init st sel DEFAULT_ATOMTABLE_SIZE hT (by decide) hT0
      exact C5_core _ sel s t hT hE a st1 hs hti hci he.1 hadd ha

/-- Witness of claim C5: "Foo" is interned in a fresh table and "FOO" looked up. -/
theorem C5_find_after_add_witness :
    ATOM_FindAtom (State.fresh.setSeg 7 ((State.fresh.seg 7).link [70, 111, 111] 16)) 7
        (.str [70, 79, 79])
      = some (HANDLETOATOM 16,
          State.fresh.setSeg 7 ((State.fresh.seg 7).link [70, 111, 111] 16)) :=
  C5_find_after_add State.fresh 7 [70, 111, 111] [70, 79, 79] 0 16 (HANDLETOATOM 16) _
    (by decide) (by decide) (by decide)
    (ATOM_AddAtom_new State.fresh 7 [70, 111, 111] 0 16 (by decide) fresh_empty.1
      (by rw [head_hashOf_of_emptyTable _ fresh_empty, CHAIN_FUEL_eq, findEntry_null])
      (by decide))
    (by decide)

set_option maxRecDepth 1000000 in
/-- Counterexample to claim C5 as stated: `#11…1x` (256 bytes) is not an integer
atom and `#11…1` (256 bytes) has the same first 255 bytes; interning the first
in a fresh table gives the string atom 0xC004, and `ATOM_FindAtom` of the
second, an integer atom, returns 0xFFFF. -/
theorem C5_counterexample :
    ATOM_IsIntAtom (.str digitsThenX) = none ∧
    ciEq (digitsThenX.take 255) (digitsOnly.take 255) ∧
    (ATOM_AddAtom State.fresh 7 (.str digitsThenX) 0 16).map
        (fun r => (r.1, (ATOM_FindAtom r.2 7 (.str digitsOnly)).map (fun q => q.1)))
      = some (0xc004, some 0xffff) := by
  decide

/-! ## Lemmas: interning two different strings -/

theorem findEntry_mono (seg : Segment) (u : List Nat) (n m start e : Nat) (hnm : n ≤ m)
    (h : findEntry seg u (atomLen u) n start = some e) :
    findEntry seg u (atomLen u) m start = some e := by
  induction n generalizing m start with
  | zero => simp [findEntry] at h
  | succ n ih =>
    obtain ⟨k, rfl⟩ : ∃ k, m = k + 1 := ⟨m - 1, by omega⟩
    by_cases h0 : start = 0
    · subst h0; rw [findEntry_null] at h ⊢; exact h
    · by_cases hm : seg.isMatch u start
      · rw [findEntry_hit _ _ _ _ h0 hm] at h ⊢; exact h
      · rw [findEntry_miss _ _ _ _ h0 hm] at h ⊢
        exact ih k _ (by omega) h

theorem Finds_mono {seg : Segment} {u : List Nat} {n m e : Nat} (h : Finds seg u n e)
    (hnm : n ≤ m) : Finds seg u m e :=
  findEntry_mono seg u n m _ e hnm h

theorem findEntry_of_chainOf (seg : Segment) (u : List Nat) (n start : Nat)
    (h : chainOf seg n start ≠ none) : ∃ e, findEntry seg u (atomLen u) n start = some e := by
  induction n generalizing start with
  | zero => simp [chainOf] at h
  | succ n ih =>
    by_cases h0 : start = 0
    · subst h0; exact ⟨0, findEntry_null _ _ _ _⟩
    · by_cases hm : seg.isMatch u start
      · exact ⟨start, findEntry_hit _ _ _ _ h0 hm⟩
      · rw [findEntry_miss _ _ _ _ h0 hm]
        apply ih
        rw [chainOf_cons _ _ _ h0] at h
        intro hc
        rw [hc] at h
        exact h rfl

theorem findEntry_allocated (seg : Segment) (u : List Nat) (n start e : Nat)
    (hcl : ∀ h, seg.arena h ≠ none → (seg.atoms h).next ≠ 0 → seg.arena (seg.atoms h).next ≠ none)
    (hs : start ≠ 0 → seg.arena start ≠ none)
    (h : findEntry seg u (atomLen u) n start = some e) (he : e ≠ 0) : seg.arena e ≠ none := by
  induction n generalizing start with
  | zero => simp [findEntry] at h
  | succ n ih =>
    by_cases h0 : start = 0
    · subst h0
      rw [findEntry_null] at h
      exact absurd (Option.some.inj h).symm he
    · by_cases hm : seg.isMatch u start
      · rw [findEntry_hit _ _ _ _ h0 hm] at h
        rw [← Option.some.inj h]; exact hs h0
      · rw [findEntry_miss _ _ _ _ h0 hm] at h
        exact ih _ (hcl start (hs h0)) h

theorem Finds_isMatch {seg : Segment} {u : List Nat} {n e : Nat} (h : Finds seg u n e)
    (he : e ≠ 0) : seg.isMatch u e :=
  findEntry_some seg u n _ e h he

theorem link_atoms_ne (seg : Segment) (s : List Nat) (h x : Nat) (hx : x ≠ h) :
    (seg.link s h).atoms x = seg.atoms x := by
  simp [Segment.link, Function.update_noteq hx]

theorem link_arena (seg : Segment) (s : List Nat) (h x : Nat) (hx : seg.arena x ≠ none) :
    (seg.link s h).arena x ≠ none := by
  unfold Segment.link
  by_cases hxh : x = h
  · subst hxh; simp
  · simpa [Function.update_noteq hxh] using hx

theorem link_arena_same (seg : Segment) (s : List Nat) (h : Nat) :
    (seg.link s h).arena h ≠ none := by
  simp [Segment.link]

/-- The walk over allocated entries is not changed by linking an entry at a
handle that was not allocated. -/
theorem findEntry_link (seg : Segment) (s u : List Nat) (h n start : Nat)
    (hcl : ∀ x, seg.arena x ≠ none → (seg.atoms x).next ≠ 0 → seg.arena (seg.atoms x).next ≠ none)
    (hfresh : seg.arena h = none) (hs : start ≠ 0 → seg.arena start ≠ none) :
    findEntry (seg.link s h) u (atomLen u) n start = findEntry seg u (atomLen u) n start := by
  induction n generalizing start with
  | zero => rfl
  | succ n ih =>
    by_cases h0 : start = 0
    · subst h0; rw [findEntry_null, findEntry_null]
    · have hne : start ≠ h := fun hc => hs h0 (hc ▸ hfresh)
      have hat := link_atoms_ne seg s h start hne
      have hiff : (seg.link s h).isMatch u start ↔ seg.isMatch u start := by
        unfold Segment.isMatch; rw [hat]
      by_cases hm : seg.isMatch u start
      · rw [findEntry_hit _ _ _ _ h0 hm, findEntry_hit _ _ _ _ h0 (hiff.mpr hm)]
      · rw [findEntry_miss _ _ _ _ h0 hm,
          findEntry_miss _ _ _ _ h0 (fun hc => hm (hiff.mp hc)), hat]
        exact ih _ (hcl start (hs h0))

/-- An entry passes the test of the walk for two C strings only if their first
255 bytes are equal up to case. -/
theorem trunc_of_isMatch (seg : Segment) (s t : List Nat) (e : Nat) (hs : IsCStr s)
    (hti : IsCStr t) (h1 : seg.isMatch s e) (h2 : seg.isMatch t e) :
    ciEq (s.take 255) (t.take 255) := by
  unfold Segment.isMatch at h1 h2
  have hl : atomLen s = atomLen t := by rw [← h1.1, ← h2.1]
  have u1 := ciUpTo_of_lstrncmpiA_eq_zero _ _ _
    (fun i hi => byteAt_ne_zero_of_isCStr s hs i (by have := atomLen_le s; omega)) h1.2
  have u2 := ciUpTo_of_lstrncmpiA_eq_zero _ _ _
    (fun i hi => byteAt_ne_zero_of_isCStr t hti i (by have := atomLen_le t; omega)) h2.2
  apply ciEq_of_ciUpTo
  · rw [← atomLen_take, ← atomLen_take, hl]
  · rw [← atomLen_take]
    intro i hi
    have h255 := atomLen_le_255 s
    rw [byteAt_take _ _ _ (by omega), byteAt_take _ _ _ (by omega), ← u1 i hi]
    exact u2 i (by omega)

theorem not_isMatch_link (seg : Segment) (s u : List Nat) (h : Nat) (hs : IsCStr s)
    (hu : IsCStr u) (hne : ¬ ciEq (s.take 255) (u.take 255)) : ¬ (seg.link s h).isMatch u h :=
  fun hm => hne (trunc_of_isMatch _ s u h hs hu (isMatch_link_self seg s h) hm)

theorem link_Finds_self (seg : Segment) (s : List Nat) (h n : Nat) (h0 : h ≠ 0) :
    Finds (seg.link s h) s (n + 1) h := by
  unfold Finds
  rw [link_hashOf, link_head, if_pos rfl]
  exact findEntry_hit _ _ _ _ h0 (isMatch_link_self seg s h)

theorem setRef_Finds (seg : Segment) (u : List Nat) (h c n e : Nat) (hf : Finds seg u n e) :
    Finds (seg.setRef h c) u n e := by
  unfold Finds at hf ⊢
  rw [findEntry_setRef, setRef_head, setRef_hashOf]
  exact hf

theorem ATOM_AddAtom_step (st : State) (sel : Nat) (u : List Nat) (hT hE n e : Nat)
    (hint : ATOM_IsIntAtom (.str u) = none) (ht : HasTable (st.seg sel))
    (hf : Finds (st.seg sel) u n e) (hn : n ≤ CHAIN_FUEL) (hE0 : hE ≠ 0) :
    ∃ x seg1, ATOM_AddAtom st sel (.str u) hT hE = some (HANDLETOATOM x, st.setSeg sel seg1) ∧
      x ≠ 0 ∧ AddStep (st.seg sel) u e hE x seg1 := by
  have hF := Finds_mono hf hn
  unfold Finds at hF
  by_cases he : e = 0
  · subst he
    exact ⟨hE, _, ATOM_AddAtom_new st sel u hT hE hint ht hF hE0, hE0, Or.inr ⟨rfl, rfl, rfl⟩⟩
  · exact ⟨e, _, ATOM_AddAtom_existing st sel u hT hE e hint ht hF he, he,
      Or.inl ⟨he, rfl, rfl⟩⟩

theorem AddStep_hasTable {seg : Segment} {u : List Nat} {e hE x : Nat} {seg1 : Segment}
    (h : AddStep seg u e hE x seg1) (ht : HasTable seg) : HasTable seg1 := by
  rcases h with ⟨_, _, rfl⟩ | ⟨_, _, rfl⟩
  · exact setRef_hasTable _ _ _ ht
  · exact link_hasTable _ _ _ ht

theorem AddStep_arena_mono {seg : Segment} {u : List Nat} {e hE x : Nat} {seg1 : Segment}
    (h : AddStep seg u e hE x seg1) (y : Nat) (hy : seg.arena y ≠ none) :
    seg1.arena y ≠ none := by
  rcases h with ⟨_, _, rfl⟩ | ⟨_, _, rfl⟩
  · exact hy
  · exact link_arena _ _ _ _ hy

theorem AddStep_Finds_self {seg : Segment} {u : List Nat} {e hE x n : Nat} {seg1 : Segment}
    (h : AddStep seg u e hE x seg1) (hf : Finds seg u n e) (hE0 : hE ≠ 0) :
    Finds seg1 u (n + 1) x := by
  rcases h with ⟨_, rfl, rfl⟩ | ⟨_, rfl, rfl⟩
  · exact Finds_mono (setRef_Finds _ _ _ _ _ _ hf) (by omega)
  · exact link_Finds_self _ _ _ _ hE0

theorem ATOM_FindAtom_of_Finds (st : State) (sel : Nat) (u : List Nat) (n x : Nat)
    (hint : ATOM_IsIntAtom (.str u) = none) (ht : HasTable (st.seg sel))
    (hf : Finds (st.seg sel) u n x) (hn : n ≤ CHAIN_FUEL) (hx : x ≠ 0) :
    ATOM_FindAtom st sel (.str u) = some (HANDLETOATOM x, st) := by
  rw [ATOM_FindAtom_of_hasTable st sel u x hint ht (Finds_mono hf hn), if_neg hx]

/-! ## Lemmas: the range of the atoms -/

theorem ATOM_FindAtom_no_table (st : State) (sel : Nat) (s : List Nat)
    (hint : ATOM_IsIntAtom (.str s) = none) (ht : ¬ HasTable (st.seg sel)) :
    ATOM_FindAtom st sel (.str s) = some (0, st) := by
  have hg : ATOM_GetTable st sel false 0 = (none, st) := by
    unfold HasTable at ht
    unfold ATOM_GetTable
    simp [ht]
  unfold ATOM_FindAtom
  simp only [hint, hg]

theorem ATOM_AddAtom_atom (st : State) (sel : Nat) (s : List Nat) (hT hE a : Nat) (st1 : State)
    (hint : ATOM_IsIntAtom (.str s) = none)
    (hadd : ATOM_AddAtom st sel (.str s) hT hE = some (a, st1)) :
    a = 0 ∨ ∃ x, a = HANDLETOATOM x := by
  have key : ∀ st0 : State, HasTable (st0.seg sel) →
      ATOM_AddAtom st0 sel (.str s) hT hE = some (a, st1) → a = 0 ∨ ∃ x, a = HANDLETOATOM x := by
    intro st0 ht0 h0
    rcases ATOM_AddAtom_cases st0 sel s hT hE a st1 hint ht0 h0 with
      ⟨_, ⟨_, ha0, _⟩ | ⟨_, ha, _⟩⟩ | ⟨e, _, _, ha, _⟩
    · exact Or.inl ha0
    · exact Or.inr ⟨hE, ha⟩
    · exact Or.inr ⟨e, ha⟩
  by_cases ht : HasTable (st.seg sel)
  · exact key st ht hadd
  · by_cases hT0 : hT = 0
    · subst hT0
      obtain ⟨st2, h2⟩ := ATOM_AddAtom_no_table_fails st sel s hE hint ht
      rw [h2] at hadd
      exact Or.inl (Prod.mk.inj (Option.some.inj hadd)).1.symm
    · rw [ATOM_AddAtom_create st sel s hT hE hint ht hT0] at hadd
      exact key _ (emptyTable_init st sel DEFAULT_ATOMTABLE_SIZE hT (by decide) hT0).1 hadd

theorem ATOM_FindAtom_atom (st : State) (sel : Nat) (s : List Nat) (a : Nat) (st1 : State)
    (hint : ATOM_IsIntAtom (.str s) = none)
    (hfind : ATOM_FindAtom st sel (.str s) = some (a, st1)) :
    a = 0 ∨ ∃ x, a = HANDLETOATOM x := by
  by_cases ht : HasTable (st.seg sel)
  · cases hf : findEntry (st.seg sel) s (atomLen s) CHAIN_FUEL
        ((st.seg sel).head ((st.seg sel).hashOf s)) with
    | none =>
      exfalso
      unfold ATOM_FindAtom at hfind
      simp only [hint, LPCSTR.bytes, ATOM_GetTable_of_hasTable st sel false 0 ht] at hfind
      simp only [Segment.head, Segment.hashOf, Segment.table, atomLen] at hf
      simp only [hf] at hfind
      exact Option.noConfusion hfind
    | some e =>
      rw [ATOM_FindAtom_of_hasTable st sel s e hint ht hf] at hfind
      have := (Prod.mk.inj (Option.some.inj hfind)).1
      by_cases he : e = 0
      · left; rw [← this, if_pos he]
      · right; exact ⟨e, by rw [← this, if_neg he]⟩
  · rw [ATOM_FindAtom_no_table st sel s hint ht] at hfind
    exact Or.inl (Prod.mk.inj (Option.some.inj hfind)).1.symm

/-- Claim C7. Every atom `ATOM_AddAtom` or `ATOM_FindAtom` returns for a table
entry, that is every non-zero atom returned for a string that is not an integer
atom, is at least `MIN_STR_ATOM = 0xC000`, whatever handle the arena returns;
and `HANDLETOATOM` of any handle is at least 0xC000. -/
theorem C7_string_atoms_at_least_min (st : State) (sel : Nat) (s : List Nat) (hT hE a : Nat)
    (st1 : State) (hint : ATOM_IsIntAtom (.str s) = none)
    (hret : ATOM_AddAtom st sel (.str s) hT hE = some (a, st1) ∨
      ATOM_FindAtom st sel (.str s) = some (a, st1))
    (ha : a ≠ 0) :
    MIN_STR_ATOM ≤ a ∧ ∀ h, MIN_STR_ATOM ≤ HANDLETOATOM h := by
  refine ⟨?_, HANDLETOATOM_ge⟩
  rcases hret with h | h
  · rcases ATOM_AddAtom_atom st sel s hT hE a st1 hint h with h0 | ⟨x, rfl⟩
    · exact absurd h0 ha
    · exact HANDLETOATOM_ge x
  · rcases ATOM_FindAtom_atom st sel s a st1 hint h with h0 | ⟨x, rfl⟩
    · exact absurd h0 ha
    · exact HANDLETOATOM_ge x

/-- Witness of claim C7: the atom 0xC004 that `ATOM_AddAtom` returns for "Hello"
in a fresh table, for the handle 16. -/
theorem C7_string_atoms_at_least_min_witness :
    HANDLETOATOM 16 = 0xc004 ∧ MIN_STR_ATOM ≤ HANDLETOATOM 16 ∧
      ∀ h, MIN_STR_ATOM ≤ HANDLETOATOM h :=
  ⟨by decide,
    C7_string_atoms_at_least_min State.fresh 7 [72, 101, 108, 108, 111] 0 16 (HANDLETOATOM 16) _
      (by decide)
      (Or.inl (ATOM_AddAtom_new State.fresh 7 [72, 101, 108, 108, 111] 0 16 (by decide)
        fresh_empty.1
        (by rw [head_hashOf_of_emptyTable _ fresh_empty, CHAIN_FUEL_eq, findEntry_null])
        (by decide)))
      (by decide)⟩

theorem ATOM_IsIntAtom_lt (str : LPCSTR) (v : Nat) (h : ATOM_IsIntAtom str = some v) :
    v < 65536 := by
  cases str with
  | atom w =>
    simp only [ATOM_IsIntAtom, Option.some.injEq] at h
    omega
  | str s =>
    simp only [ATOM_IsIntAtom] at h
    split at h
    · exact Option.noConfusion h
    · split at h
      · exact Option.noConfusion h
      · have := Option.some.inj h
        omega

/-- Claim C8, amended. For every argument `str` that `ATOM_IsIntAtom` accepts as
an integer atom with value `v`, `ATOM_AddAtom` and `ATOM_FindAtom` return `v`
and leave the state as it is, and `v` is a 16-bit value; for a raw integer `w`
the shims return its low word.  The value is below 0xC000 for a raw integer
`w < 0xC000` and for `#` followed by the decimal digits of `n < 0xC000`; no
range check is made otherwise. -/
theorem C8_integer_atom_values (st : State) (sel : Nat) (str : LPCSTR) (hT hE v w n : Nat)
    (h : ATOM_IsIntAtom str = some v) (hw : w < 0xc000) (hn : n < 0xc000) :
    ATOM_AddAtom st sel str hT hE = some (v, st) ∧ ATOM_FindAtom st sel str = some (v, st) ∧
    v < 65536 ∧
    GlobalAddAtomA st (.atom w) hT hE = some (w % 65536, st) ∧
    GlobalFindAtomA st (.atom w) = some (w % 65536, st) ∧
    ATOM_IsIntAtom (.atom w) = some (w % 65536) ∧ w % 65536 = w ∧ w < MIN_STR_ATOM ∧
    ATOM_IsIntAtom (.str (35 :: sprintf_d n)) = some n ∧ n < MIN_STR_ATOM := by
  refine ⟨?_, ?_, ATOM_IsIntAtom_lt str v h, rfl, rfl, rfl, by omega, hw, ?_, hn⟩
  · unfold ATOM_AddAtom; simp only [h]
  · unfold ATOM_FindAtom; simp only [h]
  · have := ATOM_IsIntAtom_decimal n (by unfold LONG_MAX; omega)
    have e : n % 65536 = n := by omega
    rw [e] at this
    exact this

/-- Witness of claim C8: the string "#1234", the raw integer 1234 and the number
1234. -/
theorem C8_integer_atom_values_witness :
    ATOM_AddAtom State.blank 7 (.str [35, 49, 50, 51, 52]) 0 0 = some (1234, State.blank) ∧
    ATOM_FindAtom State.blank 7 (.str [35, 49, 50, 51, 52]) = some (1234, State.blank) ∧
    1234 < 65536 ∧
    GlobalAddAtomA State.blank (.atom 1234) 0 0 = some (1234 % 65536, State.blank) ∧
    GlobalFindAtomA State.blank (.atom 1234) = some (1234 % 65536, State.blank) ∧
    ATOM_IsIntAtom (.atom 1234) = some (1234 % 65536) ∧ 1234 % 65536 = 1234 ∧
    1234 < MIN_STR_ATOM ∧
    ATOM_IsIntAtom (.str (35 :: sprintf_d 1234)) = some 1234 ∧ 1234 < MIN_STR_ATOM :=
  C8_integer_atom_values State.blank 7 (.str [35, 49, 50, 51, 52]) 0 0 1234 1234 1234
    (by decide) (by decide) (by decide)

/-- Counterexample to claim C8 as stated: the raw integer 0xC000 and the string
"#49152" are accepted as integer atoms, and the add and find operations return
the atom 0xC000 for them (0xFFFF for the raw integer 0xFFFF), which is not
below `MIN_STR_ATOM`. -/
theorem C8_counterexample :
    ATOM_IsIntAtom (.atom 0xc000) = some 0xc000 ∧
    ATOM_IsIntAtom (.str [35, 52, 57, 49, 53, 50]) = some 0xc000 ∧
    (ATOM_AddAtom State.blank 7 (.atom 0xc000) 0 0).map (fun r => r.1) = some 0xc000 ∧
    (ATOM_AddAtom State.blank 7 (.str [35, 52, 57, 49, 53, 50]) 0 0).map (fun r => r.1)
      = some 0xc000 ∧
    (ATOM_FindAtom State.blank 7 (.str [35, 52, 57, 49, 53, 50])).map (fun r => r.1)
      = some 0xc000 ∧
    (GlobalAddAtomA State.blank (.atom 0xffff) 0 0).map (fun r => r.1) = some 0xffff ∧
    ¬ (0xc000 < MIN_STR_ATOM) := by
  decide

/-- Claim C9. For every string `s` longer than 255 bytes that is not an integer
atom and is absent from the table of the segment, with the arena returning a
non-zero handle, `ATOM_AddAtom` succeeds with a non-zero atom and creates an
entry of length 255, and `ATOM_GetAtomName` of that atom with a capacity from
256 to `INT_MAX` returns 255 and writes the first 255 bytes of `s` and NUL. -/
theorem C9_long_string_truncated (st : State) (sel : Nat) (s : List Nat) (hT hE : Nat)
    (count : Int) (hint : ATOM_IsIntAtom (.str s) = none) (hl : 255 < s.length)
    (ht : HasTable (st.seg sel)) (habs : Absent st sel s) (hE0 : hE ≠ 0) (hEh : IsHandle hE)
    (hc : 256 ≤ count) (hcmax : count ≤ INT_MAX) :
    ∃ st1, ATOM_AddAtom st sel (.str s) hT hE = some (HANDLETOATOM hE, st1) ∧
      HANDLETOATOM hE ≠ 0 ∧ ((st1.seg sel).atoms hE).length = 255 ∧
      ATOM_GetAtomName st1 sel (HANDLETOATOM hE) count = ⟨255, s.take 255 ++ [0], st1⟩ := by
  have hlen : atomLen s = 255 := by unfold atomLen; simp [hl]
  have hadd := ATOM_AddAtom_new st sel s hT hE hint ht (findEntry_of_absent st sel s hint ht habs)
    hE0
  have hl2 : ((((st.setSeg sel ((st.seg sel).link s hE)).seg sel).atoms hE).length : Int)
      < count := by
    rw [setSeg_seg_same, link_atoms_same, hlen]
    show ((255 : Nat) : Int) < count
    omega
  refine ⟨_, hadd, HANDLETOATOM_ne_zero _, ?_, ?_⟩
  · rw [setSeg_seg_same, link_atoms_same, hlen]
  · rw [ATOM_GetAtomName_entry _ sel hE count
      (by rw [setSeg_seg_same]; exact link_hasTable _ _ _ ht) hEh.1 hEh.2 hcmax hl2]
    simp only [setSeg_seg_same, link_atoms_same, hlen]
    rw [memcpy_strncpy s _ 255 (by omega) (by unfold ae_len; omega)]

set_option maxRecDepth 100000 in
/-- Witness of claim C9: a string of 300 bytes in a fresh table. -/
theorem C9_long_string_truncated_witness :
    ∃ st1, ATOM_AddAtom State.fresh 7 (.str longString) 0 16 = some (HANDLETOATOM 16, st1) ∧
      HANDLETOATOM 16 ≠ 0 ∧ ((st1.seg 7).atoms 16).length = 255 ∧
      ATOM_GetAtomName st1 7 (HANDLETOATOM 16) 256 = ⟨255, longString.take 255 ++ [0], st1⟩ :=
  C9_long_string_truncated State.fresh 7 longString 0 16 256 (by decide) (by decide)
    fresh_empty.1 (absent_of_empty _ _ _ (by decide) fresh_empty) (by decide) (by decide)
    (by decide) (by decide)

/-! ## `ATOM_GetAtomName` and the capacity -/

/-- For a capacity from 0 to `INT_MAX`, `ATOM_GetAtomName` stores at most
`count` bytes, terminator included. -/
theorem ATOM_GetAtomName_bounded (st : State) (sel atom : Nat) (count : Int)
    (hc : 0 ≤ count) (hcmax : count ≤ INT_MAX) :
    (((ATOM_GetAtomName st sel atom count).buffer.length : Nat) : Int) ≤ count := by
  unfold INT_MAX at hcmax
  have hclamp : ∀ len : Nat, count ≠ 0 →
      (((if len ≥ (count % 4294967296).toNat then (count % 4294967296).toNat - 1 else len)
        + 1 : Nat) : Int) ≤ count := by
    intro len h0
    split <;> omega
  unfold ATOM_GetAtomName
  by_cases h0 : count = 0
  · simp [h0]
  · simp only [h0, if_false]
    split
    · simp only [List.length_append, memcpy_length, List.length_singleton]
      exact hclamp _ h0
    · split
      · simp only [List.length_nil, Nat.cast_zero]; exact hc
      · simp only [List.length_append, memcpy_length, List.length_singleton]
        exact hclamp _ h0

/-- Claim C10, the failing input. With the capacity `count = -1`, `ATOM_GetAtomName`
of the integer atom 1234 stores the 6 bytes of "#1234" and its terminator, and
of the string atom of "hello" the 6 bytes of "hello" and its terminator: the
test `len >= count` compares as unsigned and does not clamp. -/
theorem C10_negative_count_overrun :
    (ATOM_GetAtomName State.blank 7 1234 (-1)).buffer = [35, 49, 50, 51, 52, 0] ∧
    (ATOM_GetAtomName State.withHello 7 0xc004 (-1)).buffer = [104, 101, 108, 108, 111, 0] ∧
    ¬ ((((ATOM_GetAtomName State.blank 7 1234 (-1)).buffer.length : Nat) : Int) ≤ -1) := by
  decide

/-! ## The clamping of `ATOM_GetAtomName` -/

theorem ATOM_GetAtomName_zero (st : State) (sel atom : Nat) :
    ATOM_GetAtomName st sel atom 0 = ⟨0, [], st⟩ := by
  simp [ATOM_GetAtomName]

/-- Claim C11. For every atom that resolves (an integer atom, or a string atom
in a segment with a table) whose text holds its length `L`, and every capacity
`c` with `1 ≤ c ≤ INT_MAX`, `ATOM_GetAtomName` returns `n = min L (c - 1)` and
writes the first `n` bytes of the text followed by NUL, and leaves the state as
it is; with the capacity 0 it returns 0 and writes nothing.  The text is the
stored string of a string atom and `#` and the decimal digits of an integer
atom. -/
theorem C11_name_clamped (st : State) (sel atom : Nat) (count : Int)
    (hres : atom < MIN_STR_ATOM ∨ HasTable (st.seg sel))
    (hL : nameLen st sel atom ≤ (nameText st sel atom).length)
    (hc1 : 1 ≤ count) (hcmax : count ≤ INT_MAX) :
    ATOM_GetAtomName st sel atom count
      = ⟨min (nameLen st sel atom) (count.toNat - 1),
          (nameText st sel atom).take (min (nameLen st sel atom) (count.toNat - 1)) ++ [0],
          st⟩ ∧
    ATOM_GetAtomName st sel atom 0 = ⟨0, [], st⟩ := by
  refine ⟨?_, ATOM_GetAtomName_zero st sel atom⟩
  unfold INT_MAX at hcmax
  have hc0 : count ≠ 0 := by omega
  have hclamp : ∀ len : Nat,
      (if len ≥ (count % 4294967296).toNat then (count % 4294967296).toNat - 1 else len)
        = min len (count.toNat - 1) := by
    intro len
    split <;> omega
  unfold nameLen nameText at *
  unfold ATOM_GetAtomName
  by_cases ha : atom < MIN_STR_ATOM
  · simp only [ha, if_true] at hL
    simp only [hc0, if_false, ha, if_true, hclamp]
    rw [memcpy_eq_take _ _ (by omega)]
  · have ht : HasTable (st.seg sel) := hres.resolve_left ha
    simp only [ha, if_false] at hL
    simp only [hc0, if_false, ha, ATOM_GetTable_of_hasTable st sel false 0 ht, ATOM_MakePtr,
      hclamp]
    rw [memcpy_eq_take _ _ (by omega)]

/-- Witness of claim C11: the name of the atom of "hello" with a capacity of 3. -/
theorem C11_name_clamped_witness :
    ATOM_GetAtomName State.withHello 7 0xc004 3
      = ⟨min (nameLen State.withHello 7 0xc004) ((3 : Int).toNat - 1),
          (nameText State.withHello 7 0xc004).take
            (min (nameLen State.withHello 7 0xc004) ((3 : Int).toNat - 1)) ++ [0],
          State.withHello⟩ ∧
    ATOM_GetAtomName State.withHello 7 0xc004 0 = ⟨0, [], State.withHello⟩ ∧
    (ATOM_GetAtomName State.withHello 7 0xc004 3).ret = 2 ∧
    (ATOM_GetAtomName State.withHello 7 0xc004 3).buffer = [104, 101, 0] := by
  have h := C11_name_clamped State.withHello 7 0xc004 3 (Or.inr (by decide)) (by decide)
    (by decide) (by decide)
  exact ⟨h.1, h.2, by decide, by decide⟩

/-! ## `ATOM_FindAtom` -/

theorem ATOM_GetTable_no_create (st : State) (sel h : Nat) :
    (ATOM_GetTable st sel false h).2 = st := by
  by_cases ht : HasTable (st.seg sel)
  · rw [ATOM_GetTable_of_hasTable st sel false h ht]
  · unfold HasTable at ht
    simp [ATOM_GetTable, ht]

/-- Claim C12. `ATOM_FindAtom` has no side effects: for every state, segment and
argument, the state after a call that returns is the state before it (global
table designation and, for every segment, table registration, tables, entries
and arena). -/
theorem C12_find_no_side_effect (st : State) (sel : Nat) (str : LPCSTR) (a : Nat) (st1 : State)
    (h : ATOM_FindAtom st sel str = some (a, st1)) : st1 = st := by
  unfold ATOM_FindAtom at h
  split at h
  · exact (Prod.mk.inj (Option.some.inj h)).2.symm
  · have hg := ATOM_GetTable_no_create st sel 0
    generalize ATOM_GetTable st sel false 0 = r at h hg
    obtain ⟨r1, r2⟩ := r
    simp only at hg
    subst hg
    cases r1 with
    | none => exact (Prod.mk.inj (Option.some.inj h)).2.symm
    | some t =>
      simp only at h
      split at h
      · exact Option.noConfusion h
      · exact (Prod.mk.inj (Option.some.inj h)).2.symm
      · exact (Prod.mk.inj (Option.some.inj h)).2.symm

/-- Witness of claim C12: the lookup of "HELLO" in the table that holds "hello"
returns the atom 0xC004 and the state it was called in. -/
theorem C12_find_no_side_effect_witness :
    ∃ a st1, ATOM_FindAtom State.withHello 7 (.str [72, 69, 76, 76, 79]) = some (a, st1) ∧
      a = 0xc004 ∧ st1 = State.withHello := by
  have hf := ATOM_FindAtom_of_hasTable State.withHello 7 [72, 69, 76, 76, 79] 16 (by decide)
    (by decide) (by decide)
  exact ⟨_, _, hf, by decide,
    C12_find_no_side_effect State.withHello 7 (.str [72, 69, 76, 76, 79]) _ _ hf⟩

/-! ## Lemmas: chains -/

theorem chainOf_mono (seg : Segment) (n m start : Nat) (l : List Nat) (hnm : n ≤ m)
    (h : chainOf seg n start = some l) : chainOf seg m start = some l := by
  induction n generalizing m start l with
  | zero => simp [chainOf] at h
  | succ n ih =>
    obtain ⟨k, rfl⟩ : ∃ k, m = k + 1 := ⟨m - 1, by omega⟩
    by_cases h0 : start = 0
    · subst h0; rw [chainOf_null] at h ⊢; exact h
    · rw [chainOf_cons _ _ _ h0] at h ⊢
      cases hc : chainOf seg n (seg.atoms start).next with
      | none => rw [hc] at h; simp at h
      | some l' =>
        rw [hc] at h
        rw [ih k _ l' (by omega) hc]
        exact h

theorem chainOf_cases (seg : Segment) (n start : Nat) (l : List Nat)
    (h : chainOf seg (n + 1) start = some l) :
    (start = 0 ∧ l = []) ∨
    (start ≠ 0 ∧ ∃ l', chainOf seg n (seg.atoms start).next = some l' ∧ l = start :: l') := by
  by_cases h0 : start = 0
  · subst h0
    rw [chainOf_null] at h
    exact Or.inl ⟨rfl, (Option.some.inj h).symm⟩
  · right
    rw [chainOf_cons _ _ _ h0] at h
    cases hc : chainOf seg n (seg.atoms start).next with
    | none => rw [hc] at h; simp at h
    | some l' =>
      rw [hc] at h
      exact ⟨h0, l', rfl, (Option.some.inj h).symm⟩

theorem chainOf_ne_zero (seg : Segment) (n start : Nat) (l : List Nat)
    (h : chainOf seg n start = some l) : ∀ e ∈ l, e ≠ 0 := by
  induction n generalizing start l with
  | zero => simp [chainOf] at h
  | succ n ih =>
    rcases chainOf_cases seg n start l h with ⟨_, rfl⟩ | ⟨h0, l', hc, rfl⟩
    · intro e he; simp at he
    · intro e he
      rcases List.mem_cons.mp he with rfl | he'
      · exact h0
      · exact ih _ _ hc e he'

/-- The walk over a chain ends, with 0 or with an entry of the chain. -/
theorem findEntry_mem_chain (seg : Segment) (u : List Nat) (n start : Nat) (l : List Nat)
    (h : chainOf seg n start = some l) :
    ∃ e, findEntry seg u (atomLen u) n start = some e ∧ (e = 0 ∨ e ∈ l) := by
  induction n generalizing start l with
  | zero => simp [chainOf] at h
  | succ n ih =>
    rcases chainOf_cases seg n start l h with ⟨rfl, rfl⟩ | ⟨h0, l', hc, rfl⟩
    · exact ⟨0, findEntry_null _ _ _ _, Or.inl rfl⟩
    · by_cases hm : seg.isMatch u start
      · exact ⟨start, findEntry_hit _ _ _ _ h0 hm, Or.inr (List.mem_cons_self _ _)⟩
      · obtain ⟨e, he, hmem⟩ := ih _ _ hc
        refine ⟨e, ?_, ?_⟩
        · rw [findEntry_miss _ _ _ _ h0 hm]; exact he
        · rcases hmem with h1 | h1
          · exact Or.inl h1
          · exact Or.inr (List.mem_cons_of_mem _ h1)

theorem chainsOf_chain (seg : Segment) (bs : List Nat) (L : List Nat)
    (h : chainsOf seg bs = some L) (b : Nat) (hb : b ∈ bs) :
    ∃ l, chainOf seg CHAIN_FUEL (seg.head b) = some l ∧ ∀ e ∈ l, e ∈ L := by
  induction bs generalizing L with
  | nil => simp at hb
  | cons c bs ih =>
    simp only [chainsOf] at h
    cases hc : chainOf seg CHAIN_FUEL (seg.head c) with
    | none => rw [hc] at h; simp at h
    | some lc =>
      cases hr : chainsOf seg bs with
      | none => rw [hc, hr] at h; simp at h
      | some lr =>
        rw [hc, hr] at h
        have hL : L = lc ++ lr := (Option.some.inj h).symm
        rcases List.mem_cons.mp hb with rfl | hb'
        · exact ⟨lc, hc, fun e he => by rw [hL]; exact List.mem_append_left _ he⟩
        · obtain ⟨l, h1, h2⟩ := ih lr hr hb'
          exact ⟨l, h1, fun e he => by rw [hL]; exact List.mem_append_right _ (h2 e he)⟩

/-- Every chain of the table ends and holds entries of the table. -/
theorem tableEntries_chain (seg : Segment) (L : List Nat) (h : tableEntries seg = some L)
    (b : Nat) (hb : b < seg.table.size) :
    ∃ l, chainOf seg CHAIN_FUEL (seg.head b) = some l ∧ ∀ e ∈ l, e ∈ L :=
  chainsOf_chain seg _ L h b (List.mem_range.mpr hb)

theorem holds_of_isMatch (seg : Segment) (s : List Nat) (e : Nat) (hs : IsCStr s)
    (hm : seg.isMatch s e) : seg.holds e s := by
  unfold Segment.isMatch at hm
  exact ⟨hm.1, ciUpTo_of_lstrncmpiA_eq_zero _ _ _
    (fun i hi => byteAt_ne_zero_of_isCStr s hs i (by have := atomLen_le s; omega)) hm.2⟩

/-- Claim C13. For every C string `s` that is not an integer atom,
`ATOM_FindAtom` returns 0 (and the state it was called in) if the segment has no
valid table, and if no entry of the table has the length and, up to ASCII case,
the bytes of `s` truncated to 255 bytes. -/
theorem C13_find_returns_zero (st : State) (sel : Nat) (s : List Nat)
    (hint : ATOM_IsIntAtom (.str s) = none) (hs : IsCStr s)
    (h : ¬ HasTable (st.seg sel) ∨
      ∃ L, tableEntries (st.seg sel) = some L ∧ ∀ e ∈ L, ¬ (st.seg sel).holds e s) :
    ATOM_FindAtom st sel (.str s) = some (0, st) := by
  by_cases ht : HasTable (st.seg sel)
  · obtain ⟨L, hL, hno⟩ := h.resolve_left (fun hn => hn ht)
    obtain ⟨l, hl, hsub⟩ := tableEntries_chain _ L hL _ (hashOf_lt (st.seg sel) s ht)
    obtain ⟨e, he, hmem⟩ := findEntry_mem_chain (st.seg sel) s _ _ l hl
    have he0 : e = 0 := by
      rcases hmem with h0 | h1
      · exact h0
      · by_contra hne
        exact hno e (hsub e h1) (holds_of_isMatch _ s e hs (findEntry_some _ _ _ _ _ he hne))
    subst he0
    rw [ATOM_FindAtom_of_hasTable st sel s 0 hint ht he]
    rfl
  · exact ATOM_FindAtom_no_table st sel s hint ht

/-- Witness of claim C13: "World" is looked up in the table that holds "hello"
only. -/
theorem C13_find_returns_zero_witness :
    tableEntries (State.withHello.seg 7) = some [16] ∧
    ATOM_FindAtom State.withHello 7 (.str [87, 111, 114, 108, 100])
      = some (0, State.withHello) :=
  ⟨by decide,
    C13_find_returns_zero State.withHello 7 [87, 111, 114, 108, 100] (by decide) (by decide)
      (Or.inr ⟨[16], by decide, by decide⟩)⟩

/-! ## Lemmas: `ATOM_DeleteAtom` -/

/-- The walk of `ATOM_DeleteAtom` over a chain ends: at the slot that holds the
entry if the entry is in the chain, at the slot that ends the chain if not. -/
theorem findPrev_chain (seg : Segment) (t entry n : Nat) (p : Slot) (l : List Nat)
    (h : chainOf seg n (readSlot seg t p) = some l) :
    ∃ q, findPrev seg t entry n p = some q ∧
      readSlot seg t q = (if entry ∈ l then entry else 0) := by
  induction n generalizing p l with
  | zero => simp [chainOf] at h
  | succ n ih =>
    rcases chainOf_cases seg n _ l h with ⟨h0, rfl⟩ | ⟨h0, l', hc, rfl⟩
    · refine ⟨p, ?_, ?_⟩
      · simp [findPrev, h0]
      · simp [h0]
    · by_cases he : readSlot seg t p = entry
      · refine ⟨p, ?_, ?_⟩
        · simp [findPrev, he]
        · simp [he]
      · obtain ⟨q, hq, hr⟩ := ih (.next (readSlot seg t p)) l' hc
        refine ⟨q, ?_, ?_⟩
        · simp only [findPrev, ne_eq, h0, not_false_eq_true, he, and_self, if_true]
          exact hq
        · rw [hr]
          have : entry ∈ readSlot seg t p :: l' ↔ entry ∈ l' := by
            constructor
            · intro hm
              rcases List.mem_cons.mp hm with h1 | h1
              · exact absurd h1.symm he
              · exact h1
            · exact List.mem_cons_of_mem _
          simp only [this]

theorem ATOM_DeleteAtom_integer (st : State) (sel atom : Nat) (h : atom < MIN_STR_ATOM) :
    ATOM_DeleteAtom st sel atom = some (0, st) := by
  simp [ATOM_DeleteAtom, h]

/-- Without a table `ATOM_DeleteAtom` returns 0 for a string atom. -/
theorem ATOM_DeleteAtom_no_table (st : State) (sel atom : Nat) (hge : MIN_STR_ATOM ≤ atom)
    (ht : ¬ HasTable (st.seg sel)) : ATOM_DeleteAtom st sel atom = some (0, st) := by
  have hg : ATOM_GetTable st sel false 0 = (none, st) := by
    unfold HasTable at ht
    simp [ATOM_GetTable, ht]
  have hlt : ¬ atom < MIN_STR_ATOM := by omega
  unfold ATOM_DeleteAtom
  simp only [hlt, if_false, hg]

/-- When the walk ends at the end of the chain, `ATOM_DeleteAtom` returns the
atom and changes nothing. -/
theorem ATOM_DeleteAtom_unlinked (st : State) (sel atom : Nat) (q : Slot)
    (hge : MIN_STR_ATOM ≤ atom) (ht : HasTable (st.seg sel))
    (hq : findPrev (st.seg sel) (st.seg sel).atomtable (ATOMTOHANDLE atom) CHAIN_FUEL
      (.bucket ((st.seg sel).bucketOf (ATOMTOHANDLE atom))) = some q)
    (hr : readSlot (st.seg sel) (st.seg sel).atomtable q = 0) :
    ATOM_DeleteAtom st sel atom = some (atom, st) := by
  have hlt : ¬ atom < MIN_STR_ATOM := by omega
  simp only [Segment.bucketOf, Segment.table] at hq
  unfold ATOM_DeleteAtom
  simp only [hlt, if_false, ATOM_GetTable_of_hasTable st sel false 0 ht, hq, hr, if_true]

/-- When the walk ends at the slot that holds the entry, `ATOM_DeleteAtom`
returns 0, decrements the count as a `WORD` and, when it reaches 0, stores the
`next` of the entry to the slot and frees the block. -/
theorem ATOM_DeleteAtom_linked (st : State) (sel atom : Nat) (q : Slot)
    (hge : MIN_STR_ATOM ≤ atom) (ht : HasTable (st.seg sel))
    (hq : findPrev (st.seg sel) (st.seg sel).atomtable (ATOMTOHANDLE atom) CHAIN_FUEL
      (.bucket ((st.seg sel).bucketOf (ATOMTOHANDLE atom))) = some q)
    (hr : readSlot (st.seg sel) (st.seg sel).atomtable q ≠ 0) :
    ATOM_DeleteAtom st sel atom
      = some (0, st.setSeg sel
          (if (((st.seg sel).atoms (ATOMTOHANDLE atom)).refCount + 65535) % 65536 = 0 then
            LOCAL_Free (writeSlot ((st.seg sel).setRef (ATOMTOHANDLE atom) 0)
              (st.seg sel).atomtable ((st.seg sel).atoms (ATOMTOHANDLE atom)).next q)
              (ATOMTOHANDLE atom)
          else (st.seg sel).setRef (ATOMTOHANDLE atom)
            ((((st.seg sel).atoms (ATOMTOHANDLE atom)).refCount + 65535) % 65536))) := by
  have hlt : ¬ atom < MIN_STR_ATOM := by omega
  simp only [Segment.bucketOf, Segment.table] at hq
  unfold ATOM_DeleteAtom
  simp only [hlt, if_false, ATOM_GetTable_of_hasTable st sel false 0 ht, hq, hr]
  by_cases hz : (((st.seg sel).atoms (ATOMTOHANDLE atom)).refCount + 65535) % 65536 = 0
  · simp only [hz, if_true, Segment.setRef, Function.update_same]
  · simp only [hz, if_false, Segment.setRef]

/-- Claim C14, the failing input. In the blank state segment 7 has no table,
and `ATOM_DeleteAtom` of the string atom 0xC004 returns 0, the value of a
successful release, not the atom; the state is unchanged. -/
theorem C14_no_table_returns_zero :
    ¬ HasTable (State.blank.seg 7) ∧ MIN_STR_ATOM ≤ 0xc004 ∧
    ATOM_DeleteAtom State.blank 7 0xc004 = some (0, State.blank) :=
  ⟨by decide, by decide, ATOM_DeleteAtom_no_table State.blank 7 0xc004 (by decide) (by decide)⟩

/-- Claim C15, amended. For every string atom whose entry is linked in the
chain of the bucket of its stored string, with a reference count from 1 to
65535, `ATOM_DeleteAtom` returns 0: when the count is greater than 1 it is
decremented and nothing else changes, so the entry stays linked; when it is 1
the `next` of the entry is stored to the slot `q` that held its handle and the
block is freed. -/
theorem C15_release_returns_zero (st : State) (sel atom : Nat) (l : List Nat)
    (hge : MIN_STR_ATOM ≤ atom) (ht : HasTable (st.seg sel))
    (hl : chainOf (st.seg sel) CHAIN_FUEL
      ((st.seg sel).head ((st.seg sel).bucketOf (ATOMTOHANDLE atom))) = some l)
    (hmem : ATOMTOHANDLE atom ∈ l)
    (hrc1 : 1 ≤ ((st.seg sel).atoms (ATOMTOHANDLE atom)).refCount)
    (hrc : ((st.seg sel).atoms (ATOMTOHANDLE atom)).refCount < 65536) :
    ∃ q, readSlot (st.seg sel) (st.seg sel).atomtable q = ATOMTOHANDLE atom ∧
      ATOM_DeleteAtom st sel atom
        = some (0, st.setSeg sel
            (if ((st.seg sel).atoms (ATOMTOHANDLE atom)).refCount = 1 then
              LOCAL_Free (writeSlot ((st.seg sel).setRef (ATOMTOHANDLE atom) 0)
                (st.seg sel).atomtable ((st.seg sel).atoms (ATOMTOHANDLE atom)).next q)
                (ATOMTOHANDLE atom)
            else (st.seg sel).setRef (ATOMTOHANDLE atom)
              (((st.seg sel).atoms (ATOMTOHANDLE atom)).refCount - 1))) := by
  obtain ⟨q, hq, hr⟩ := findPrev_chain (st.seg sel) (st.seg sel).atomtable (ATOMTOHANDLE atom)
    CHAIN_FUEL (.bucket ((st.seg sel).bucketOf (ATOMTOHANDLE atom))) l hl
  rw [if_pos hmem] at hr
  have hne : ATOMTOHANDLE atom ≠ 0 := chainOf_ne_zero _ _ _ _ hl _ hmem
  refine ⟨q, hr, ?_⟩
  rw [ATOM_DeleteAtom_linked st sel atom q hge ht hq (by rw [hr]; exact hne)]
  have e2 : (((st.seg sel).atoms (ATOMTOHANDLE atom)).refCount + 65535) % 65536
      = ((st.seg sel).atoms (ATOMTOHANDLE atom)).refCount - 1 := by omega
  rw [e2]
  by_cases h1 : ((st.seg sel).atoms (ATOMTOHANDLE atom)).refCount = 1
  · rw [if_pos h1, if_pos (by omega)]
  · rw [if_neg h1, if_neg (by omega)]

/-- Claim C16, amended. For every string atom whose handle is not linked in the
chain of the bucket of its stored string, in a segment with a table,
`ATOM_DeleteAtom` returns the atom (the failure value, not 0) and leaves the
state as it is. -/
theorem C16_absent_atom_returned (st : State) (sel atom : Nat) (l : List Nat)
    (hge : MIN_STR_ATOM ≤ atom) (ht : HasTable (st.seg sel))
    (hl : chainOf (st.seg sel) CHAIN_FUEL
      ((st.seg sel).head ((st.seg sel).bucketOf (ATOMTOHANDLE atom))) = some l)
    (hmem : ATOMTOHANDLE atom ∉ l) :
    ATOM_DeleteAtom st sel atom = some (atom, st) := by
  obtain ⟨q, hq, hr⟩ := findPrev_chain (st.seg sel) (st.seg sel).atomtable (ATOMTOHANDLE atom)
    CHAIN_FUEL (.bucket ((st.seg sel).bucketOf (ATOMTOHANDLE atom))) l hl
  rw [if_neg hmem] at hr
  exact ATOM_DeleteAtom_unlinked st sel atom q hge ht hq hr

/-- Witness of claim C15: the atom of "a", interned twice, is released. -/
theorem C15_release_returns_zero_witness :
    ((State.withTwoRefs.seg 7).atoms (ATOMTOHANDLE 0xc004)).refCount = 2 ∧
    ∃ q, readSlot (State.withTwoRefs.seg 7) (State.withTwoRefs.seg 7).atomtable q
        = ATOMTOHANDLE 0xc004 ∧
      ATOM_DeleteAtom State.withTwoRefs 7 0xc004
        = some (0, State.withTwoRefs.setSeg 7
            (if ((State.withTwoRefs.seg 7).atoms (ATOMTOHANDLE 0xc004)).refCount = 1 then
              LOCAL_Free (writeSlot ((State.withTwoRefs.seg 7).setRef (ATOMTOHANDLE 0xc004) 0)
                (State.withTwoRefs.seg 7).atomtable
                ((State.withTwoRefs.seg 7).atoms (ATOMTOHANDLE 0xc004)).next q)
                (ATOMTOHANDLE 0xc004)
            else (State.withTwoRefs.seg 7).setRef (ATOMTOHANDLE 0xc004)
              (((State.withTwoRefs.seg 7).atoms (ATOMTOHANDLE 0xc004)).refCount - 1))) :=
  ⟨by decide,
    C15_release_returns_zero State.withTwoRefs 7 0xc004 [16] (by decide) (by decide) (by decide)
      (by decide) (by decide) (by decide)⟩

/-- Counterexample to claim C15 as stated: "a" is interned twice in a fresh
table, both calls return the atom 0xC004 and the reference count is 2;
`ATOM_DeleteAtom` of the atom returns 0, not the atom, and leaves the count 1. -/
theorem C15_counterexample :
    (addMany 7 [97] (fun _ => 0) (fun _ => 16) 0 2 State.fresh).map (fun r => r.1)
      = some [0xc004, 0xc004] ∧
    ((State.withTwoRefs.seg 7).atoms 16).refCount = 2 ∧
    (ATOM_DeleteAtom State.withTwoRefs 7 0xc004).map
        (fun r => (r.1, ((r.2.seg 7).atoms 16).refCount)) = some (0, 1) ∧
    (0 : Nat) ≠ 0xc004 := by
  decide

/-- Witness of claim C16: the atom 0xC004 of "hello" is released a second
time, when its entry is no longer linked. -/
theorem C16_absent_atom_returned_witness :
    ATOM_DeleteAtom State.afterDelete 7 0xc004 = some (0xc004, State.afterDelete) :=
  C16_absent_atom_returned State.afterDelete 7 0xc004 [] (by decide) (by decide) (by decide)
    (by decide)

/-- Counterexample to claim C16 as stated: after "hello" has been interned and
released, the table exists and has no entry; `ATOM_DeleteAtom` of the atom
0xC004 returns 0xC004, not 0.  So does `ATOM_DeleteAtom` of the atom 0xC005,
which was never returned, in the table that holds "hello". -/
theorem C16_counterexample :
    HasTable (State.afterDelete.seg 7) ∧ tableEntries (State.afterDelete.seg 7) = some [] ∧
    (ATOM_DeleteAtom State.afterDelete 7 0xc004).map (fun r => r.1) = some 0xc004 ∧
    tableEntries (State.withHello.seg 7) = some [16] ∧
    (ATOM_DeleteAtom State.withHello 7 0xc005).map (fun r => r.1) = some 0xc005 ∧
    (0xc004 : Nat) ≠ 0 := by
  decide

/-! ## The failures of `ATOM_GetAtomName` and `ATOM_AddAtom` -/

/-- Without a table `ATOM_GetAtomName` returns 0 for a string atom and stores
nothing, whatever the capacity. -/
theorem ATOM_GetAtomName_no_table (st : State) (sel atom : Nat) (count : Int)
    (hge : MIN_STR_ATOM ≤ atom) (ht : ¬ HasTable (st.seg sel)) :
    ATOM_GetAtomName st sel atom count = ⟨0, [], st⟩ := by
  have hg : ATOM_GetTable st sel false 0 = (none, st) := by
    unfold HasTable at ht
    simp [ATOM_GetTable, ht]
  have hlt : ¬ atom < MIN_STR_ATOM := by omega
  unfold ATOM_GetAtomName
  by_cases hc : count = 0
  · simp only [hc, if_true]
  · simp only [hc, if_false, hlt, hg]

/-- Claim C17, amended. For every string atom, `ATOM_GetAtomName` returns 0 for
every capacity when the segment has no table; when the segment has a table it
returns, for a capacity `c` from 1 to `INT_MAX`, the length stored at the handle
of the atom clamped to `c - 1`, whether or not an entry of the table is at that
handle. -/
theorem C17_name_of_unresolvable_atom (st : State) (sel atom : Nat) (count : Int)
    (hge : MIN_STR_ATOM ≤ atom)
    (hc : ¬ HasTable (st.seg sel) ∨ (1 ≤ count ∧ count ≤ INT_MAX)) :
    (ATOM_GetAtomName st sel atom count).ret
      = (if HasTable (st.seg sel) then
          min ((st.seg sel).atoms (ATOMTOHANDLE atom)).length (count.toNat - 1)
        else 0) := by
  by_cases ht : HasTable (st.seg sel)
  · obtain ⟨hc1, hcmax⟩ := hc.resolve_left (fun hn => hn ht)
    unfold INT_MAX at hcmax
    have hc0 : count ≠ 0 := by omega
    have hlt : ¬ atom < MIN_STR_ATOM := by omega
    rw [if_pos ht]
    unfold ATOM_GetAtomName
    simp only [hc0, if_false, hlt, ATOM_GetTable_of_hasTable st sel false 0 ht, ATOM_MakePtr]
    split <;> omega
  · rw [if_neg ht, ATOM_GetAtomName_no_table st sel atom count hge ht]

/-- Witness of claim C17: the atom 0xC004 in the blank state, where segment 7
has no table, with a capacity of 256. -/
theorem C17_name_of_unresolvable_atom_witness :
    ¬ HasTable (State.blank.seg 7) ∧
    (ATOM_GetAtomName State.blank 7 0xc004 256).ret
      = (if HasTable (State.blank.seg 7) then
          min ((State.blank.seg 7).atoms (ATOMTOHANDLE 0xc004)).length ((256 : Int).toNat - 1)
        else 0) ∧
    (ATOM_GetAtomName State.blank 7 0xc004 256).ret = 0 :=
  ⟨by decide,
    C17_name_of_unresolvable_atom State.blank 7 0xc004 256 (by decide) (Or.inl (by decide)),
    by decide⟩

/-- Counterexample to claim C17 as stated: after "hello" has been interned and
released the table has no entry, and after a new table has been initialised for
the segment the table has no entry either; in both states `ATOM_GetAtomName` of
the atom 0xC004 with a capacity of 256 returns 5 and writes "hello". -/
theorem C17_counterexample :
    HasTable (State.afterDelete.seg 7) ∧ tableEntries (State.afterDelete.seg 7) = some [] ∧
    (State.afterDelete.seg 7).arena 16 = none ∧
    (ATOM_GetAtomName State.afterDelete 7 0xc004 256).ret = 5 ∧
    (ATOM_GetAtomName State.afterDelete 7 0xc004 256).buffer = [104, 101, 108, 108, 111, 0] ∧
    HasTable (State.reinit.seg 7) ∧ tableEntries (State.reinit.seg 7) = some [] ∧
    (ATOM_GetAtomName State.reinit 7 0xc004 256).ret = 5 ∧
    (ATOM_GetAtomName State.reinit 7 0xc004 256).buffer = [104, 101, 108, 108, 111, 0] := by
  decide

/-- Claim C18. If the segment has a table, the string `s` is not an integer
atom and is absent from the table, so that a new entry is asked for, and the
arena returns 0 for it, `ATOM_AddAtom` returns 0 and the state is the state
before the call: tables, entries and arena are unchanged. -/
theorem C18_entry_allocation_fails (st : State) (sel : Nat) (s : List Nat) (hT : Nat)
    (hint : ATOM_IsIntAtom (.str s) = none) (ht : HasTable (st.seg sel))
    (habs : Absent st sel s) :
    ATOM_AddAtom st sel (.str s) hT 0 = some (0, st) :=
  ATOM_AddAtom_alloc_fails st sel s hT hint ht (findEntry_of_absent st sel s hint ht habs)

/-- Witness of claim C18: "World" is interned in the table that holds "hello"
and the arena fails. -/
theorem C18_entry_allocation_fails_witness :
    ATOM_AddAtom State.withHello 7 (.str [87, 111, 114, 108, 100]) 0 0
      = some (0, State.withHello) :=
  C18_entry_allocation_fails State.withHello 7 [87, 111, 114, 108, 100] 0 (by decide)
    (by decide)
    (ATOM_FindAtom_of_hasTable State.withHello 7 [87, 111, 114, 108, 100] 0 (by decide)
      (by decide) (by decide))

theorem absent_of_findEntry (st : State) (sel : Nat) (s : List Nat)
    (hint : ATOM_IsIntAtom (.str s) = none) (ht : HasTable (st.seg sel))
    (hf : findEntry (st.seg sel) s (atomLen s) CHAIN_FUEL
      ((st.seg sel).head ((st.seg sel).hashOf s)) = some 0) : Absent st sel s := by
  unfold Absent
  rw [ATOM_FindAtom_of_hasTable st sel s 0 hint ht hf]
  rfl

theorem ATOM_GetTable_create_of_hasTable (st : State) (sel hT : Nat)
    (ht : HasTable (st.seg sel)) : (ATOM_GetTable st sel true hT).2 = st := by
  rw [ATOM_GetTable_of_hasTable st sel true hT ht]

theorem ATOM_GetTable_create (st : State) (sel hT : Nat) (ht : ¬ HasTable (st.seg sel)) :
    (ATOM_GetTable st sel true hT).2 = (ATOM_InitTable st sel DEFAULT_ATOMTABLE_SIZE hT).2 := by
  unfold HasTable at ht
  unfold ATOM_GetTable
  simp only [ht, if_false, Bool.not_true, Bool.false_eq_true]
  split <;> rfl

theorem C19_core (st : State) (sel : Nat) (s : List Nat) (hT hE a : Nat) (st1 : State)
    (hint : ATOM_IsIntAtom (.str s) = none) (ht : HasTable (st.seg sel))
    (hret : ATOM_AddAtom st sel (.str s) hT hE = some (a, st1)) :
    a = 0 ↔ (Absent st sel s ∧ hE = 0) := by
  rcases ATOM_AddAtom_cases st sel s hT hE a st1 hint ht hret with
    ⟨hf, ⟨hE0, ha0, _⟩ | ⟨hE0, rfl, _⟩⟩ | ⟨e, he, hf, rfl, _⟩
  · exact ⟨fun _ => ⟨absent_of_findEntry st sel s hint ht hf, hE0⟩, fun _ => ha0⟩
  · exact ⟨fun h => absurd h (HANDLETOATOM_ne_zero _), fun h => absurd h.2 hE0⟩
  · refine ⟨fun h => absurd h (HANDLETOATOM_ne_zero _), fun h => ?_⟩
    have := findEntry_of_absent st sel s hint ht h.1
    rw [hf] at this
    exact absurd (Option.some.inj this) he

/-- Claim C19, amended. For every string that is not an integer atom, a call of
`ATOM_AddAtom` that returns returns 0 if and only if it fails, that is if the
table cannot be created or the entry cannot be allocated (`AddFails`); every
other call returns a non-zero atom. -/
theorem C19_zero_iff_failure (st : State) (sel : Nat) (s : List Nat) (hT hE a : Nat)
    (st1 : State) (hint : ATOM_IsIntAtom (.str s) = none)
    (hret : ATOM_AddAtom st sel (.str s) hT hE = some (a, st1)) :
    a = 0 ↔ AddFails st sel s hT hE := by
  unfold AddFails
  by_cases ht : HasTable (st.seg sel)
  · rw [ATOM_GetTable_create_of_hasTable st sel hT ht,
      C19_core st sel s hT hE a st1 hint ht hret]
    constructor
    · exact fun h => Or.inr h
    · rintro (h | h)
      · exact absurd ht h.1
      · exact h
  · by_cases hT0 : hT = 0
    · subst hT0
      obtain ⟨st2, h2⟩ := ATOM_AddAtom_no_table_fails st sel s hE hint ht
      rw [h2] at hret
      have ha : a = 0 := (Prod.mk.inj (Option.some.inj hret)).1.symm
      exact ⟨fun _ => Or.inl ⟨ht, rfl⟩, fun _ => ha⟩
    · rw [ATOM_AddAtom_create st sel s hT hE hint ht hT0] at hret
      have he := emptyTable_init st sel DEFAULT_ATOMTABLE_SIZE hT (by decide) hT0
      rw [ATOM_GetTable_create st sel hT ht, C19_core _ sel s hT hE a st1 hint he.1 hret]
      constructor
      · exact fun h => Or.inr h
      · rintro (h | h)
        · exact absurd h.2 hT0
        · exact h

/-- Witness of claim C19: "World" is interned in the table that holds "hello",
with the arena failing. -/
theorem C19_zero_iff_failure_witness :
    ATOM_AddAtom State.withHello 7 (.str [87, 111, 114, 108, 100]) 0 0
      = some (0, State.withHello) ∧
    ((0 : Nat) = 0 ↔ AddFails State.withHello 7 [87, 111, 114, 108, 100] 0 0) := by
  have hadd := ATOM_AddAtom_alloc_fails State.withHello 7 [87, 111, 114, 108, 100] 0 (by decide)
    (by decide) (by decide)
  exact ⟨hadd,
    C19_zero_iff_failure State.withHello 7 [87, 111, 114, 108, 100] 0 0 0 _ (by decide) hadd⟩

theorem ATOM_AddAtom_int (st : State) (sel : Nat) (str : LPCSTR) (hT hE v : Nat)
    (h : ATOM_IsIntAtom str = some v) : ATOM_AddAtom st sel str hT hE = some (v, st) := by
  unfold ATOM_AddAtom
  simp only [h]

/-- Counterexample to claim C19 as stated: the string "#0" is an integer atom
with value 0; in a fresh table, with the arena ready to return the handles 8 and
16, `ATOM_AddAtom` of "#0" returns 0 and nothing has failed. -/
theorem C19_counterexample :
    ATOM_AddAtom State.fresh 7 (.str [35, 48]) 8 16 = some (0, State.fresh) ∧
    ¬ AddFails State.fresh 7 [35, 48] 8 16 := by
  refine ⟨ATOM_AddAtom_int State.fresh 7 (.str [35, 48]) 8 16 0 (by decide), ?_⟩
  rintro (h | h)
  · exact h.1 fresh_empty.1
  · exact absurd h.2 (by decide)

/-! ## Malformed integer atoms -/

/-- What `strtol` reads from a non-empty run of digits: their value, `LONG_MAX`
when it is out of range. -/
theorem strtol_digits_sat (ds : List Nat) (hne : ds ≠ []) (hd : ∀ c ∈ ds, isdigit c = true) :
    strtol ds = (min (digitsValue ds : Int) LONG_MAX, ds.length) := by
  obtain ⟨c, tl, rfl⟩ := List.exists_cons_of_ne_nil hne
  have hc := hd c (List.mem_cons_self _ _)
  have hsp := isdigit_not_isspace c hc
  have h45 : c ≠ 45 := by
    simp only [isdigit, Bool.and_eq_true, decide_eq_true_eq] at hc; omega
  have h43 : c ≠ 43 := by
    simp only [isdigit, Bool.and_eq_true, decide_eq_true_eq] at hc; omega
  have htw : (c :: tl).takeWhile isdigit = c :: tl := by
    rw [List.takeWhile_eq_self_iff]; exact hd
  unfold strtol
  simp only [List.takeWhile_cons, List.dropWhile_cons, hsp, Bool.false_eq_true, if_false,
    List.head?_cons, Option.some.injEq, h45, h43, or_self, List.drop_zero, hc, if_true]
  rw [← List.takeWhile_cons_of_pos hc, htw]
  simp

/-- The function `ATOM_IsIntAtom` on `#` and a non-empty run of digits. -/
theorem ATOM_IsIntAtom_digits (ds : List Nat) (hne : ds ≠ [])
    (hd : ∀ c ∈ ds, isdigit c = true) :
    ATOM_IsIntAtom (.str (35 :: ds)) = some (min (digitsValue ds) 2147483647 % 65536) := by
  have hs := strtol_digits_sat ds hne hd
  unfold ATOM_IsIntAtom
  simp only [byteAt_cons_zero, ne_eq, not_true_eq_false, if_false, List.tail_cons, hs]
  have e : 1 + ds.length = ds.length + 1 := by omega
  rw [e, byteAt_cons_succ, byteAt_of_le _ _ (le_refl _)]
  unfold LONG_MAX
  have : (min (digitsValue ds : Int) 2147483647 % 65536) =
      ((min (digitsValue ds) 2147483647 % 65536 : Nat) : Int) := by
    push_cast; rfl
  rw [this, Int.toNat_ofNat]
  simp

/-- Claim C21, amended. For every non-empty sequence `ds` of decimal digits,
`ATOM_IsIntAtom` accepts `#` followed by `ds`, and the atom id it yields is the
decimal value of `ds`, limited to `LONG_MAX` by `strtol`, as a 16-bit `WORD`: it is
the decimal value itself when that is below 65536. -/
theorem C21_decimal_string_atom (ds : List Nat) (hne : ds ≠ [])
    (hd : ∀ c ∈ ds, isdigit c = true) :
    ATOM_IsIntAtom (.str (35 :: ds)) = some (min (digitsValue ds) 2147483647 % 65536) ∧
    (digitsValue ds < 65536 → ATOM_IsIntAtom (.str (35 :: ds)) = some (digitsValue ds)) := by
  refine ⟨ATOM_IsIntAtom_digits ds hne hd, fun hlt => ?_⟩
  rw [ATOM_IsIntAtom_digits ds hne hd]
  congr 1
  omega

/-- Witness of claim C21: the string "#1234" yields 1234. -/
theorem C21_decimal_string_atom_witness :
    ATOM_IsIntAtom (.str [35, 49, 50, 51, 52]) = some 1234 :=
  (C21_decimal_string_atom [49, 50, 51, 52] (by decide) (by decide)).2 (by decide)

/-- Counterexample to claim C21 as stated: "#65536" is accepted and yields the
atom id 0, "#65537" yields 1 and "#99999999999" yields 65535, none of them the
decimal value of the digits. -/
theorem C21_counterexample :
    ATOM_IsIntAtom (.str [35, 54, 53, 53, 51, 54]) = some 0 ∧
    digitsValue [54, 53, 53, 51, 54] = 65536 ∧
    ATOM_IsIntAtom (.str [35, 54, 53, 53, 51, 55]) = some 1 ∧
    digitsValue [54, 53, 53, 51, 55] = 65537 ∧
    ATOM_IsIntAtom (.str (35 :: List.replicate 11 57)) = some 65535 ∧
    digitsValue (List.replicate 11 57) = 99999999999 := by
  decide

/-! ## The handle/atom transform -/

theorem HANDLETOATOM_ATOMTOHANDLE (a : Nat) (hge : 0xc000 ≤ a) (hlt : a < 65536) :
    HANDLETOATOM (ATOMTOHANDLE a) = a := by
  have e : ATOMTOHANDLE a = (a - 0xc000) * 4 := by
    unfold ATOMTOHANDLE
    rw [Nat.shiftLeft_eq]
    omega
  rw [e, HANDLETOATOM_eq _ (by omega)]
  omega

/-- Claim C22. For all 16-bit arena handles `h`, `h1`, `h2` that are multiples
of 4, `ATOMTOHANDLE (HANDLETOATOM h)` as a `HANDLE16` is `h`, equal atoms come from
equal handles, and `HANDLETOATOM h` is a 16-bit value not below 0xC000; for
every 16-bit atom `a` not below 0xC000, `HANDLETOATOM (ATOMTOHANDLE a)` is `a`,
`ATOMTOHANDLE a` is a 16-bit multiple of 4, and `GetAtomHandle16` returns it. -/
theorem C22_transform_reversible (h h1 h2 a : Nat)
    (h4 : h % 4 = 0) (hlt : h < 65536)
    (a1 : h1 % 4 = 0) (l1 : h1 < 65536) (a2 : h2 % 4 = 0) (l2 : h2 < 65536)
    (hge : 0xc000 ≤ a) (ha : a < 65536) :
    ATOMTOHANDLE (HANDLETOATOM h) = h ∧
    (HANDLETOATOM h1 = HANDLETOATOM h2 → h1 = h2) ∧
    0xc000 ≤ HANDLETOATOM h ∧ HANDLETOATOM h < 65536 ∧
    HANDLETOATOM (ATOMTOHANDLE a) = a ∧
    ATOMTOHANDLE a % 4 = 0 ∧ ATOMTOHANDLE a < 65536 ∧
    GetAtomHandle16 a = ATOMTOHANDLE a ∧ GetAtomHandle16 (HANDLETOATOM h) = h := by
  have hat := ATOMTOHANDLE_HANDLETOATOM h h4 hlt
  have hmin : ¬ (a < MIN_STR_ATOM) := by unfold MIN_STR_ATOM; omega
  have hmin2 : ¬ (HANDLETOATOM h < MIN_STR_ATOM) := by
    have := HANDLETOATOM_ge h
    unfold MIN_STR_ATOM; omega
  refine ⟨hat, HANDLETOATOM_inj h1 h2 a1 l1 a2 l2, HANDLETOATOM_ge h, HANDLETOATOM_lt h,
    HANDLETOATOM_ATOMTOHANDLE a hge ha, ?_, ?_, ?_, ?_⟩
  · unfold ATOMTOHANDLE; rw [Nat.shiftLeft_eq]; omega
  · unfold ATOMTOHANDLE; omega
  · unfold GetAtomHandle16; rw [if_neg hmin]
  · unfold GetAtomHandle16; rw [if_neg hmin2, hat]

/-- Witness of claim C22: the handles 16, 20 and 24 and the atom 0xC004. -/
theorem C22_transform_reversible_witness :
    ATOMTOHANDLE (HANDLETOATOM 16) = 16 ∧
    (HANDLETOATOM 20 = HANDLETOATOM 24 → 20 = 24) ∧
    0xc000 ≤ HANDLETOATOM 16 ∧ HANDLETOATOM 16 < 65536 ∧
    HANDLETOATOM (ATOMTOHANDLE 0xc004) = 0xc004 ∧
    ATOMTOHANDLE 0xc004 % 4 = 0 ∧ ATOMTOHANDLE 0xc004 < 65536 ∧
    GetAtomHandle16 0xc004 = ATOMTOHANDLE 0xc004 ∧ GetAtomHandle16 (HANDLETOATOM 16) = 16 :=
  C22_transform_reversible 16 20 24 0xc004 (by decide) (by decide) (by decide) (by decide)
    (by decide) (by decide) (by decide) (by decide)


/-! ## The hash -/

theorem uppercase_eq_toupper (b : Nat) : uppercase b = toupper b := by
  unfold uppercase toupper
  split <;> omega

theorem xor_mod_left (x y : Nat) : (x % 65536 ^^^ y) % 65536 = (x ^^^ y) % 65536 := by
  have h16 : (65536 : Nat) = 2 ^ 16 := by norm_num
  rw [h16]
  apply Nat.eq_of_testBit_eq
  intro i
  simp only [Nat.testBit_mod_two_pow, Nat.testBit_xor]
  by_cases hi : i < 16 <;> simp [hi]

theorem hash_fold (f : Nat → Nat) (l : List Nat) : ∀ a, a < 65536 →
    l.foldl (fun hash i => (hash ^^^ f i) % 65536) a
      = (a ^^^ (l.map f).foldr Nat.xor 0) % 65536 := by
  induction l with
  | nil =>
    intro a ha
    simp only [List.foldl_nil, List.map_nil, List.foldr_nil, Nat.xor_zero]
    omega
  | cons i l ih =>
    intro a _
    simp only [List.foldl_cons, List.map_cons, List.foldr_cons]
    rw [ih _ (Nat.mod_lt _ (by norm_num)), xor_mod_left]
    congr 1
    exact Nat.xor_assoc a (f i) _

theorem xor_mod_right (x y : Nat) : (x ^^^ y % 65536) % 65536 = (x ^^^ y) % 65536 := by
  rw [Nat.xor_comm x (y % 65536), xor_mod_left, Nat.xor_comm]

/-- The value `ATOM_Hash` reads for a byte below 128 is `toupper` of the byte. -/
theorem hashWord_ascii (s : List Nat) (i : Nat) (h : byteAt s i < 128) :
    ((toupperInt (charAt s i) + (i : Int)) % 65536).toNat
      = (toupper (byteAt s i) + i) % 65536 := by
  unfold toupperInt charAt toupper
  split_ifs <;> omega

theorem ATOM_Hash_eq_hashSpec (n : Nat) (s : List Nat) (len : Nat)
    (hascii : ∀ i, i < len → byteAt s i < 128) :
    ATOM_Hash n s len = hashSpec n s len := by
  unfold ATOM_Hash hashSpec
  have e : (fun i => uppercase (byteAt s i) + i) = (fun i => toupper (byteAt s i) + i) := by
    funext i; rw [uppercase_eq_toupper]
  have e2 : (List.range len).foldl
      (fun hash i =>
        (hash ^^^ ((toupperInt (charAt s i) + (i : Int)) % 65536).toNat) % 65536) 0
      = (List.range len).foldl
        (fun hash i => (hash ^^^ (toupper (byteAt s i) + i)) % 65536) 0 := by
    apply List.foldl_ext
    intro a i hi
    rw [hashWord_ascii s i (hascii i (by simpa using hi)), xor_mod_right]
  rw [e, e2, hash_fold (fun i => toupper (byteAt s i) + i) (List.range len) 0 (by norm_num),
    Nat.zero_xor]

/-- Claim C26, amended. For every bucket count `n > 0`, every byte string `s`
and length `len`, the result of `ATOM_Hash` is below `n`, and when the `len`
bytes hashed are below 0x80 it is the hash of the specification: the XOR over
`i` in `[0, len)` of `uppercase (byte i) + i`, in a 16-bit word starting from 0,
modulo `n`; with 37 buckets "Hello" hashes to 18. -/
theorem C26_hash_reference (n : Nat) (s : List Nat) (len : Nat) (hn : 0 < n) :
    ((∀ i, i < len → byteAt s i < 128) → ATOM_Hash n s len = hashSpec n s len) ∧
    ATOM_Hash n s len < n ∧
    ATOM_Hash 37 [72, 101, 108, 108, 111] 5 = 18 :=
  ⟨ATOM_Hash_eq_hashSpec n s len, ATOM_Hash_lt n s len (by omega), by decide⟩

/-- Witness of claim C26: 37 buckets and the string "Hello". -/
theorem C26_hash_reference_witness :
    ATOM_Hash 37 [72, 101, 108, 108, 111] 5 = hashSpec 37 [72, 101, 108, 108, 111] 5 ∧
    ATOM_Hash 37 [72, 101, 108, 108, 111] 5 < 37 ∧
    ATOM_Hash 37 [72, 101, 108, 108, 111] 5 = 18 :=
  ⟨(C26_hash_reference 37 [72, 101, 108, 108, 111] 5 (by decide)).1 (by decide),
    (C26_hash_reference 37 [72, 101, 108, 108, 111] 5 (by decide)).2⟩

/-- Counterexample to claim C26 as stated: the string of the one byte 0xFF.  The
code reads the byte as the `char` -1, `toupper` returns -1, and the `WORD` `hash`
is 0xFFFF, which is 8 modulo 37; the hash of the specification takes the byte
as 255, which is 33 modulo 37. -/
theorem C26_counterexample :
    charAt [255] 0 = -1 ∧ toupperInt (-1) = -1 ∧
    ATOM_Hash 37 [255] 1 = 8 ∧ hashSpec 37 [255] 1 = 33 ∧
    ATOM_Hash 37 [255] 1 ≠ hashSpec 37 [255] 1 := by
  decide

/-! ## The initialisation of a table -/

theorem ATOM_InitTable_fails (st : State) (sel n : Nat) :
    (ATOM_InitTable st sel n 0).1 = 0 ∧ (ATOM_InitTable st sel n 0).2.seg = st.seg := by
  unfold ATOM_InitTable LOCAL_Alloc
  by_cases hg : st.ATOM_GlobalTable = 0 <;> simp [hg]

theorem ATOM_InitTable_succeeds (st : State) (sel n h : Nat) (h0 : h ≠ 0) :
    (ATOM_InitTable st sel n h).1 = h ∧
    ((ATOM_InitTable st sel n h).2.seg sel).atomtable = h ∧
    ((ATOM_InitTable st sel n h).2.seg sel).table.size = n ∧
    (∀ b, b < n → ((ATOM_InitTable st sel n h).2.seg sel).table.entries b = 0) ∧
    ((ATOM_InitTable st sel n h).2.seg sel).arena h = some ((4 + n * 2 - 2) % 65536) := by
  unfold ATOM_InitTable LOCAL_Alloc
  simp only [h0, Segment.table, if_false, setSeg_seg_same, Function.update_same, true_and,
    and_true]
  intro b hb
  simp [hb]

/-- Claim C27. For every bucket count `n` passed to `InitAtomTable16` in the
segment `ds`: when the allocation succeeds (the arena returns `h ≠ 0`), the call
returns `h`, `h` is stored as the table of the segment, that table has size `n`
(37 when `n = 0`) and each of its buckets is 0; when the allocation fails the
call returns 0 and leaves the segments as they are. -/
theorem C27_init_atom_table (st : State) (ds n h : Nat) (h0 : h ≠ 0) :
    (InitAtomTable16 st ds n h).1 = h ∧
    ((InitAtomTable16 st ds n h).2.seg ds).atomtable = h ∧
    ((InitAtomTable16 st ds n h).2.seg ds).table.size = (if n = 0 then 37 else n) ∧
    (∀ b, b < ((InitAtomTable16 st ds n h).2.seg ds).table.size →
      ((InitAtomTable16 st ds n h).2.seg ds).table.entries b = 0) ∧
    (InitAtomTable16 st ds n 0).1 = 0 ∧ (InitAtomTable16 st ds n 0).2.seg = st.seg := by
  unfold InitAtomTable16 DEFAULT_ATOMTABLE_SIZE
  obtain ⟨e1, e2, e3, e4, _⟩ := ATOM_InitTable_succeeds st ds (if n = 0 then 37 else n) h h0
  obtain ⟨f1, f2⟩ := ATOM_InitTable_fails st ds (if n = 0 then 37 else n)
  refine ⟨e1, e2, e3, ?_, f1, f2⟩
  intro b hb
  rw [e3] at hb
  exact e4 b hb

/-- Witness of claim C27: 0 and 5 buckets asked for in segment 7 of the blank
state, the arena returning the handle 8. -/
theorem C27_init_atom_table_witness :
    ((InitAtomTable16 State.blank 7 0 8).1 = 8 ∧
    ((InitAtomTable16 State.blank 7 0 8).2.seg 7).atomtable = 8 ∧
    ((InitAtomTable16 State.blank 7 0 8).2.seg 7).table.size = (if 0 = 0 then 37 else 0) ∧
    (∀ b, b < ((InitAtomTable16 State.blank 7 0 8).2.seg 7).table.size →
      ((InitAtomTable16 State.blank 7 0 8).2.seg 7).table.entries b = 0) ∧
    (InitAtomTable16 State.blank 7 0 0).1 = 0 ∧
    (InitAtomTable16 State.blank 7 0 0).2.seg = State.blank.seg) ∧
    ((InitAtomTable16 State.blank 7 5 8).2.seg 7).table.size = 5 :=
  ⟨C27_init_atom_table State.blank 7 0 8 (by decide), by decide⟩

/-! ## The global table designation -/

theorem ATOM_InitTable_global (st : State) (sel n h : Nat) :
    (ATOM_InitTable st sel n h).2.ATOM_GlobalTable
      = if st.ATOM_GlobalTable = 0 then sel else st.ATOM_GlobalTable := by
  unfold ATOM_InitTable
  by_cases hg : st.ATOM_GlobalTable = 0 <;> simp only [hg, if_true, if_false] <;>
    split <;> simp [hg]

theorem ATOM_GetTable_global (st : State) (sel : Nat) (create : Bool) (h : Nat)
    (hg : st.ATOM_GlobalTable ≠ 0) :
    (ATOM_GetTable st sel create h).2.ATOM_GlobalTable = st.ATOM_GlobalTable := by
  have hi := ATOM_InitTable_global st sel DEFAULT_ATOMTABLE_SIZE h
  rw [if_neg hg] at hi
  unfold ATOM_GetTable
  simp only
  split
  · rfl
  · split
    · rfl
    · split <;> exact hi

theorem ATOM_AddAtom_global (st : State) (sel : Nat) (str : LPCSTR) (hT hE : Nat)
    (r : Nat × State) (hg : st.ATOM_GlobalTable ≠ 0)
    (h : ATOM_AddAtom st sel str hT hE = some r) :
    r.2.ATOM_GlobalTable = st.ATOM_GlobalTable := by
  unfold ATOM_AddAtom at h
  split at h
  · rw [← Option.some.inj h]
  · have hgt := ATOM_GetTable_global st sel true hT hg
    generalize ATOM_GetTable st sel true hT = g at h hgt
    obtain ⟨g1, g2⟩ := g
    simp only at hgt
    cases g1 with
    | none => simp only at h; rw [← Option.some.inj h]; exact hgt
    | some t =>
      simp only at h
      repeat' first
        | exact Option.noConfusion h
        | (rw [← Option.some.inj h]; exact hgt)
        | split at h

theorem ATOM_DeleteAtom_global (st : State) (sel atom : Nat) (r : Nat × State)
    (h : ATOM_DeleteAtom st sel atom = some r) :
    r.2.ATOM_GlobalTable = st.ATOM_GlobalTable := by
  unfold ATOM_DeleteAtom at h
  split at h
  · rw [← Option.some.inj h]
  · have hgt := ATOM_GetTable_no_create st sel 0
    generalize ATOM_GetTable st sel false 0 = g at h hgt
    obtain ⟨g1, g2⟩ := g
    simp only at hgt
    subst hgt
    cases g1 with
    | none => simp only at h; rw [← Option.some.inj h]
    | some t =>
      simp only at h
      split at h
      · exact Option.noConfusion h
      · split at h
        · rw [← Option.some.inj h]
        · split at h <;> rw [← Option.some.inj h] <;> rfl

theorem ATOM_GetAtomName_state (st : State) (sel atom : Nat) (count : Int) :
    (ATOM_GetAtomName st sel atom count).state = st := by
  unfold ATOM_GetAtomName
  split
  · rfl
  · split
    · rfl
    · have hgt := ATOM_GetTable_no_create st sel 0
      generalize ATOM_GetTable st sel false 0 = g at hgt
      obtain ⟨g1, g2⟩ := g
      simp only at hgt
      subst hgt
      cases g1 <;> rfl

theorem ATOM_FindAtom_state (st : State) (sel : Nat) (str : LPCSTR) (a : Nat) (st1 : State)
    (h : ATOM_FindAtom st sel str = some (a, st1)) : st1 = st := by
  unfold ATOM_FindAtom at h
  split at h
  · exact (Prod.mk.inj (Option.some.inj h)).2.symm
  · have hg := ATOM_GetTable_no_create st sel 0
    generalize ATOM_GetTable st sel false 0 = r at h hg
    obtain ⟨r1, r2⟩ := r
    simp only at hg
    subst hg
    cases r1 with
    | none => exact (Prod.mk.inj (Option.some.inj h)).2.symm
    | some t =>
      simp only at h
      split at h
      · exact Option.noConfusion h
      · exact (Prod.mk.inj (Option.some.inj h)).2.symm
      · exact (Prod.mk.inj (Option.some.inj h)).2.symm

/-- Claim C28, amended. While the global-table designation is zero, a call of
`ATOM_InitTable` sets it to the selector of the call, whether or not the
allocation of the table succeeds; once it is non-zero no call of
`ATOM_InitTable`, `ATOM_GetTable`, `ATOM_AddAtom`, `ATOM_DeleteAtom`,
`ATOM_FindAtom` or `ATOM_GetAtomName` on any segment changes it. -/
theorem C28_global_table_assigned_once (st : State) (sel n h : Nat) (create : Bool)
    (str : LPCSTR) (hT hE atom : Nat) (count : Int) :
    (st.ATOM_GlobalTable = 0 → (ATOM_InitTable st sel n h).2.ATOM_GlobalTable = sel) ∧
    (st.ATOM_GlobalTable ≠ 0 →
      (ATOM_InitTable st sel n h).2.ATOM_GlobalTable = st.ATOM_GlobalTable ∧
      (ATOM_GetTable st sel create h).2.ATOM_GlobalTable = st.ATOM_GlobalTable ∧
      (∀ r, ATOM_AddAtom st sel str hT hE = some r →
        r.2.ATOM_GlobalTable = st.ATOM_GlobalTable) ∧
      (∀ r, ATOM_DeleteAtom st sel atom = some r →
        r.2.ATOM_GlobalTable = st.ATOM_GlobalTable) ∧
      (∀ r, ATOM_FindAtom st sel str = some r →
        r.2.ATOM_GlobalTable = st.ATOM_GlobalTable) ∧
      (ATOM_GetAtomName st sel atom count).state.ATOM_GlobalTable = st.ATOM_GlobalTable) := by
  refine ⟨fun h0 => ?_, fun hg => ⟨?_, ATOM_GetTable_global st sel create h hg,
    fun r hr => ATOM_AddAtom_global st sel str hT hE r hg hr,
    fun r hr => ATOM_DeleteAtom_global st sel atom r hr, fun r hr => ?_, ?_⟩⟩
  · rw [ATOM_InitTable_global, if_pos h0]
  · rw [ATOM_InitTable_global, if_neg hg]
  · obtain ⟨a, st1⟩ := r
    rw [ATOM_FindAtom_state st sel str a st1 hr]
  · rw [ATOM_GetAtomName_state]

/-- Witness of claim C28: the first initialisation, for segment 7 at handle 8,
designates segment 7, and the operations on segment 9 in the state reached keep
the designation. -/
theorem C28_global_table_assigned_once_witness :
    (ATOM_InitTable State.blank 7 37 8).2.ATOM_GlobalTable = 7 ∧
    (ATOM_InitTable State.fresh 9 37 8).2.ATOM_GlobalTable = 7 ∧
    (ATOM_GetTable State.fresh 9 true 8).2.ATOM_GlobalTable = 7 ∧
    (∀ r, ATOM_AddAtom State.fresh 9 (.str [97]) 8 16 = some r → r.2.ATOM_GlobalTable = 7) ∧
    (ATOM_GetAtomName State.fresh 9 0xc004 10).state.ATOM_GlobalTable = 7 :=
  have w0 := C28_global_table_assigned_once State.blank 7 37 8 true (.str [97]) 8 16 0xc004 10
  have w1 := C28_global_table_assigned_once State.fresh 9 37 8 true (.str [97]) 8 16 0xc004 10
  have hg : State.fresh.ATOM_GlobalTable ≠ 0 := by decide
  ⟨w0.1 rfl, (w1.2 hg).1, (w1.2 hg).2.1, (w1.2 hg).2.2.1, (w1.2 hg).2.2.2.2.2⟩

/-- Counterexample to claim C28 as stated: `ATOM_InitTable` for segment 5 fails
in the allocation and initialises no table, and `ATOM_InitTable` for segment 7
then initialises the first table; the designation is 5, a segment without a
table, and not 7, the segment of the first table initialised. -/
theorem C28_counterexample :
    (ATOM_InitTable State.blank 5 37 0).1 = 0 ∧
    (ATOM_InitTable (ATOM_InitTable State.blank 5 37 0).2 7 37 8).1 = 8 ∧
    State.failedThenInit.ATOM_GlobalTable = 5 ∧
    ¬ HasTable (State.failedThenInit.seg 5) ∧ HasTable (State.failedThenInit.seg 7) ∧
    State.failedThenInit.ATOM_GlobalTable ≠ 7 := by
  decide

/-! ## `ATOM_GetTable` -/

/-- Claim C29. When the segment has a registered table of non-zero size,
`ATOM_GetTable` returns it and leaves the state as it is, whatever `create`.
Otherwise, with `create = TRUE`, it initialises a table of 37 buckets, all 0, at
the handle `h ≠ 0` the arena returns, registers it as the table of the segment
and returns it, or returns `NULL` when the allocation fails (`h = 0`), the
segments left as they are; with `create = FALSE` it returns `NULL` and leaves the
state as it is. -/
theorem C29_get_table (st : State) (sel h : Nat) (create : Bool) :
    (HasTable (st.seg sel) →
      ATOM_GetTable st sel create h = (some (st.seg sel).atomtable, st)) ∧
    (¬ HasTable (st.seg sel) →
      (h ≠ 0 →
        ATOM_GetTable st sel true h
          = (some h, (ATOM_InitTable st sel DEFAULT_ATOMTABLE_SIZE h).2) ∧
        ((ATOM_GetTable st sel true h).2.seg sel).atomtable = h ∧
        ((ATOM_GetTable st sel true h).2.seg sel).table.size = 37 ∧
        (∀ b, b < 37 → ((ATOM_GetTable st sel true h).2.seg sel).table.entries b = 0)) ∧
      (ATOM_GetTable st sel true 0).1 = none ∧ (ATOM_GetTable st sel true 0).2.seg = st.seg ∧
      ATOM_GetTable st sel false h = (none, st)) := by
  refine ⟨ATOM_GetTable_of_hasTable st sel create h, fun ht => ⟨fun h0 => ?_, ?_, ?_, ?_⟩⟩
  · obtain ⟨e1, e2, e3, e4, _⟩ := ATOM_InitTable_succeeds st sel DEFAULT_ATOMTABLE_SIZE h h0
    have hg : ATOM_GetTable st sel true h
        = (some h, (ATOM_InitTable st sel DEFAULT_ATOMTABLE_SIZE h).2) := by
      unfold HasTable at ht
      unfold ATOM_GetTable
      simp only [ht, if_false, Bool.not_true, Bool.false_eq_true, e1, h0, e2]
    rw [hg]
    exact ⟨rfl, e2, e3, e4⟩
  · unfold HasTable at ht
    unfold ATOM_GetTable
    simp only [ht, if_false, Bool.not_true, Bool.false_eq_true,
      (ATOM_InitTable_fails st sel DEFAULT_ATOMTABLE_SIZE).1, if_true]
  · rw [ATOM_GetTable_create st sel 0 ht]
    exact (ATOM_InitTable_fails st sel DEFAULT_ATOMTABLE_SIZE).2
  · unfold HasTable at ht
    unfold ATOM_GetTable
    simp only [ht, if_false, Bool.not_false, if_true]

/-- Witness of claim C29: segment 7 of the fresh state has its table at handle
8; segment 9 has none and gets one at handle 12 with `create = TRUE`. -/
theorem C29_get_table_witness :
    ATOM_GetTable State.fresh 7 true 12 = (some 8, State.fresh) ∧
    ATOM_GetTable State.fresh 9 true 12
      = (some 12, (ATOM_InitTable State.fresh 9 DEFAULT_ATOMTABLE_SIZE 12).2) ∧
    ((ATOM_GetTable State.fresh 9 true 12).2.seg 9).table.size = 37 ∧
    (ATOM_GetTable State.fresh 9 true 0).1 = none ∧
    ATOM_GetTable State.fresh 9 false 12 = (none, State.fresh) :=
  have w7 := C29_get_table State.fresh 7 12 true
  have w9 := C29_get_table State.fresh 9 12 true
  have h7 : HasTable (State.fresh.seg 7) := by decide
  have h9 : ¬ HasTable (State.fresh.seg 9) := by decide
  ⟨w7.1 h7, ((w9.2 h9).1 (by decide)).1, ((w9.2 h9).1 (by decide)).2.2.1, (w9.2 h9).2.1,
    (w9.2 h9).2.2.2⟩

/-! ## The padding of a new entry -/

theorem strncpy_length (s : List Nat) (n : Nat) : (strncpy s n).length = n := by
  unfold strncpy
  simp only [List.length_append, List.length_take, List.length_replicate]
  omega

theorem link_arena_eq (seg : Segment) (s : List Nat) (h : Nat) :
    (seg.link s h).arena h = some (ae_len (atomLen s) % 65536) := by
  simp [Segment.link]

theorem byteAt_replicate (n c i : Nat) (h : i < n) : byteAt (List.replicate n c) i = c := by
  unfold byteAt
  rw [List.getD_eq_getElem _ _ (by simpa using h)]
  simp

theorem strncpy_of_le (s : List Nat) (n : Nat) (h : n ≤ s.length) : strncpy s n = s.take n := by
  unfold strncpy
  rw [Nat.sub_eq_zero_of_le h]
  simp

/-- The string area of the entry `ATOM_AddAtom` links for a string of at most 255
bytes: it reaches to the end of the block, holds the string, and every byte of
it from the index `length` on is NUL; there is at least one such byte. -/
theorem ATOM_AddAtom_padding (st : State) (sel : Nat) (s : List Nat) (hT hE : Nat)
    (hint : ATOM_IsIntAtom (.str s) = none) (ht : HasTable (st.seg sel))
    (hfind : findEntry (st.seg sel) s (atomLen s) CHAIN_FUEL
      ((st.seg sel).head ((st.seg sel).hashOf s)) = some 0)
    (hE0 : hE ≠ 0) (hl : s.length ≤ 255) :
    ∃ st1, ATOM_AddAtom st sel (.str s) hT hE = some (HANDLETOATOM hE, st1) ∧
      ((st1.seg sel).atoms hE).length = s.length ∧
      (st1.seg sel).arena hE = some (ae_len s.length) ∧
      ((st1.seg sel).atoms hE).str.length = ae_len s.length - 5 ∧
      s.length < ae_len s.length - 5 ∧
      (∀ i, i < s.length → byteAt ((st1.seg sel).atoms hE).str i = byteAt s i) ∧
      (∀ i, s.length ≤ i → i < ae_len s.length - 5 →
        byteAt ((st1.seg sel).atoms hE).str i = 0) := by
  have hlen : atomLen s = s.length := by unfold atomLen; simp; omega
  have hae := ae_len_ge s.length
  have hn : ae_len s.length - 6 + 1 = ae_len s.length - 5 := by omega
  have hsmall : ae_len s.length % 65536 = ae_len s.length := by unfold ae_len; omega
  refine ⟨_, ATOM_AddAtom_new st sel s hT hE hint ht hfind hE0, ?_, ?_, ?_, by omega, ?_, ?_⟩
  · rw [setSeg_seg_same, link_atoms_same, hlen]
  · rw [setSeg_seg_same, link_arena_eq, hlen, hsmall]
  · rw [setSeg_seg_same, link_atoms_same, hlen]
    simp only [strncpy_length]
    omega
  · intro i hi
    rw [setSeg_seg_same, link_atoms_same, hlen]
    simp only
    rw [byteAt_strncpy s _ i (by omega)]
  · intro i hi hi2
    rw [setSeg_seg_same, link_atoms_same, hlen]
    simp only
    rw [byteAt_strncpy s _ i (by omega), byteAt_of_le s i hi]

set_option maxRecDepth 1000000 in
/-- Claim C25, the code at a string of 300 bytes `A`. `ATOM_AddAtom` links a new
entry of length 255 in a block of 264 bytes; its string area, the 259 bytes from
`str` to the end of the block, holds the first 259 bytes of the string: the
bytes from index 255 on are `A`, none is NUL, and no terminator follows the 255
stored bytes. -/
theorem C25_long_string_unterminated :
    ∃ st1, ATOM_AddAtom State.fresh 7 (.str longString) 0 16 = some (0xc004, st1) ∧
      ((st1.seg 7).atoms 16).length = 255 ∧
      (st1.seg 7).arena 16 = some 264 ∧
      ((st1.seg 7).atoms 16).str = List.replicate 259 65 ∧
      ((st1.seg 7).atoms 16).str.length = 264 - 5 ∧
      (∀ i, 255 ≤ i → i < 259 → byteAt ((st1.seg 7).atoms 16).str i = 65) ∧
      ∀ b ∈ ((st1.seg 7).atoms 16).str, b ≠ 0 := by
  have hadd := ATOM_AddAtom_new State.fresh 7 longString 0 16 (by decide) fresh_empty.1
    (by rw [head_hashOf_of_emptyTable _ fresh_empty, CHAIN_FUEL_eq, findEntry_null])
    (by decide)
  have hstr : (((State.fresh.seg 7).link longString 16).atoms 16).str
      = List.replicate 259 65 := by
    rw [link_atoms_same]
    decide
  refine ⟨_, hadd, ?_, ?_, ?_, ?_, ?_, ?_⟩
  · rw [setSeg_seg_same, link_atoms_same]; decide
  · rw [setSeg_seg_same, link_arena_eq]; decide
  · rw [setSeg_seg_same, hstr]
  · rw [setSeg_seg_same, hstr]; decide
  · intro i h1 h2
    rw [setSeg_seg_same, hstr]
    exact byteAt_replicate 259 65 i h2
  · intro b hb
    rw [setSeg_seg_same, hstr] at hb
    rw [List.eq_of_mem_replicate hb]
    decide

/-! ## Lemmas: chains as lists -/

theorem isChain_ne_zero (seg : Segment) : ∀ (l : List Nat) (h : Nat), IsChain seg h l →
    ∀ e ∈ l, e ≠ 0 := by
  intro l
  induction l with
  | nil => intro h _ e he; simp at he
  | cons x l ih =>
    intro h hc e he
    obtain ⟨h0, hx, hr⟩ := hc
    rcases List.mem_cons.mp he with rfl | he'
    · rw [hx]; exact h0
    · exact ih _ hr e he'

theorem isChain_chainOf (seg : Segment) : ∀ (l : List Nat) (n h : Nat), IsChain seg h l →
    l.length < n → chainOf seg n h = some l := by
  intro l
  induction l with
  | nil =>
    intro n h hc hn
    obtain ⟨k, rfl⟩ : ∃ k, n = k + 1 := ⟨n - 1, by omega⟩
    have h0 : h = 0 := hc
    rw [h0, chainOf_null]
  | cons x l ih =>
    intro n h hc hn
    obtain ⟨k, rfl⟩ : ∃ k, n = k + 1 := ⟨n - 1, by omega⟩
    obtain ⟨h0, hx, hr⟩ := hc
    rw [chainOf_cons _ _ _ h0, ih k _ hr (by simpa using hn), hx]
    rfl

theorem isChain_congr (seg seg1 : Segment) : ∀ (l : List Nat) (h : Nat),
    (∀ e ∈ l, (seg1.atoms e).next = (seg.atoms e).next) → IsChain seg h l →
    IsChain seg1 h l := by
  intro l
  induction l with
  | nil => intro h _ hc; exact hc
  | cons x l ih =>
    intro h hn hc
    obtain ⟨h0, hx, hr⟩ := hc
    refine ⟨h0, hx, ?_⟩
    have e1 := hn x (List.mem_cons_self _ _)
    rw [hx] at e1
    rw [e1]
    exact ih _ (fun e he => hn e (List.mem_cons_of_mem _ he)) hr

/-- The walk for a string over a chain ends: with the first entry of the chain
that matches, with 0 if no entry of the chain matches. -/
theorem findEntry_isChain (seg : Segment) (u : List Nat) : ∀ (l : List Nat) (n h : Nat),
    IsChain seg h l → l.length < n →
    (∃ e, e ∈ l ∧ e ≠ 0 ∧ seg.isMatch u e ∧ findEntry seg u (atomLen u) n h = some e) ∨
    ((∀ x ∈ l, ¬ seg.isMatch u x) ∧ findEntry seg u (atomLen u) n h = some 0) := by
  intro l
  induction l with
  | nil =>
    intro n h hc hn
    obtain ⟨k, rfl⟩ : ∃ k, n = k + 1 := ⟨n - 1, by omega⟩
    have h0 : h = 0 := hc
    right
    refine ⟨fun x hx => by simp at hx, ?_⟩
    rw [h0, findEntry_null]
  | cons x l ih =>
    intro n h hc hn
    obtain ⟨k, rfl⟩ : ∃ k, n = k + 1 := ⟨n - 1, by omega⟩
    obtain ⟨h0, hx, hr⟩ := hc
    subst hx
    by_cases hm : seg.isMatch u x
    · exact Or.inl ⟨x, List.mem_cons_self _ _, h0, hm, findEntry_hit _ _ _ _ h0 hm⟩
    · rw [findEntry_miss _ _ _ _ h0 hm]
      rcases ih k _ hr (by simpa using hn) with ⟨e, he, he0, hme, hf⟩ | ⟨hall, hf⟩
      · exact Or.inl ⟨e, List.mem_cons_of_mem _ he, he0, hme, hf⟩
      · right
        refine ⟨?_, hf⟩
        intro y hy
        rcases List.mem_cons.mp hy with rfl | hy'
        · exact hm
        · exact hall y hy'

/-- The walk of `ATOM_DeleteAtom` for an entry of the chain ends at the place
that holds it. -/
theorem findPrev_isChain_mem (seg : Segment) (t entry : Nat) (l2 : List Nat) :
    ∀ (l1 : List Nat) (n : Nat) (p : Slot),
    IsChain seg (readSlot seg t p) (l1 ++ entry :: l2) → entry ∉ l1 → l1.length < n →
    findPrev seg t entry n p = some (prevSlot p l1) ∧
    readSlot seg t (prevSlot p l1) = entry := by
  intro l1
  induction l1 with
  | nil =>
    intro n p hc _ hn
    obtain ⟨k, rfl⟩ : ∃ k, n = k + 1 := ⟨n - 1, by omega⟩
    obtain ⟨_, hx, _⟩ := hc
    refine ⟨?_, hx.symm⟩
    simp [findPrev, prevSlot, ← hx]
  | cons x l1 ih =>
    intro n p hc hnm hn
    obtain ⟨k, rfl⟩ : ∃ k, n = k + 1 := ⟨n - 1, by omega⟩
    obtain ⟨h0, hx, hr⟩ := hc
    have hne : readSlot seg t p ≠ entry := by
      rw [← hx]
      intro h
      exact hnm (h ▸ List.mem_cons_self _ _)
    have hr2 : IsChain seg (readSlot seg t (.next x)) (l1 ++ entry :: l2) := by
      rw [hx]; exact hr
    obtain ⟨e1, e2⟩ := ih k (.next x) hr2 (fun h => hnm (List.mem_cons_of_mem _ h))
      (by simpa using hn)
    refine ⟨?_, e2⟩
    simp only [findPrev, ne_eq, h0, not_false_eq_true, hne, and_self, if_true, prevSlot]
    rw [← hx]
    exact e1

/-- The walk of `ATOM_DeleteAtom` for a handle that is not in the chain ends at
the end of the chain. -/
theorem findPrev_isChain_not_mem (seg : Segment) (t entry n : Nat) (p : Slot) (l : List Nat)
    (hc : IsChain seg (readSlot seg t p) l) (hnm : entry ∉ l) (hn : l.length < n) :
    ∃ q, findPrev seg t entry n p = some q ∧ readSlot seg t q = 0 := by
  obtain ⟨q, hq, hr⟩ := findPrev_chain seg t entry n p l (isChain_chainOf seg l n _ hc hn)
  rw [if_neg hnm] at hr
  exact ⟨q, hq, hr⟩

theorem isChain_append (seg : Segment) : ∀ (l1 : List Nat) (h : Nat) (e : Nat) (l2 : List Nat),
    IsChain seg h (l1 ++ e :: l2) → IsChain seg (seg.atoms e).next l2 := by
  intro l1
  induction l1 with
  | nil =>
    intro h e l2 hc
    obtain ⟨_, hx, hr⟩ := hc
    rw [hx]; exact hr
  | cons x l1 ih =>
    intro h e l2 hc
    obtain ⟨_, _, hr⟩ := hc
    exact ih _ e l2 hr

/-- A chain without its entry `e`, in a segment in which the place that held
`e` holds the `next` of `e` and the other entries of the chain are as before. -/
theorem isChain_unlink (seg seg1 : Segment) (e : Nat) (l2 : List Nat) :
    ∀ (l1 : List Nat) (h h1 : Nat), IsChain seg h (l1 ++ e :: l2) →
    (l1 = [] → h1 = (seg.atoms e).next) → (l1 ≠ [] → h1 = h) →
    (∀ x ∈ l1, (seg1.atoms x).next
      = if l1.getLast? = some x then (seg.atoms e).next else (seg.atoms x).next) →
    (l1 ++ e :: l2).Nodup →
    (∀ x ∈ l2, (seg1.atoms x).next = (seg.atoms x).next) →
    IsChain seg1 h1 (l1 ++ l2) := by
  intro l1
  induction l1 with
  | nil =>
    intro h h1 hc e1 _ _ _ hl2
    rw [e1 rfl]
    exact isChain_congr seg seg1 l2 _ hl2 (isChain_append seg [] h e l2 hc)
  | cons x l1 ih =>
    intro h h1 hc _ e2 hl1 hnd hl2
    obtain ⟨h0, hx, hr⟩ := hc
    rw [e2 (by simp)]
    refine ⟨h0, hx, ?_⟩
    subst hx
    have hnd2 : (l1 ++ e :: l2).Nodup := (List.nodup_cons.mp hnd).2
    have hxn : x ∉ l1 ++ e :: l2 := (List.nodup_cons.mp hnd).1
    have hx1 := hl1 x (List.mem_cons_self _ _)
    cases l1 with
    | nil =>
      simp only [List.getLast?_singleton, if_true] at hx1
      rw [hx1]
      exact ih _ _ hr (fun _ => rfl) (fun h => absurd rfl h) (fun y hy => by simp at hy) hnd2 hl2
    | cons y l1 =>
      have hlast : (x :: y :: l1).getLast? ≠ some x := by
        rw [List.getLast?_cons_cons]
        intro hl
        have := List.mem_of_getLast?_eq_some hl
        exact hxn (List.mem_append_left _ this)
      rw [if_neg hlast] at hx1
      rw [hx1]
      refine ih _ _ hr (fun h => by simp at h) (fun _ => rfl) ?_ hnd2 hl2
      intro z hz
      rw [hl1 z (List.mem_cons_of_mem _ hz), List.getLast?_cons_cons]

/-! ## Lemmas: the chains of a table -/

theorem sameName_refl (seg : Segment) (e : Nat) : seg.sameName e e := ⟨rfl, rfl⟩

theorem ciUpTo_of_stored {a b : ATOMENTRY} (hl : a.length = b.length)
    (h : ciEq a.stored b.stored) : ciUpTo a.length a.str b.str := by
  intro i hi
  have h1 := toupper_byteAt_map a.stored i
  have h2 := toupper_byteAt_map b.stored i
  unfold ciEq at h
  rw [h, h2] at h1
  unfold ATOMENTRY.stored at h1
  rw [byteAt_memcpy _ _ _ (by omega), byteAt_memcpy _ _ _ hi] at h1
  exact h1.symm

theorem bucketOf_sameName (seg : Segment) (e1 e2 : Nat) (h : seg.sameName e1 e2) :
    seg.bucketOf e1 = seg.bucketOf e2 := by
  unfold Segment.bucketOf
  rw [ATOM_Hash_congr _ _ _ _ (ciUpTo_of_stored h.1 h.2), h.1]

theorem handles_length_le (l : List Nat) (hnd : l.Nodup) (hh : ∀ e ∈ l, IsHandle e) :
    l.length ≤ 16384 := by
  have hinj : ∀ x ∈ l, ∀ y ∈ l, x / 4 = y / 4 → x = y := by
    intro x hx y hy hxy
    have h1 := (hh x hx).1
    have h2 := (hh y hy).1
    omega
  have hnd2 : (l.map (fun e => e / 4)).Nodup := List.Nodup.map_on hinj hnd
  have hsub : (l.map (fun e => e / 4)).toFinset ⊆ Finset.range 16384 := by
    intro x hx
    rw [List.mem_toFinset, List.mem_map] at hx
    obtain ⟨e, he, rfl⟩ := hx
    have := (hh e he).2
    rw [Finset.mem_range]
    omega
  have hc := Finset.card_le_card hsub
  rw [List.toFinset_card_of_nodup hnd2, Finset.card_range, List.length_map] at hc
  exact hc

theorem tableInv_nodup {seg : Segment} {ch : Nat → List Nat} (hinv : TableInv seg ch)
    (b : Nat) (hb : b < seg.table.size) : (ch b).Nodup := by
  have h := hinv.2.2.2 b hb
  unfold List.Nodup
  refine List.Pairwise.imp ?_ h
  intro e1 e2 hn he
  exact hn (he ▸ sameName_refl seg e1)

theorem tableInv_length {seg : Segment} {ch : Nat → List Nat} (hinv : TableInv seg ch)
    (b : Nat) (hb : b < seg.table.size) : (ch b).length ≤ 16384 :=
  handles_length_le (ch b) (tableInv_nodup hinv b hb) (fun e he => (hinv.2.2.1 b hb e he).1)

theorem tableInv_chainOf {seg : Segment} {ch : Nat → List Nat} (hinv : TableInv seg ch)
    (b : Nat) (hb : b < seg.table.size) :
    chainOf seg CHAIN_FUEL (seg.head b) = some (ch b) :=
  isChain_chainOf seg (ch b) CHAIN_FUEL _ (hinv.2.1 b hb)
    (by have := tableInv_length hinv b hb; unfold CHAIN_FUEL; omega)

theorem chainsOf_of_tableInv {seg : Segment} {ch : Nat → List Nat} (hinv : TableInv seg ch) :
    ∀ bs : List Nat, (∀ b ∈ bs, b < seg.table.size) → bs.Nodup →
    ∃ L, chainsOf seg bs = some L ∧ (∀ e, e ∈ L ↔ ∃ b, b ∈ bs ∧ e ∈ ch b) ∧
      L.Pairwise (fun e1 e2 => ¬ seg.sameName e1 e2) := by
  intro bs
  induction bs with
  | nil =>
    intro _ _
    exact ⟨[], rfl, fun e => by simp, List.Pairwise.nil⟩
  | cons c bs ih =>
    intro hlt hnd
    have hc := hlt c (List.mem_cons_self _ _)
    obtain ⟨L, hL, hmem, hpw⟩ := ih (fun b hb => hlt b (List.mem_cons_of_mem _ hb))
      (List.nodup_cons.mp hnd).2
    refine ⟨ch c ++ L, ?_, ?_, ?_⟩
    · simp only [chainsOf, tableInv_chainOf hinv c hc, hL]
    · intro e
      rw [List.mem_append, hmem]
      constructor
      · rintro (h | ⟨b, hb, he⟩)
        · exact ⟨c, List.mem_cons_self _ _, h⟩
        · exact ⟨b, List.mem_cons_of_mem _ hb, he⟩
      · rintro ⟨b, hb, he⟩
        rcases List.mem_cons.mp hb with rfl | hb'
        · exact Or.inl he
        · exact Or.inr ⟨b, hb', he⟩
    · rw [List.pairwise_append]
      refine ⟨hinv.2.2.2 c hc, hpw, ?_⟩
      intro x hx y hy hsame
      obtain ⟨b, hb, hyb⟩ := (hmem y).mp hy
      have e1 := (hinv.2.2.1 c hc x hx).2.2
      have e2 := (hinv.2.2.1 b (hlt b (List.mem_cons_of_mem _ hb)) y hyb).2.2
      have := bucketOf_sameName seg x y hsame
      rw [e1, e2] at this
      exact (List.nodup_cons.mp hnd).1 (this ▸ hb)

/-- The entries of a table with the chains `ch`: the walks over its chains end,
its entries are those of the chains, and no two of them have the same name. -/
theorem tableEntries_of_tableInv {seg : Segment} {ch : Nat → List Nat}
    (hinv : TableInv seg ch) :
    ∃ L, tableEntries seg = some L ∧
      (∀ e, e ∈ L ↔ ∃ b, b < seg.table.size ∧ e ∈ ch b) ∧
      L.Pairwise (fun e1 e2 => ¬ seg.sameName e1 e2) := by
  obtain ⟨L, hL, hmem, hpw⟩ := chainsOf_of_tableInv hinv (List.range seg.table.size)
    (fun b hb => List.mem_range.mp hb) (List.nodup_range _)
  refine ⟨L, hL, ?_, hpw⟩
  intro e
  rw [hmem]
  simp only [List.mem_range]

theorem dedup_of_tableInv {seg : Segment} {ch : Nat → List Nat} (hinv : TableInv seg ch) :
    Dedup seg := by
  obtain ⟨L, hL, _, hpw⟩ := tableEntries_of_tableInv hinv
  exact ⟨L, hL, hpw⟩

theorem tableInv_of_empty (seg : Segment) (he : EmptyTable seg) :
    TableInv seg (fun _ => []) :=
  ⟨he.1, fun b hb => he.2 b hb, fun _ _ e h => by simp at h, fun _ _ => List.Pairwise.nil⟩

theorem tableInv_disjoint {seg : Segment} {ch : Nat → List Nat} (hinv : TableInv seg ch)
    (b c e : Nat) (hb : b < seg.table.size) (hc : c < seg.table.size)
    (h1 : e ∈ ch b) (h2 : e ∈ ch c) : b = c := by
  rw [← (hinv.2.2.1 b hb e h1).2.2, ← (hinv.2.2.1 c hc e h2).2.2]

/-! ## Lemmas: the chains after a call -/

theorem stored_congr {a b : ATOMENTRY} (hs : a.str = b.str) (hl : a.length = b.length) :
    a.stored = b.stored := by
  unfold ATOMENTRY.stored
  rw [hs, hl]

theorem sameName_congr (seg seg1 : Segment) (e1 e2 : Nat)
    (s1 : (seg1.atoms e1).str = (seg.atoms e1).str)
    (l1 : (seg1.atoms e1).length = (seg.atoms e1).length)
    (s2 : (seg1.atoms e2).str = (seg.atoms e2).str)
    (l2 : (seg1.atoms e2).length = (seg.atoms e2).length) :
    seg1.sameName e1 e2 ↔ seg.sameName e1 e2 := by
  unfold Segment.sameName
  rw [stored_congr s1 l1, stored_congr s2 l2, l1, l2]

theorem bucketOf_congr (seg seg1 : Segment) (e : Nat)
    (hsz : seg1.table.size = seg.table.size)
    (s1 : (seg1.atoms e).str = (seg.atoms e).str)
    (l1 : (seg1.atoms e).length = (seg.atoms e).length) :
    seg1.bucketOf e = seg.bucketOf e := by
  unfold Segment.bucketOf
  rw [hsz, s1, l1]

/-- The chains of a table after a change of the segment that leaves the chains
of the buckets other than `b0` and their entries as they are, and makes `l0`
the chain of `b0`. -/
theorem tableInv_update (seg seg1 : Segment) (ch : Nat → List Nat) (b0 : Nat) (l0 : List Nat)
    (hinv : TableInv seg ch) (ht1 : HasTable seg1)
    (hsz : seg1.table.size = seg.table.size)
    (hhead : ∀ b, b < seg.table.size → b ≠ b0 → seg1.head b = seg.head b)
    (hat : ∀ b, b < seg.table.size → b ≠ b0 → ∀ e ∈ ch b,
      (seg1.atoms e).next = (seg.atoms e).next ∧ (seg1.atoms e).str = (seg.atoms e).str ∧
      (seg1.atoms e).length = (seg.atoms e).length ∧ seg1.arena e ≠ none)
    (hc0 : IsChain seg1 (seg1.head b0) l0)
    (h3 : ∀ e ∈ l0, IsHandle e ∧ seg1.arena e ≠ none ∧ seg1.bucketOf e = b0)
    (h4 : l0.Pairwise (fun e1 e2 => ¬ seg1.sameName e1 e2)) :
    TableInv seg1 (Function.update ch b0 l0) := by
  obtain ⟨_, i2, i3, i4⟩ := hinv
  refine ⟨ht1, ?_, ?_, ?_⟩
  · intro b hb
    rw [hsz] at hb
    by_cases hbe : b = b0
    · subst hbe; rw [Function.update_same]; exact hc0
    · rw [Function.update_noteq hbe, hhead b hb hbe]
      exact isChain_congr seg seg1 _ _ (fun e he => (hat b hb hbe e he).1) (i2 b hb)
  · intro b hb e he
    rw [hsz] at hb
    by_cases hbe : b = b0
    · subst hbe; rw [Function.update_same] at he; exact h3 e he
    · rw [Function.update_noteq hbe] at he
      obtain ⟨_, a2, a3, a4⟩ := hat b hb hbe e he
      obtain ⟨j1, _, j3⟩ := i3 b hb e he
      exact ⟨j1, a4, by rw [bucketOf_congr seg seg1 e hsz a2 a3]; exact j3⟩
  · intro b hb
    rw [hsz] at hb
    by_cases hbe : b = b0
    · subst hbe; rw [Function.update_same]; exact h4
    · rw [Function.update_noteq hbe]
      refine List.Pairwise.imp_of_mem ?_ (i4 b hb)
      intro e1 e2 m1 m2 hn hs
      obtain ⟨_, a2, a3, _⟩ := hat b hb hbe e1 m1
      obtain ⟨_, c2, c3, _⟩ := hat b hb hbe e2 m2
      exact hn ((sameName_congr seg seg1 e1 e2 a2 a3 c2 c3).mp hs)

/-- The chains of a table after a change of the segment that leaves the chains
and their entries as they are. -/
theorem tableInv_frame (seg seg1 : Segment) (ch : Nat → List Nat)
    (hinv : TableInv seg ch) (ht1 : HasTable seg1)
    (hsz : seg1.table.size = seg.table.size)
    (hhead : ∀ b, b < seg.table.size → seg1.head b = seg.head b)
    (hat : ∀ b, b < seg.table.size → ∀ e ∈ ch b,
      (seg1.atoms e).next = (seg.atoms e).next ∧ (seg1.atoms e).str = (seg.atoms e).str ∧
      (seg1.atoms e).length = (seg.atoms e).length ∧ seg1.arena e ≠ none) :
    TableInv seg1 ch := by
  obtain ⟨_, i2, i3, i4⟩ := hinv
  refine ⟨ht1, ?_, ?_, ?_⟩
  · intro b hb
    rw [hsz] at hb
    rw [hhead b hb]
    exact isChain_congr seg seg1 _ _ (fun e he => (hat b hb e he).1) (i2 b hb)
  · intro b hb e he
    rw [hsz] at hb
    obtain ⟨_, a2, a3, a4⟩ := hat b hb e he
    obtain ⟨j1, _, j3⟩ := i3 b hb e he
    exact ⟨j1, a4, by rw [bucketOf_congr seg seg1 e hsz a2 a3]; exact j3⟩
  · intro b hb
    rw [hsz] at hb
    refine List.Pairwise.imp_of_mem ?_ (i4 b hb)
    intro e1 e2 m1 m2 hn hs
    obtain ⟨_, a2, a3, _⟩ := hat b hb e1 m1
    obtain ⟨_, c2, c3, _⟩ := hat b hb e2 m2
    exact hn ((sameName_congr seg seg1 e1 e2 a2 a3 c2 c3).mp hs)

theorem setRef_atoms (seg : Segment) (h c e : Nat) :
    ((seg.setRef h c).atoms e).next = (seg.atoms e).next ∧
    ((seg.setRef h c).atoms e).str = (seg.atoms e).str ∧
    ((seg.setRef h c).atoms e).length = (seg.atoms e).length := by
  unfold Segment.setRef
  by_cases he : e = h
  · subst he; simp
  · simp [Function.update_noteq he]

theorem setRef_refCount_ne (seg : Segment) (h c e : Nat) (he : e ≠ h) :
    ((seg.setRef h c).atoms e).refCount = (seg.atoms e).refCount := by
  unfold Segment.setRef
  simp [Function.update_noteq he]

theorem tableInv_setRef (seg : Segment) (ch : Nat → List Nat) (h c : Nat)
    (hinv : TableInv seg ch) : TableInv (seg.setRef h c) ch := by
  refine tableInv_frame seg _ ch hinv (setRef_hasTable seg h c hinv.1) rfl (fun _ _ => rfl) ?_
  intro b hb e he
  obtain ⟨a1, a2, a3⟩ := setRef_atoms seg h c e
  exact ⟨a1, a2, a3, (hinv.2.2.1 b hb e he).2.1⟩

/-- An entry with the name of the new entry for `s` matches `s` in the walk. -/
theorem isMatch_of_sameName_link (seg : Segment) (s : List Nat) (h x : Nat) (hx : x ≠ h)
    (hs : (seg.link s h).sameName h x) : seg.isMatch s x := by
  obtain ⟨hl, hci⟩ := hs
  have hax := link_atoms_ne seg s h x hx
  rw [hax] at hl hci
  have hlen : ((seg.link s h).atoms h).length = atomLen s := by rw [link_atoms_same]
  have hup := ciUpTo_of_stored hl.symm (show ciEq _ _ from hci.symm)
  refine ⟨by rw [← hl, hlen], ?_⟩
  apply lstrncmpiA_eq_zero_of_ciUpTo
  intro i hi
  have := hup i (by rw [← hl, hlen]; exact hi)
  rw [this, link_atoms_same]
  simp only
  rw [byteAt_strncpy s _ i (by have := ae_len_ge (atomLen s); omega)]

theorem bucketOf_link_self (seg : Segment) (s : List Nat) (h : Nat) :
    (seg.link s h).bucketOf h = seg.hashOf s := by
  unfold Segment.bucketOf
  rw [link_atoms_same, link_table_size]
  simp only
  rw [hash_strncpy]
  rfl

/-- The chains of a table after `ATOM_AddAtom` has linked a new entry. -/
theorem tableInv_link (seg : Segment) (ch : Nat → List Nat) (s : List Nat) (h : Nat)
    (hinv : TableInv seg ch) (hf : FreshHandle seg h)
    (hno : ∀ x ∈ ch (seg.hashOf s), ¬ seg.isMatch s x) :
    TableInv (seg.link s h)
      (Function.update ch (seg.hashOf s) (h :: ch (seg.hashOf s))) := by
  have hb0 := hashOf_lt seg s hinv.1
  have hnotin : ∀ b, b < seg.table.size → ∀ e ∈ ch b, e ≠ h := by
    intro b hb e he heq
    exact (hinv.2.2.1 b hb e he).2.1 (heq ▸ hf.2.2)
  have hat : ∀ b, b < seg.table.size → ∀ e ∈ ch b,
      ((seg.link s h).atoms e).next = (seg.atoms e).next ∧
      ((seg.link s h).atoms e).str = (seg.atoms e).str ∧
      ((seg.link s h).atoms e).length = (seg.atoms e).length ∧
      (seg.link s h).arena e ≠ none := by
    intro b hb e he
    rw [link_atoms_ne seg s h e (hnotin b hb e he)]
    exact ⟨rfl, rfl, rfl, link_arena seg s h e (hinv.2.2.1 b hb e he).2.1⟩
  refine tableInv_update seg _ ch _ _ hinv (link_hasTable seg s h hinv.1)
    (link_table_size seg s h) ?_ (fun b hb _ => hat b hb) ?_ ?_ ?_
  · intro b _ hbe
    rw [link_head, if_neg hbe]
  · have hh : (seg.link s h).head (seg.hashOf s) = h := by rw [link_head, if_pos rfl]
    rw [hh]
    refine ⟨hf.1, rfl, ?_⟩
    · rw [link_atoms_same]
      exact isChain_congr seg _ _ _ (fun e he => (hat _ hb0 e he).1) (hinv.2.1 _ hb0)
  · intro e he
    rcases List.mem_cons.mp he with rfl | he'
    · exact ⟨hf.2.1, link_arena_same seg s e, bucketOf_link_self seg s e⟩
    · obtain ⟨_, a2, a3, a4⟩ := hat _ hb0 e he'
      obtain ⟨j1, _, j3⟩ := hinv.2.2.1 _ hb0 e he'
      exact ⟨j1, a4, by
        rw [bucketOf_congr seg _ e (link_table_size seg s h) a2 a3]; exact j3⟩
  · rw [List.pairwise_cons]
    refine ⟨?_, ?_⟩
    · intro x hx hs
      exact hno x hx (isMatch_of_sameName_link seg s h x (hnotin _ hb0 x hx) hs)
    · refine List.Pairwise.imp_of_mem ?_ (hinv.2.2.2 _ hb0)
      intro e1 e2 m1 m2 hn hs
      obtain ⟨_, a2, a3, _⟩ := hat _ hb0 e1 m1
      obtain ⟨_, c2, c3, _⟩ := hat _ hb0 e2 m2
      exact hn ((sameName_congr seg _ e1 e2 a2 a3 c2 c3).mp hs)

/-! ## Lemmas: the chains after an entry is unlinked -/

theorem prevSlot_cases (p : Slot) : ∀ l : List Nat,
    (l = [] ∧ prevSlot p l = p) ∨ (∃ x, l.getLast? = some x ∧ prevSlot p l = .next x) := by
  intro l
  induction l generalizing p with
  | nil => exact Or.inl ⟨rfl, rfl⟩
  | cons x l ih =>
    right
    rcases ih (.next x) with ⟨rfl, h⟩ | ⟨y, h1, h2⟩
    · exact ⟨x, rfl, h⟩
    · refine ⟨y, ?_, h2⟩
      cases l with
      | nil => simp at h1
      | cons z l => rw [List.getLast?_cons_cons]; exact h1

/-- The segment after `ATOM_DeleteAtom` has unlinked and freed the entry `e`,
found after the entries `l1` of the chain of bucket `b`. -/
theorem unlink_facts (seg : Segment) (e b : Nat) (l1 : List Nat) (ht : HasTable seg)
    (seg1 : Segment)
    (h1 : seg1 = LOCAL_Free (writeSlot (seg.setRef e 0) seg.atomtable (seg.atoms e).next
      (prevSlot (.bucket b) l1)) e) :
    HasTable seg1 ∧ seg1.table.size = seg.table.size ∧
    (∀ c, c ≠ b → seg1.head c = seg.head c) ∧
    (seg1.head b = if l1 = [] then (seg.atoms e).next else seg.head b) ∧
    (∀ x, (seg1.atoms x).str = (seg.atoms x).str ∧
      (seg1.atoms x).length = (seg.atoms x).length ∧
      (x ≠ e → (seg1.atoms x).refCount = (seg.atoms x).refCount) ∧
      (seg1.atoms x).next
        = if l1.getLast? = some x then (seg.atoms e).next else (seg.atoms x).next) ∧
    (∀ x, x ≠ e → seg1.arena x = seg.arena x) ∧ seg1.arena e = none := by
  obtain ⟨t0, t1⟩ := ht
  rcases prevSlot_cases (.bucket b) l1 with ⟨rfl, hp⟩ | ⟨p, hl, hp⟩
  · rw [hp] at h1
    subst h1
    refine ⟨⟨t0, ?_⟩, ?_, ?_, ?_, ?_, ?_, ?_⟩
    · simpa [LOCAL_Free, writeSlot, Segment.setRef] using t1
    · simp [LOCAL_Free, writeSlot, Segment.setRef, Segment.table]
    · intro c hc
      simp [LOCAL_Free, writeSlot, Segment.setRef, Segment.table, Segment.head,
        Function.update_noteq hc]
    · simp [LOCAL_Free, writeSlot, Segment.setRef, Segment.table, Segment.head]
    · intro x
      obtain ⟨a1, a2, a3⟩ := setRef_atoms seg e 0 x
      refine ⟨a2, a3, fun hx => setRef_refCount_ne seg e 0 x hx, ?_⟩
      simpa using a1
    · intro x hx
      simp [LOCAL_Free, writeSlot, Segment.setRef, Function.update_noteq hx]
    · simp [LOCAL_Free]
  · rw [hp] at h1
    subst h1
    have hne : l1 ≠ [] := by rintro rfl; simp at hl
    refine ⟨⟨t0, t1⟩, rfl, fun _ _ => rfl, ?_, ?_, ?_, ?_⟩
    · rw [if_neg hne]; rfl
    · intro x
      obtain ⟨a1, a2, a3⟩ := setRef_atoms seg e 0 x
      obtain ⟨c1, c2, c3⟩ := setRef_atoms seg e 0 p
      by_cases hx : x = p
      · subst hx
        refine ⟨?_, ?_, ?_, ?_⟩
        · simpa [LOCAL_Free, writeSlot] using a2
        · simpa [LOCAL_Free, writeSlot] using a3
        · intro hxe
          simpa [LOCAL_Free, writeSlot] using setRef_refCount_ne seg e 0 x hxe
        · simp [LOCAL_Free, writeSlot, hl]
      · have hl2 : ¬ (l1.getLast? = some x) := by
          rw [hl]; intro h; exact hx (Option.some.inj h).symm
        rw [if_neg hl2]
        refine ⟨?_, ?_, ?_, ?_⟩
        · simpa [LOCAL_Free, writeSlot, Function.update_noteq hx] using a2
        · simpa [LOCAL_Free, writeSlot, Function.update_noteq hx] using a3
        · intro hxe
          simpa [LOCAL_Free, writeSlot, Function.update_noteq hx]
            using setRef_refCount_ne seg e 0 x hxe
        · simpa [LOCAL_Free, writeSlot, Function.update_noteq hx] using a1
    · intro x hx
      simp [LOCAL_Free, writeSlot, Segment.setRef, Function.update_noteq hx]
    · simp [LOCAL_Free]

/-- The chains of a table after `ATOM_DeleteAtom` has unlinked and freed the entry
`e` of the chain of bucket `b`. -/
theorem tableInv_unlink (seg : Segment) (ch : Nat → List Nat) (e b : Nat) (l1 l2 : List Nat)
    (hinv : TableInv seg ch) (hb : b < seg.table.size) (hch : ch b = l1 ++ e :: l2)
    (seg1 : Segment)
    (h1 : seg1 = LOCAL_Free (writeSlot (seg.setRef e 0) seg.atomtable (seg.atoms e).next
      (prevSlot (.bucket b) l1)) e) :
    TableInv seg1 (Function.update ch b (l1 ++ l2)) := by
  obtain ⟨f1, f2, f3, f4, f5, f6, _⟩ := unlink_facts seg e b l1 hinv.1 seg1 h1
  have hnd : (l1 ++ e :: l2).Nodup := hch ▸ tableInv_nodup hinv b hb
  have hchain : IsChain seg (seg.head b) (l1 ++ e :: l2) := hch ▸ hinv.2.1 b hb
  have hmem_e : e ∈ ch b := by rw [hch]; simp
  have hsub : ∀ x, x ∈ l1 ++ l2 → x ∈ ch b ∧ x ≠ e := by
    intro x hx
    have hnd2 := List.nodup_middle.mp hnd
    refine ⟨?_, ?_⟩
    · rw [hch]
      rcases List.mem_append.mp hx with h | h
      · exact List.mem_append_left _ h
      · exact List.mem_append_right _ (List.mem_cons_of_mem _ h)
    · rintro rfl
      exact (List.nodup_cons.mp hnd2).1 hx
  have hlast_in : ∀ x, l1.getLast? = some x → x ∈ l1 := fun x hx =>
    List.mem_of_getLast?_eq_some hx
  refine tableInv_update seg seg1 ch b (l1 ++ l2) hinv f1 f2 (fun c _ hc => f3 c hc) ?_ ?_ ?_ ?_
  · intro c hc hcb x hx
    obtain ⟨a1, a2, _, a4⟩ := f5 x
    have hxe : x ≠ e := by
      rintro rfl
      exact hcb (tableInv_disjoint hinv c b x hc hb hx hmem_e)
    have hxl : ¬ (l1.getLast? = some x) := by
      intro hl
      have : x ∈ ch b := by rw [hch]; exact List.mem_append_left _ (hlast_in x hl)
      exact hcb (tableInv_disjoint hinv c b x hc hb hx this)
    rw [if_neg hxl] at a4
    exact ⟨a4, a1, a2, by rw [f6 x hxe]; exact (hinv.2.2.1 c hc x hx).2.1⟩
  · refine isChain_unlink seg seg1 e l2 l1 (seg.head b) (seg1.head b) hchain ?_ ?_ ?_ hnd ?_
    · intro hl; rw [f4, if_pos hl]
    · intro hl; rw [f4, if_neg hl]
    · intro x _; exact (f5 x).2.2.2
    · intro x hx
      have hxl : ¬ (l1.getLast? = some x) := by
        intro hl
        have h1 := hlast_in x hl
        have := List.nodup_append.mp hnd
        exact this.2.2 h1 (List.mem_cons_of_mem _ hx)
      rw [(f5 x).2.2.2, if_neg hxl]
  · intro x hx
    obtain ⟨hxb, hxe⟩ := hsub x hx
    obtain ⟨j1, j2, j3⟩ := hinv.2.2.1 b hb x hxb
    obtain ⟨a1, a2, _, _⟩ := f5 x
    exact ⟨j1, by rw [f6 x hxe]; exact j2, by
      rw [bucketOf_congr seg seg1 x f2 a1 a2]; exact j3⟩
  · have hp : (l1 ++ e :: l2).Pairwise (fun e1 e2 => ¬ seg.sameName e1 e2) :=
      hch ▸ hinv.2.2.2 b hb
    have hp2 : (l1 ++ l2).Pairwise (fun e1 e2 => ¬ seg.sameName e1 e2) :=
      hp.sublist (List.Sublist.append (List.Sublist.refl l1) (List.sublist_cons_self e l2))
    refine List.Pairwise.imp_of_mem ?_ hp2
    intro e1 e2 _ _ hn hs
    exact hn ((sameName_congr seg seg1 e1 e2 (f5 e1).1 (f5 e1).2.1 (f5 e2).1 (f5 e2).2.1).mp hs)

/-! ## One call on a table with its chains -/

/-- A call of `ATOM_AddAtom` on a table with the chains `ch` returns, and leaves a
table with chains `ch1`: those of `ch`, with the new entry if one is linked.
The reference count of an entry of `ch1` is as before, or one more (as a
`WORD`), or 1. -/
theorem add_step (st : State) (sel : Nat) (ch : Nat → List Nat) (s : List Nat) (hT hE : Nat)
    (hinv : TableInv (st.seg sel) ch) (hok : hE = 0 ∨ FreshHandle (st.seg sel) hE) :
    ∃ r ch1, ATOM_AddAtom st sel (.str s) hT hE = some r ∧ TableInv (r.2.seg sel) ch1 ∧
      (r.2.seg sel).table.size = (st.seg sel).table.size ∧
      ∀ b e, b < (st.seg sel).table.size → e ∈ ch1 b →
        (e ∈ ch b ∧ ((r.2.seg sel).atoms e).refCount = ((st.seg sel).atoms e).refCount) ∨
        (e ∈ ch b ∧ ((r.2.seg sel).atoms e).refCount
          = (((st.seg sel).atoms e).refCount + 1) % 65536) ∨
        ((r.2.seg sel).atoms e).refCount = 1 := by
  cases hint : ATOM_IsIntAtom (.str s) with
  | some v =>
    exact ⟨(v, st), ch, ATOM_AddAtom_int st sel _ hT hE v hint, hinv, rfl,
      fun b e _ he => Or.inl ⟨he, rfl⟩⟩
  | none =>
    have hb0 := hashOf_lt (st.seg sel) s hinv.1
    have hlen : (ch ((st.seg sel).hashOf s)).length < CHAIN_FUEL := by
      have := tableInv_length hinv _ hb0
      unfold CHAIN_FUEL; omega
    rcases findEntry_isChain (st.seg sel) s _ CHAIN_FUEL _ (hinv.2.1 _ hb0) hlen with
      ⟨e, _, he0, _, hf⟩ | ⟨hall, hf⟩
    · refine ⟨_, ch, ATOM_AddAtom_existing st sel s hT hE e hint hinv.1 hf he0, ?_, ?_, ?_⟩
      · simp only [setSeg_seg_same]
        exact tableInv_setRef _ ch e _ hinv
      · simp only [setSeg_seg_same]; rfl
      · intro b x _ hx
        simp only [setSeg_seg_same]
        by_cases hxe : x = e
        · subst hxe
          exact Or.inr (Or.inl ⟨hx, setRef_refCount _ _ _⟩)
        · exact Or.inl ⟨hx, setRef_refCount_ne _ _ _ _ hxe⟩
    · rcases hok with rfl | hfresh
      · exact ⟨_, ch, ATOM_AddAtom_alloc_fails st sel s hT hint hinv.1 hf, hinv, rfl,
          fun b e _ he => Or.inl ⟨he, rfl⟩⟩
      · refine ⟨_, Function.update ch ((st.seg sel).hashOf s) (hE :: ch ((st.seg sel).hashOf s)),
          ATOM_AddAtom_new st sel s hT hE hint hinv.1 hf hfresh.1, ?_, ?_, ?_⟩
        · simp only [setSeg_seg_same]
          exact tableInv_link _ ch s hE hinv hfresh hall
        · simp only [setSeg_seg_same]
          exact link_table_size _ _ _
        · intro b x _ hx
          simp only [setSeg_seg_same]
          by_cases hxe : x = hE
          · subst hxe
            exact Or.inr (Or.inr (link_refCount _ _ _))
          · left
            rw [link_atoms_ne _ s hE x hxe]
            refine ⟨?_, rfl⟩
            by_cases hb : b = (st.seg sel).hashOf s
            · subst hb
              rw [Function.update_same] at hx
              rcases List.mem_cons.mp hx with h | h
              · exact absurd h hxe
              · exact h
            · rw [Function.update_noteq hb] at hx
              exact hx

/-- A call of `ATOM_DeleteAtom` on a table with the chains `ch` returns, and
leaves a table with chains `ch1`: those of `ch`, without the entry if it is
unlinked.  The reference count of an entry of `ch1` is as before, or one less
and not 0. -/
theorem del_step (st : State) (sel : Nat) (ch : Nat → List Nat) (atom : Nat)
    (hinv : TableInv (st.seg sel) ch) :
    ∃ r ch1, ATOM_DeleteAtom st sel atom = some r ∧ TableInv (r.2.seg sel) ch1 ∧
      (r.2.seg sel).table.size = (st.seg sel).table.size ∧
      ∀ b e, b < (st.seg sel).table.size → e ∈ ch1 b →
        e ∈ ch b ∧
        (((r.2.seg sel).atoms e).refCount = ((st.seg sel).atoms e).refCount ∨
          (((r.2.seg sel).atoms e).refCount
              = (((st.seg sel).atoms e).refCount + 65535) % 65536 ∧
            ((r.2.seg sel).atoms e).refCount ≠ 0)) := by
  by_cases hlt : atom < MIN_STR_ATOM
  · exact ⟨_, ch, ATOM_DeleteAtom_integer st sel atom hlt, hinv, rfl,
      fun b e _ he => ⟨he, Or.inl rfl⟩⟩
  · have hge : MIN_STR_ATOM ≤ atom := by omega
    have hb : (st.seg sel).bucketOf (ATOMTOHANDLE atom) < (st.seg sel).table.size :=
      ATOM_Hash_lt _ _ _ hinv.1.2
    have hlen := tableInv_length hinv _ hb
    by_cases hmem : ATOMTOHANDLE atom ∈ ch ((st.seg sel).bucketOf (ATOMTOHANDLE atom))
    · obtain ⟨l1, l2, hch, hn1⟩ := List.eq_append_cons_of_mem hmem
      have hchain : IsChain (st.seg sel)
          (readSlot (st.seg sel) (st.seg sel).atomtable
            (.bucket ((st.seg sel).bucketOf (ATOMTOHANDLE atom))))
          (l1 ++ ATOMTOHANDLE atom :: l2) := hch ▸ hinv.2.1 _ hb
      have hl1 : l1.length < CHAIN_FUEL := by
        have : l1.length ≤ (ch ((st.seg sel).bucketOf (ATOMTOHANDLE atom))).length := by
          rw [hch]; simp
        unfold CHAIN_FUEL; omega
      obtain ⟨hq, hr⟩ := findPrev_isChain_mem (st.seg sel) (st.seg sel).atomtable
        (ATOMTOHANDLE atom) l2 l1 CHAIN_FUEL _ hchain hn1 hl1
      have he0 : ATOMTOHANDLE atom ≠ 0 := isChain_ne_zero _ _ _ (hinv.2.1 _ hb) _ hmem
      have hd := ATOM_DeleteAtom_linked st sel atom _ hge hinv.1 hq (by rw [hr]; exact he0)
      by_cases hz : (((st.seg sel).atoms (ATOMTOHANDLE atom)).refCount + 65535) % 65536 = 0
      · rw [if_pos hz] at hd
        obtain ⟨_, f2, _, _, f5, _, _⟩ := unlink_facts (st.seg sel) (ATOMTOHANDLE atom)
          ((st.seg sel).bucketOf (ATOMTOHANDLE atom)) l1 hinv.1 _ rfl
        refine ⟨_, Function.update ch ((st.seg sel).bucketOf (ATOMTOHANDLE atom)) (l1 ++ l2),
          hd, ?_, ?_, ?_⟩
        · simp only [setSeg_seg_same]
          exact tableInv_unlink _ ch _ _ l1 l2 hinv hb hch _ rfl
        · simp only [setSeg_seg_same]
          exact f2
        · intro b x hbs hx
          simp only [setSeg_seg_same]
          have hnd : (l1 ++ ATOMTOHANDLE atom :: l2).Nodup := hch ▸ tableInv_nodup hinv _ hb
          have hxb : x ∈ ch b ∧ x ≠ ATOMTOHANDLE atom := by
            by_cases hbe : b = (st.seg sel).bucketOf (ATOMTOHANDLE atom)
            · subst hbe
              rw [Function.update_same] at hx
              refine ⟨?_, ?_⟩
              · rw [hch]
                rcases List.mem_append.mp hx with h | h
                · exact List.mem_append_left _ h
                · exact List.mem_append_right _ (List.mem_cons_of_mem _ h)
              · rintro rfl
                exact (List.nodup_cons.mp (List.nodup_middle.mp hnd)).1 hx
            · rw [Function.update_noteq hbe] at hx
              refine ⟨hx, ?_⟩
              rintro rfl
              exact hbe (tableInv_disjoint hinv _ _ _ hbs hb hx hmem)
          exact ⟨hxb.1, Or.inl ((f5 x).2.2.1 hxb.2)⟩
      · rw [if_neg hz] at hd
        refine ⟨_, ch, hd, ?_, ?_, ?_⟩
        · simp only [setSeg_seg_same]
          exact tableInv_setRef _ ch _ _ hinv
        · simp only [setSeg_seg_same]; rfl
        · intro b x _ hx
          simp only [setSeg_seg_same]
          by_cases hxe : x = ATOMTOHANDLE atom
          · subst hxe
            refine ⟨hx, Or.inr ⟨setRef_refCount _ _ _, ?_⟩⟩
            rw [setRef_refCount]
            exact hz
          · exact ⟨hx, Or.inl (setRef_refCount_ne _ _ _ _ hxe)⟩
    · obtain ⟨q, hq, hr⟩ := findPrev_isChain_not_mem (st.seg sel) (st.seg sel).atomtable
        (ATOMTOHANDLE atom) CHAIN_FUEL
        (.bucket ((st.seg sel).bucketOf (ATOMTOHANDLE atom))) _ (hinv.2.1 _ hb) hmem
        (by unfold CHAIN_FUEL; omega)
      exact ⟨_, ch, ATOM_DeleteAtom_unlinked st sel atom q hge hinv.1 hq hr, hinv, rfl,
        fun b e _ he => ⟨he, Or.inl rfl⟩⟩

/-! ## The invariants of the reachable tables -/

theorem countAdds_cons (op : Op) (ops : List Op) :
    countAdds (op :: ops) = countAdds [op] + countAdds ops := by
  cases op with
  | add s hT hE => simp only [countAdds]; omega
  | del atom => simp only [countAdds]; omega

/-- A well-formed call on a table with the chains `ch` returns and leaves a table
with chains `ch1`; the reference count of an entry of `ch1` is as before, or,
after `ATOM_AddAtom`, one more (as a `WORD`) or 1, or, after `ATOM_DeleteAtom`,
one less and not 0. -/
theorem op_step (st : State) (sel : Nat) (ch : Nat → List Nat) (op : Op)
    (hinv : TableInv (st.seg sel) ch) (hok : op.ok (st.seg sel)) :
    ∃ r ch1, op.run sel st = some r ∧ TableInv (r.2.seg sel) ch1 ∧
      (r.2.seg sel).table.size = (st.seg sel).table.size ∧
      ∀ b e, b < (st.seg sel).table.size → e ∈ ch1 b →
        (e ∈ ch b ∧ ((r.2.seg sel).atoms e).refCount = ((st.seg sel).atoms e).refCount) ∨
        (countAdds [op] = 1 ∧ e ∈ ch b ∧ ((r.2.seg sel).atoms e).refCount
          = (((st.seg sel).atoms e).refCount + 1) % 65536) ∨
        (countAdds [op] = 1 ∧ ((r.2.seg sel).atoms e).refCount = 1) ∨
        (e ∈ ch b ∧ ((r.2.seg sel).atoms e).refCount
            = (((st.seg sel).atoms e).refCount + 65535) % 65536 ∧
          ((r.2.seg sel).atoms e).refCount ≠ 0) := by
  cases op with
  | add s hT hE =>
    obtain ⟨r, ch1, h1, h2, h3, h4⟩ := add_step st sel ch s hT hE hinv hok.2
    refine ⟨r, ch1, h1, h2, h3, ?_⟩
    intro b e hb he
    rcases h4 b e hb he with h | h | h
    · exact Or.inl h
    · exact Or.inr (Or.inl ⟨rfl, h⟩)
    · exact Or.inr (Or.inr (Or.inl ⟨rfl, h⟩))
  | del atom =>
    obtain ⟨r, ch1, h1, h2, h3, h4⟩ := del_step st sel ch atom hinv
    refine ⟨r, ch1, h1, h2, h3, ?_⟩
    intro b e hb he
    obtain ⟨hm, h | h⟩ := h4 b e hb he
    · exact Or.inl ⟨hm, h⟩
    · exact Or.inr (Or.inr (Or.inr ⟨hm, h⟩))

/-- A sequence of well-formed calls on a table with its chains returns and
leaves a table with its chains. -/
theorem runOps_tableInv (sel : Nat) : ∀ (ops : List Op) (st : State) (ch : Nat → List Nat),
    TableInv (st.seg sel) ch → OpsOk sel ops st →
    ∃ st1 ch1, runOps sel ops st = some st1 ∧ TableInv (st1.seg sel) ch1 := by
  intro ops
  induction ops with
  | nil => intro st ch hinv _; exact ⟨st, ch, rfl, hinv⟩
  | cons op ops ih =>
    intro st ch hinv hok
    obtain ⟨r, ch1, hrun, hinv1, _, _⟩ := op_step st sel ch op hinv hok.1
    obtain ⟨st1, ch2, h1, h2⟩ := ih r.2 ch1 hinv1 (hok.2 r hrun)
    refine ⟨st1, ch2, ?_, h2⟩
    simp only [runOps, hrun]
    exact h1

/-- A sequence of well-formed calls with at most `65535 - k` calls of
`ATOM_AddAtom`, on a table whose entries have reference counts from 1 to `k`,
leaves a table whose entries have reference counts from 1 to `k` plus the
number of calls of `ATOM_AddAtom`. -/
theorem runOps_refCount (sel : Nat) : ∀ (ops : List Op) (st : State) (ch : Nat → List Nat)
    (k : Nat), TableInv (st.seg sel) ch → OpsOk sel ops st →
    (∀ b e, b < (st.seg sel).table.size → e ∈ ch b →
      1 ≤ ((st.seg sel).atoms e).refCount ∧ ((st.seg sel).atoms e).refCount ≤ k) →
    k + countAdds ops ≤ 65535 →
    ∃ st1 ch1, runOps sel ops st = some st1 ∧ TableInv (st1.seg sel) ch1 ∧
      ∀ b e, b < (st1.seg sel).table.size → e ∈ ch1 b →
        1 ≤ ((st1.seg sel).atoms e).refCount ∧
        ((st1.seg sel).atoms e).refCount ≤ k + countAdds ops := by
  intro ops
  induction ops with
  | nil =>
    intro st ch k hinv _ hrc _
    refine ⟨st, ch, rfl, hinv, ?_⟩
    intro b e hb he
    have := hrc b e hb he
    simp only [countAdds]
    omega
  | cons op ops ih =>
    intro st ch k hinv hok hrc hk
    rw [countAdds_cons] at hk
    obtain ⟨r, ch1, hrun, hinv1, hsz, hrel⟩ := op_step st sel ch op hinv hok.1
    have hrc1 : ∀ b e, b < (r.2.seg sel).table.size → e ∈ ch1 b →
        1 ≤ ((r.2.seg sel).atoms e).refCount ∧
        ((r.2.seg sel).atoms e).refCount ≤ k + countAdds [op] := by
      intro b e hb he
      rw [hsz] at hb
      rcases hrel b e hb he with ⟨hm, h⟩ | ⟨hc, hm, h⟩ | ⟨hc, h⟩ | ⟨hm, h, hne⟩
      · have := hrc b e hb hm
        omega
      · have := hrc b e hb hm
        omega
      · omega
      · have := hrc b e hb hm
        omega
    obtain ⟨st1, ch2, h1, h2, h3⟩ := ih r.2 ch1 (k + countAdds [op]) hinv1 (hok.2 r hrun) hrc1
      (by omega)
    refine ⟨st1, ch2, ?_, h2, ?_⟩
    · simp only [runOps, hrun]
      exact h1
    · intro b e hb he
      have := h3 b e hb he
      rw [countAdds_cons]
      omega

/-- Claim C23. From a segment with a valid table whose buckets are all empty,
every sequence of `ATOM_AddAtom` and `ATOM_DeleteAtom` calls with well-formed
arguments returns, and in the state it reaches the chains of the table end and
no two entries linked in them have the same length and, up to ASCII case, the
same stored bytes; each further call of the two operations returns and leaves
a table of which this holds again. -/
theorem C23_dedup_invariant (st : State) (sel : Nat) (ops : List Op)
    (he : EmptyTable (st.seg sel)) (hok : OpsOk sel ops st) :
    ∃ st1, runOps sel ops st = some st1 ∧ Dedup (st1.seg sel) ∧
      ∀ op : Op, op.ok (st1.seg sel) →
        ∃ r, op.run sel st1 = some r ∧ Dedup (r.2.seg sel) := by
  obtain ⟨st1, ch1, hrun, hinv⟩ :=
    runOps_tableInv sel ops st _ (tableInv_of_empty _ he) hok
  refine ⟨st1, hrun, dedup_of_tableInv hinv, ?_⟩
  intro op hop
  obtain ⟨r, ch2, hr, hinv2, _, _⟩ := op_step st1 sel ch1 op hinv hop
  exact ⟨r, hr, dedup_of_tableInv hinv2⟩

theorem opsOk_sampleOps : OpsOk 7 sampleOps State.fresh :=
  ⟨⟨by decide, Or.inr (by decide)⟩, fun _ _ => ⟨⟨by decide, Or.inl rfl⟩, fun _ _ => ⟨trivial, fun _ _ =>
    ⟨trivial, fun _ _ => trivial⟩⟩⟩⟩

/-- Witness of claim C23: in the fresh table of segment 7, "Hello" and "hello"
are interned and their atom is released twice. -/
theorem C23_dedup_invariant_witness :
    ∃ st1, runOps 7 sampleOps State.fresh = some st1 ∧ Dedup (st1.seg 7) ∧
      ∀ op : Op, op.ok (st1.seg 7) → ∃ r, op.run 7 st1 = some r ∧ Dedup (r.2.seg 7) :=
  C23_dedup_invariant State.fresh 7 sampleOps fresh_empty opsOk_sampleOps

/-- Claim C24, amended. From a segment with a valid table whose buckets are all
empty, every sequence of `ATOM_AddAtom` and `ATOM_DeleteAtom` calls with
well-formed arguments of which at most 65535 are calls of `ATOM_AddAtom` returns,
and in the state it reaches every entry linked in a bucket chain has a
reference count of at least 1 and at most the number of `ATOM_AddAtom` calls. -/
theorem C24_refcount_positive (st : State) (sel : Nat) (ops : List Op)
    (he : EmptyTable (st.seg sel)) (hok : OpsOk sel ops st) (hn : countAdds ops ≤ 65535) :
    ∃ st1 L, runOps sel ops st = some st1 ∧ tableEntries (st1.seg sel) = some L ∧
      ∀ e ∈ L, 1 ≤ ((st1.seg sel).atoms e).refCount ∧
        ((st1.seg sel).atoms e).refCount ≤ countAdds ops := by
  obtain ⟨st1, ch1, hrun, hinv, hrc⟩ :=
    runOps_refCount sel ops st _ 0 (tableInv_of_empty _ he) hok
      (fun b e _ h => by simp at h) (by omega)
  obtain ⟨L, hL, hmem, _⟩ := tableEntries_of_tableInv hinv
  refine ⟨st1, L, hrun, hL, ?_⟩
  intro e heL
  obtain ⟨b, hb, heb⟩ := (hmem e).mp heL
  have := hrc b e hb heb
  omega

/-- Witness of claim C24: in the fresh table of segment 7, "Hello" and "hello"
are interned and their atom is released twice. -/
theorem C24_refcount_positive_witness :
    ∃ st1 L, runOps 7 sampleOps State.fresh = some st1 ∧ tableEntries (st1.seg 7) = some L ∧
      ∀ e ∈ L, 1 ≤ ((st1.seg 7).atoms e).refCount ∧
        ((st1.seg 7).atoms e).refCount ≤ countAdds sampleOps :=
  C24_refcount_positive State.fresh 7 sampleOps fresh_empty opsOk_sampleOps (by decide)

theorem runOps_cons (sel : Nat) (op : Op) (ops : List Op) (st : State) (r : Nat × State)
    (h : op.run sel st = some r) : runOps sel (op :: ops) st = runOps sel ops r.2 := by
  simp only [runOps, h]

theorem opsOk_replicate (sel : Nat) (s : List Nat) (hT : Nat) (hs : IsCStr s) :
    ∀ (n : Nat) (st : State), OpsOk sel (List.replicate n (.add s hT 0)) st := by
  intro n
  induction n with
  | zero => intro st; exact trivial
  | succ n ih => intro st; exact ⟨⟨hs, Or.inl rfl⟩, fun r _ => ih r.2⟩

theorem runOps_bump (st : State) (sel : Nat) (s : List Nat) (hT hE h : Nat)
    (hint : ATOM_IsIntAtom (.str s) = none) (ht : HasTable (st.seg sel)) (h0 : h ≠ 0)
    (n : Nat) :
    ∀ c, runOps sel (List.replicate n (.add s hT hE))
        (st.setSeg sel (((st.seg sel).link s h).setRef h (c % 65536)))
      = some (st.setSeg sel (((st.seg sel).link s h).setRef h ((c + n) % 65536))) := by
  induction n with
  | zero => intro c; simp [runOps]
  | succ n ih =>
    intro c
    simp only [List.replicate_succ, runOps, Op.run,
      ATOM_AddAtom_bump st sel s hT hE h _ hint ht h0]
    have e : (c % 65536 + 1) % 65536 = (c + 1) % 65536 := by omega
    rw [e, ih (c + 1)]
    have e2 : c + 1 + n = c + (n + 1) := by omega
    rw [e2]

/-- Counterexample to claim C24 as stated: from the fresh table of segment 7,
65536 well-formed calls of `ATOM_AddAtom` for "a" lead to a table whose only
entry, at handle 16, is linked in its chain with reference count 0. -/
theorem C24_counterexample :
    EmptyTable (State.fresh.seg 7) ∧ OpsOk 7 manyAdds State.fresh ∧
    ∃ st1, runOps 7 manyAdds State.fresh = some st1 ∧
      tableEntries (st1.seg 7) = some [16] ∧ ((st1.seg 7).atoms 16).refCount = 0 := by
  have he := fresh_empty
  have hint : ATOM_IsIntAtom (.str [97]) = none := by decide
  have hfind := findEntry_of_absent State.fresh 7 [97] hint he.1 (absent_of_empty _ _ _ hint he)
  have hadd := ATOM_AddAtom_new State.fresh 7 [97] 0 16 hint he.1 hfind (by decide)
  have e : (State.fresh.seg 7).link [97] 16
      = ((State.fresh.seg 7).link [97] 16).setRef 16 (1 % 65536) := by
    have := setRef_self ((State.fresh.seg 7).link [97] 16) 16
    rw [link_refCount] at this
    exact this.symm
  refine ⟨he, ⟨⟨by decide, Or.inr (by decide)⟩,
    fun r _ => opsOk_replicate 7 [97] 0 (by decide) 65535 r.2⟩,
    State.fresh.setSeg 7 (((State.fresh.seg 7).link [97] 16).setRef 16 ((1 + 65535) % 65536)),
    ?_, ?_, ?_⟩
  · have hrun : Op.run 7 State.fresh (.add [97] 0 16)
        = some (HANDLETOATOM 16, State.fresh.setSeg 7 ((State.fresh.seg 7).link [97] 16)) := hadd
    unfold manyAdds
    rw [runOps_cons 7 _ _ _ _ hrun]
    simp only
    rw [e, setRef_setRef]
    exact runOps_bump State.fresh 7 [97] 0 0 16 hint he.1 (by decide) 65535 1
  · rw [setSeg_seg_same]
    apply tableEntries_single _ ((State.fresh.seg 7).hashOf [97]) 16 _ (by decide)
    · intro b hb
      rw [setRef_head, link_head]
      split
      · rfl
      · rw [setRef_table, link_table_size] at hb
        exact head_of_emptyTable _ he b hb
    · rw [setRef_next, link_atoms_same]
      exact head_hashOf_of_emptyTable _ he [97]
    · rw [setRef_table, link_table_size]; exact hashOf_lt _ _ he.1
  · rw [setSeg_seg_same, setRef_refCount]

/-! ## `ATOM_AddAtom` and the relocation of the segment -/

@[simp] theorem deref_mk (st : State) (ep : Nat → Nat) (sel off : Nat) :
    (Lin.mk st ep).deref ⟨sel, off, ep sel⟩ = some off := by
  simp [Lin.deref]

theorem relocate_ne (ep : Nat → Nat) (sel : Nat) (mv : Bool) (s : Nat) (h : s ≠ sel) :
    relocate ep sel mv s = ep s := by
  unfold relocate
  split
  · exact Function.update_noteq h _ _
  · rfl

/-- The function `ATOM_InitTable` uses no stale address: with the linear addresses
it returns what it returns on offsets. -/
theorem ATOM_InitTableLin_eq (m : Lin) (sel n h : Nat) (mv : Bool) :
    ATOM_InitTableLin m sel n h mv
      = some ((ATOM_InitTable m.st sel n h).1,
          ⟨(ATOM_InitTable m.st sel n h).2, relocate m.epoch sel mv⟩) := by
  unfold ATOM_InitTableLin ATOM_InitTable PTR_SEG_OFF_TO_LIN
  simp only [deref_mk]
  by_cases hg : m.st.ATOM_GlobalTable = 0
  · simp only [hg, if_true]
    split
    · rename_i hr; simp only [hr, if_true]
    · rename_i hr; simp only [hr, if_false]
  · simp only [hg, if_false]
    split
    · rename_i hr; simp only [hr, if_true]
    · rename_i hr; simp only [hr, if_false]

/-- The function `ATOM_GetTable` uses no stale address: with the linear addresses
it returns a pointer to the table it returns on offsets, resolved in the
placement it leaves; it moves no other segment, and no segment at all with
`create = FALSE`. -/
theorem ATOM_GetTableLin_eq (m : Lin) (sel : Nat) (create : Bool) (h : Nat) (mv : Bool) :
    ∃ ep, (∀ s, s ≠ sel → ep s = m.epoch s) ∧ (create = false → ep = m.epoch) ∧
      ATOM_GetTableLin m sel create h mv
        = some ((ATOM_GetTable m.st sel create h).1.map (fun t => ⟨sel, t, ep sel⟩),
            ⟨(ATOM_GetTable m.st sel create h).2, ep⟩) := by
  obtain ⟨st, ep0⟩ := m
  unfold ATOM_GetTableLin ATOM_GetTable PTR_SEG_OFF_TO_LIN
  simp only [deref_mk, Nat.zero_add]
  by_cases ht : (st.seg sel).atomtable ≠ 0 ∧
      ((st.seg sel).tables (st.seg sel).atomtable).size ≠ 0
  · refine ⟨ep0, fun _ _ => rfl, fun _ => rfl, ?_⟩
    rw [if_pos ht, if_pos ht]
    rfl
  · rw [if_neg ht, if_neg ht]
    cases create with
    | false =>
      refine ⟨ep0, fun _ _ => rfl, fun _ => rfl, ?_⟩
      simp
    | true =>
      refine ⟨relocate ep0 sel mv, fun s hs => relocate_ne ep0 sel mv s hs,
        fun hc => by simp at hc, ?_⟩
      simp only [ATOM_InitTableLin_eq, Bool.not_true, Bool.false_eq_true, if_false]
      split
      · rfl
      · simp only [deref_mk, Nat.zero_add]
        rfl

theorem read_of_stable (m : Lin) (sel : Nat) (str : StrPtr) (hs : str.stable m sel)
    (m1 : Lin) (h : ∀ s, s ≠ sel → m1.epoch s = m.epoch s) : str.read m1 = some str.arg := by
  cases str with
  | atom w => rfl
  | ext s => rfl
  | seg p s =>
    obtain ⟨h1, h2⟩ := hs
    simp [StrPtr.read, StrPtr.arg, Lin.deref, h p.sel h1, h2]

/-- With a string argument that is valid and outside the segment of the table,
`ATOM_AddAtom` uses no stale address, whether or not the allocations relocate the
segment: it returns the atom and leaves the contents it does on offsets. -/
theorem ATOM_AddAtomLin_eq (m : Lin) (sel : Nat) (str : StrPtr) (hT hE : Nat) (mT mE : Bool)
    (hs : str.stable m sel) :
    (ATOM_AddAtomLin m sel str hT hE mT mE).map (fun r => (r.1, r.2.st))
      = ATOM_AddAtom m.st sel str.arg hT hE := by
  have hread := read_of_stable m sel str hs
  unfold ATOM_AddAtomLin ATOM_AddAtom
  rw [hread m (fun _ _ => rfl)]
  simp only
  cases hint : ATOM_IsIntAtom str.arg with
  | some v => rfl
  | none =>
    simp only
    obtain ⟨ep1, hep1, _, hg1⟩ := ATOM_GetTableLin_eq m sel true hT mT
    rw [hg1]
    generalize ATOM_GetTable m.st sel true hT = g
    obtain ⟨g1, st1⟩ := g
    cases g1 with
    | none => rfl
    | some t =>
      simp only [Option.map_some', deref_mk, hread ⟨st1, ep1⟩ hep1]
      generalize (if str.arg.bytes.length > MAX_ATOM_LEN then MAX_ATOM_LEN
        else str.arg.bytes.length) = len
      generalize findEntry (st1.seg sel) str.arg.bytes len CHAIN_FUEL _ = fe
      cases fe with
      | none => rfl
      | some e =>
        cases e with
        | zero =>
          simp only
          by_cases hr : (LOCAL_Alloc (st1.seg sel) (ae_len len) hE).1 = 0
          · simp only [hr, if_true]; rfl
          · simp only [hr, if_false]
            obtain ⟨ep2, _, hep2, hg2⟩ := ATOM_GetTableLin_eq
              ⟨st1.setSeg sel (LOCAL_Alloc (st1.seg sel) (ae_len len) hE).2,
                relocate ep1 sel mE⟩ sel false 0 false
            have hep : ep2 = relocate ep1 sel mE := hep2 rfl
            subst hep
            rw [hg2]
            have hr2 : str.read ⟨st1.setSeg sel (LOCAL_Alloc (st1.seg sel) (ae_len len) hE).2,
                relocate ep1 sel mE⟩ = some str.arg :=
              hread _ (fun s hs => by
                show relocate ep1 sel mE s = m.epoch s
                rw [relocate_ne ep1 sel mE s hs, hep1 s hs])
            generalize ATOM_GetTable
              (st1.setSeg sel (LOCAL_Alloc (st1.seg sel) (ae_len len) hE).2) sel false 0 = g2
            obtain ⟨g21, st2⟩ := g2
            cases g21 with
            | none => rfl
            | some t2 =>
              simp only [Option.map_some', deref_mk, PTR_SEG_OFF_TO_LIN, hr2]
        | succ e =>
          simp only [PTR_SEG_OFF_TO_LIN, deref_mk]
          rfl

/-- With a string argument that is valid at the call and does not lie in the
segment of the table, the result of `ATOM_AddAtom` (the returned atom and the
contents of the segments) is the same whether or not the allocation of the
table or of the entry relocates the segment. -/
theorem ATOM_AddAtomLin_stable (m : Lin) (sel : Nat) (str : StrPtr) (hT hE : Nat)
    (mT mE : Bool) (hs : str.stable m sel) :
    (ATOM_AddAtomLin m sel str hT hE mT mE).map (fun r => (r.1, r.2.st))
      = (ATOM_AddAtomLin m sel str hT hE false false).map (fun r => (r.1, r.2.st)) := by
  rw [ATOM_AddAtomLin_eq m sel str hT hE mT mE hs,
    ATOM_AddAtomLin_eq m sel str hT hE false false hs]

/-- The offset of the string argument plays no part in `ATOM_AddAtom`. -/
theorem ATOM_AddAtomLin_off (m : Lin) (sel : Nat) (a off off2 ep : Nat) (s : List Nat)
    (hT hE : Nat) (mT mE : Bool) :
    ATOM_AddAtomLin m sel (.seg ⟨a, off, ep⟩ s) hT hE mT mE
      = ATOM_AddAtomLin m sel (.seg ⟨a, off2, ep⟩ s) hT hE mT mE := by
  have hread : ∀ m1 : Lin, StrPtr.read m1 (.seg ⟨a, off, ep⟩ s)
      = StrPtr.read m1 (.seg ⟨a, off2, ep⟩ s) := by
    intro m1
    simp only [StrPtr.read, Lin.deref]
    split <;> rfl
  unfold ATOM_AddAtomLin
  simp only [hread]

theorem HIWORD_segptr (sel off : Nat) (hs : sel < 65536) (ho : off < 65536) :
    HIWORD (sel * 65536 + off) = sel ∧ LOWORD (sel * 65536 + off) = off := by
  unfold HIWORD LOWORD
  omega

/-- Claim C30. The string "hello" lies in the data segment 7 itself, at the
offset `off`, and is new to the fresh table of the segment.  The guard of
`AddAtom16`, which is to copy a string of the data segment before `ATOM_AddAtom`
is called, compares the descriptor index of the offset of `str` (its low word)
with that of the segment, so that no copy is made when they differ and
`ATOM_AddAtom` is called with the address of the string in the segment.
`ATOM_AddAtom` then returns the atom 0xC004 when the allocation of the entry does
not relocate the segment, and reads the string through the stale address (in
`strncpy`) when it does.  At an offset whose index is that of the segment (4)
the copy is made and the relocation does no harm. -/
theorem C30_stale_string_address (off : Nat) (hoff : off < 65536)
    (hne : SELECTOR_TO_ENTRY off ≠ SELECTOR_TO_ENTRY 7) :
    HIWORD (7 * 65536 + off) = 7 ∧ LOWORD (7 * 65536 + off) = off ∧
    (∀ mE, AddAtom16 Lin.fresh 7 (7 * 65536 + off) [104, 101, 108, 108, 111] 0 16 false mE
      = ATOM_AddAtomLin Lin.fresh 7 (.seg ⟨7, off, 0⟩ [104, 101, 108, 108, 111]) 0 16 false mE) ∧
    (ATOM_AddAtomLin Lin.fresh 7 (.seg ⟨7, off, 0⟩ [104, 101, 108, 108, 111]) 0 16 false
        false).map (fun r => r.1) = some 0xc004 ∧
    (ATOM_AddAtomLin Lin.fresh 7 (.seg ⟨7, off, 0⟩ [104, 101, 108, 108, 111]) 0 16 false
        true).map (fun r => r.1) = none ∧
    (AddAtom16 Lin.fresh 7 (7 * 65536 + 4) [104, 101, 108, 108, 111] 0 16 false true).map
        (fun r => r.1) = some 0xc004 := by
  obtain ⟨h1, h2⟩ := HIWORD_segptr 7 off (by norm_num) hoff
  have e : ∀ mE, ATOM_AddAtomLin Lin.fresh 7 (.seg ⟨7, off, 0⟩ [104, 101, 108, 108, 111]) 0 16
      false mE = ATOM_AddAtomLin Lin.fresh 7 helloInSeg 0 16 false mE :=
    fun mE => ATOM_AddAtomLin_off _ _ _ _ _ _ _ _ _ _ _
  refine ⟨h1, h2, ?_, ?_, ?_, by decide⟩
  · intro mE
    unfold AddAtom16
    rw [h1, h2, if_neg (by decide), if_neg hne]
    rfl
  · rw [e]; decide
  · rw [e]; decide

/-- Witness of claim C30: the string at offset 256 of the data segment. -/
theorem C30_stale_string_address_witness :
    HIWORD (7 * 65536 + 256) = 7 ∧ LOWORD (7 * 65536 + 256) = 256 ∧
    (∀ mE, AddAtom16 Lin.fresh 7 (7 * 65536 + 256) [104, 101, 108, 108, 111] 0 16 false mE
      = ATOM_AddAtomLin Lin.fresh 7 (.seg ⟨7, 256, 0⟩ [104, 101, 108, 108, 111]) 0 16 false
          mE) ∧
    (ATOM_AddAtomLin Lin.fresh 7 (.seg ⟨7, 256, 0⟩ [104, 101, 108, 108, 111]) 0 16 false
        false).map (fun r => r.1) = some 0xc004 ∧
    (ATOM_AddAtomLin Lin.fresh 7 (.seg ⟨7, 256, 0⟩ [104, 101, 108, 108, 111]) 0 16 false
        true).map (fun r => r.1) = none ∧
    (AddAtom16 Lin.fresh 7 (7 * 65536 + 4) [104, 101, 108, 108, 111] 0 16 false true).map
        (fun r => r.1) = some 0xc004 :=
  C30_stale_string_address 256 (by decide) (by decide)

/-- The stale address in `ATOM_AddAtom` itself: "hello" lies in segment 7, at an
address resolved before the call.  In the blank state, where the table is
allocated first, the call uses the stale address (in `ATOM_Hash`) when that
allocation relocates the segment. -/
theorem ATOM_AddAtomLin_stale :
    (ATOM_AddAtomLin ⟨State.blank, fun _ => 0⟩ 7 helloInSeg 8 16 false false).map
      (fun r => r.1) = some 0xc004 ∧
    (ATOM_AddAtomLin ⟨State.blank, fun _ => 0⟩ 7 helloInSeg 8 16 true false).map
      (fun r => r.1) = none := by
  decide


/-! ## The hash and the case of the letters -/

/-- Claim C37. For every bucket count `n > 0` and all byte strings `s` and `t`
that are equal after ASCII upper-casing (they have the same length then),
`ATOM_Hash` of `s` and of `t` over their length, and over any length, are equal;
and two strings `u` and `v`, `v` a C string, that the comparison of the chain
walk treats as equal (same length `len` as the atom functions take it, and
`lstrncmpiA` over `len` bytes returns 0) hash to the same bucket. -/
theorem C37_hash_case_invariant (n : Nat) (s t u v : List Nat) (hn : 0 < n)
    (hci : ciEq s t) (hv : IsCStr v) (hlen : atomLen u = atomLen v)
    (hcmp : lstrncmpiA u v (atomLen v) = 0) :
    s.length = t.length ∧ ATOM_Hash n s s.length = ATOM_Hash n t t.length ∧
    (∀ len, ATOM_Hash n s len = ATOM_Hash n t len) ∧
    ATOM_Hash n u (atomLen u) = ATOM_Hash n v (atomLen v) ∧
    ATOM_Hash n u (atomLen u) < n := by
  have hl := ciEq_length hci
  refine ⟨hl, ?_, fun len => ATOM_Hash_congr n len s t (ciEq_ciUpTo hci len), ?_,
    ATOM_Hash_lt n u _ (by omega)⟩
  · rw [← hl]
    exact ATOM_Hash_congr n _ s t (ciEq_ciUpTo hci _)
  · rw [hlen]
    apply ATOM_Hash_congr
    exact ciUpTo_of_lstrncmpiA_eq_zero _ u v
      (fun i hi => byteAt_ne_zero_of_isCStr v hv i (by have := atomLen_le v; omega)) hcmp

/-- Witness of claim C37: "Hello" and "hELLO" with 37 buckets. -/
theorem C37_hash_case_invariant_witness :
    [72, 101, 108, 108, 111].length = [104, 69, 76, 76, 79].length ∧
    ATOM_Hash 37 [72, 101, 108, 108, 111] [72, 101, 108, 108, 111].length
      = ATOM_Hash 37 [104, 69, 76, 76, 79] [104, 69, 76, 76, 79].length ∧
    (∀ len, ATOM_Hash 37 [72, 101, 108, 108, 111] len
      = ATOM_Hash 37 [104, 69, 76, 76, 79] len) ∧
    ATOM_Hash 37 [72, 101, 108, 108, 111] (atomLen [72, 101, 108, 108, 111])
      = ATOM_Hash 37 [104, 69, 76, 76, 79] (atomLen [104, 69, 76, 76, 79]) ∧
    ATOM_Hash 37 [72, 101, 108, 108, 111] (atomLen [72, 101, 108, 108, 111]) < 37 :=
  C37_hash_case_invariant 37 [72, 101, 108, 108, 111] [104, 69, 76, 76, 79]
    [72, 101, 108, 108, 111] [104, 69, 76, 76, 79] (by decide) (by decide) (by decide)
    (by decide) (by decide)

/-! ## A failed allocation in `ATOM_InitTable` -/

/-- Claim C38. When no global table is designated and the allocation of the
table fails, `ATOM_InitTable` for a non-zero selector returns 0, leaves every
segment as it is (no table is registered for the segment) and leaves the
designation set to the selector. -/
theorem C38_designation_before_allocation (st : State) (sel n : Nat)
    (hg : st.ATOM_GlobalTable = 0) (hs : sel ≠ 0) :
    ATOM_InitTable st sel n 0 = (0, { st with ATOM_GlobalTable := sel }) ∧
    (ATOM_InitTable st sel n 0).1 = 0 ∧
    (ATOM_InitTable st sel n 0).2.seg = st.seg ∧
    ((ATOM_InitTable st sel n 0).2.seg sel).atomtable = (st.seg sel).atomtable ∧
    (ATOM_InitTable st sel n 0).2.ATOM_GlobalTable = sel ∧
    (ATOM_InitTable st sel n 0).2.ATOM_GlobalTable ≠ 0 := by
  have e : ATOM_InitTable st sel n 0 = (0, { st with ATOM_GlobalTable := sel }) := by
    unfold ATOM_InitTable LOCAL_Alloc
    simp [hg]
  rw [e]
  exact ⟨rfl, rfl, rfl, rfl, rfl, hs⟩

/-- Witness of claim C38: segment 5 in the blank state. -/
theorem C38_designation_before_allocation_witness :
    ATOM_InitTable State.blank 5 37 0 = (0, { State.blank with ATOM_GlobalTable := 5 }) ∧
    (ATOM_InitTable State.blank 5 37 0).1 = 0 ∧
    (ATOM_InitTable State.blank 5 37 0).2.seg = State.blank.seg ∧
    ((ATOM_InitTable State.blank 5 37 0).2.seg 5).atomtable = (State.blank.seg 5).atomtable ∧
    (ATOM_InitTable State.blank 5 37 0).2.ATOM_GlobalTable = 5 ∧
    (ATOM_InitTable State.blank 5 37 0).2.ATOM_GlobalTable ≠ 0 :=
  C38_designation_before_allocation State.blank 5 37 rfl (by decide)

/-! ## The size of the block of an entry -/

set_option maxRecDepth 1000000 in
theorem ae_len_land : ∀ len, len < 256 →
    ae_len len = (SIZEOF_ATOMENTRY + len + 3) &&& 4294967292 := by
  decide

/-- Claim C39. For every stored length `len` from 0 to 255, the size `ae_len` of
the block, `(sizeof(ATOMENTRY) + len + 3) & ~3` with `sizeof(ATOMENTRY) = 6`, is
a multiple of 4 from `len + 6` to `len + 9`; the count of `strncpy`,
`ae_len - sizeof(ATOMENTRY) + 1`, is the number of bytes from the field `str`
(offset 5) to the end of the block, so that the bytes `strncpy` writes end with
the block, and it is greater than `len`. -/
theorem C39_entry_block_size (len : Nat) (s : List Nat) (hlen : len ≤ 255) :
    ae_len len = (SIZEOF_ATOMENTRY + len + 3) &&& 4294967292 ∧
    ae_len len % 4 = 0 ∧ len + 6 ≤ ae_len len ∧ ae_len len ≤ len + 9 ∧
    ae_len len - SIZEOF_ATOMENTRY + 1 = ae_len len - OFFSET_str ∧
    OFFSET_str + (strncpy s (ae_len len - SIZEOF_ATOMENTRY + 1)).length = ae_len len ∧
    len + 1 ≤ ae_len len - SIZEOF_ATOMENTRY + 1 ∧ ae_len len < 65536 := by
  have hge := ae_len_ge len
  have h4 : ae_len len % 4 = 0 := by unfold ae_len; omega
  have hle : ae_len len ≤ len + 9 := by unfold ae_len; omega
  refine ⟨ae_len_land len (by omega), h4, hge, hle, ?_, ?_, ?_, by omega⟩
  · unfold SIZEOF_ATOMENTRY OFFSET_str; omega
  · rw [strncpy_length]; unfold SIZEOF_ATOMENTRY OFFSET_str; omega
  · unfold SIZEOF_ATOMENTRY; omega

/-- Witness of claim C39: the length 5 of "hello". -/
theorem C39_entry_block_size_witness :
    ae_len 5 = (SIZEOF_ATOMENTRY + 5 + 3) &&& 4294967292 ∧
    ae_len 5 % 4 = 0 ∧ 5 + 6 ≤ ae_len 5 ∧ ae_len 5 ≤ 5 + 9 ∧
    ae_len 5 - SIZEOF_ATOMENTRY + 1 = ae_len 5 - OFFSET_str ∧
    OFFSET_str + (strncpy [104, 101, 108, 108, 111] (ae_len 5 - SIZEOF_ATOMENTRY + 1)).length
      = ae_len 5 ∧
    5 + 1 ≤ ae_len 5 - SIZEOF_ATOMENTRY + 1 ∧ ae_len 5 < 65536 :=
  C39_entry_block_size 5 [104, 101, 108, 108, 111] (by decide)

/-! ## The text of an integer atom -/

/-- The length `ATOM_GetAtomName` returns is at most the length of the text it
copies from, and it stores that many bytes and a terminator. -/
theorem ATOM_GetAtomName_int_le (st : State) (sel atom : Nat) (count : Int)
    (ha : atom < MIN_STR_ATOM) :
    (ATOM_GetAtomName st sel atom count).ret ≤ (35 :: sprintf_d atom).length ∧
    (ATOM_GetAtomName st sel atom count).buffer.length
      ≤ (ATOM_GetAtomName st sel atom count).ret + 1 := by
  unfold ATOM_GetAtomName
  by_cases hc : count = 0
  · simp [hc]
  · simp only [hc, if_false, ha, if_true, List.length_append, memcpy_length,
      List.length_singleton, le_refl, and_true]
    split <;> omega

/-- Claim C40. For every integer atom `a < 0xC000`, `ATOM_GetAtomName` with a
capacity from 7 to `INT_MAX` returns the whole text it makes of the atom, `#`
followed by the decimal digits of `a`, with its terminator: the text has at
most 6 characters and, with the terminator, at most 7 bytes, which fit in the
8 bytes of `text`; and for every capacity the length returned is at most 6 and
at most 7 bytes are stored. -/
theorem C40_integer_text_fits (st : State) (sel a : Nat) (count : Int)
    (ha : a < MIN_STR_ATOM) :
    (7 ≤ count → count ≤ INT_MAX →
      ATOM_GetAtomName st sel a count
        = ⟨(35 :: sprintf_d a).length, (35 :: sprintf_d a) ++ [0], st⟩) ∧
    (35 :: sprintf_d a).length ≤ 6 ∧
    ((35 :: sprintf_d a) ++ [0]).length ≤ TEXT_SIZE ∧
    (ATOM_GetAtomName st sel a count).ret ≤ 6 ∧
    (ATOM_GetAtomName st sel a count).buffer.length ≤ 7 := by
  have hl := (sprintf_d_spec a).2.2.2 4 (by unfold MIN_STR_ATOM at ha; omega)
  have h6 : (35 :: sprintf_d a).length ≤ 6 := by
    simp only [List.length_cons]; omega
  obtain ⟨h1, h2⟩ := ATOM_GetAtomName_int_le st sel a count ha
  refine ⟨fun hc hcmax => ATOM_GetAtomName_int st sel a count ha hcmax (by omega), h6, ?_,
    by omega, by omega⟩
  rw [List.length_append, List.length_singleton]
  unfold TEXT_SIZE
  omega

/-- Witness of claim C40: the integer atom 49151, the largest, and a buffer of
8 bytes. -/
theorem C40_integer_text_fits_witness :
    ATOM_GetAtomName State.blank 7 49151 8
      = ⟨6, [35, 52, 57, 49, 53, 49, 0], State.blank⟩ ∧
    (35 :: sprintf_d 49151).length ≤ 6 ∧
    ((35 :: sprintf_d 49151) ++ [0]).length ≤ TEXT_SIZE ∧
    (ATOM_GetAtomName State.blank 7 49151 8).ret ≤ 6 ∧
    (ATOM_GetAtomName State.blank 7 49151 8).buffer.length ≤ 7 := by
  obtain ⟨h1, h2, h3, h4, h5⟩ := C40_integer_text_fits State.blank 7 49151 8 (by decide)
  have e : sprintf_d 49151 = [52, 57, 49, 53, 49] := by decide
  have h := h1 (by decide) (by decide)
  rw [e] at h
  exact ⟨h, h2, h3, h4, h5⟩


/-! ## What a call changes -/

theorem onlyRefCount_setRef (st : State) (sel e c : Nat) :
    OnlyRefCount st (st.setSeg sel ((st.seg sel).setRef e c)) sel e c := by
  refine ⟨rfl, fun sel2 h => setSeg_seg_ne st sel sel2 _ h, ?_, ?_, ?_, ?_, ?_, ?_, ?_, ?_⟩
  · rw [setSeg_seg_same]; rfl
  · rw [setSeg_seg_same]; rfl
  · rw [setSeg_seg_same]; rfl
  · intro x hx
    rw [setSeg_seg_same]
    unfold Segment.setRef
    simp [Function.update_noteq hx]
  · rw [setSeg_seg_same]; exact (setRef_atoms _ e c e).1
  · rw [setSeg_seg_same]; exact (setRef_atoms _ e c e).2.2
  · rw [setSeg_seg_same]; exact (setRef_atoms _ e c e).2.1
  · rw [setSeg_seg_same]; exact setRef_refCount _ e c

theorem hasTable_of_withTable (st : State) (sel hT : Nat)
    (ht : HasTable ((st.withTable sel hT).seg sel)) (hn : ¬ HasTable (st.seg sel)) : hT ≠ 0 := by
  rintro rfl
  unfold State.withTable at ht
  rw [ATOM_GetTable_create st sel 0 hn,
    (ATOM_InitTable_fails st sel DEFAULT_ATOMTABLE_SIZE).2] at ht
  exact hn ht

/-- The chain walk of `ATOM_AddAtom` runs in the state with the table. -/
theorem ATOM_AddAtom_withTable (st : State) (sel : Nat) (s : List Nat) (hT hE : Nat)
    (hint : ATOM_IsIntAtom (.str s) = none) (ht : HasTable ((st.withTable sel hT).seg sel)) :
    ATOM_AddAtom st sel (.str s) hT hE = ATOM_AddAtom (st.withTable sel hT) sel (.str s) hT hE := by
  by_cases hn : HasTable (st.seg sel)
  · unfold State.withTable
    rw [ATOM_GetTable_create_of_hasTable st sel hT hn]
  · have hT0 := hasTable_of_withTable st sel hT ht hn
    unfold State.withTable
    rw [ATOM_AddAtom_create st sel s hT hE hint hn hT0, ATOM_GetTable_create st sel hT hn]

/-- Claim C33. When `ATOM_AddAtom` of a string `s` that is not an integer atom
finds no matching entry in the table of the segment (the table it has or has
just created) and the allocation of the entry succeeds at the handle `hE`, it
returns the atom of `hE`; the new entry has `next` equal to the former head of
the bucket of `s`, reference count 1 and length `min |s| 255`; it is the head
of that bucket; and the size of the table, every other bucket, every other
entry, the other segments and the global table designation are as before. -/
theorem C33_new_entry_linked (st : State) (sel : Nat) (s : List Nat) (hT hE : Nat)
    (hint : ATOM_IsIntAtom (.str s) = none) (ht : HasTable ((st.withTable sel hT).seg sel))
    (hfind : findEntry ((st.withTable sel hT).seg sel) s (atomLen s) CHAIN_FUEL
      (((st.withTable sel hT).seg sel).head (((st.withTable sel hT).seg sel).hashOf s))
        = some 0)
    (hE0 : hE ≠ 0) :
    ∃ st1, ATOM_AddAtom st sel (.str s) hT hE = some (HANDLETOATOM hE, st1) ∧
      ((st1.seg sel).atoms hE).next
        = ((st.withTable sel hT).seg sel).head (((st.withTable sel hT).seg sel).hashOf s) ∧
      ((st1.seg sel).atoms hE).refCount = 1 ∧
      ((st1.seg sel).atoms hE).length = min s.length 255 ∧
      (st1.seg sel).head (((st.withTable sel hT).seg sel).hashOf s) = hE ∧
      (st1.seg sel).atomtable = ((st.withTable sel hT).seg sel).atomtable ∧
      (st1.seg sel).table.size = ((st.withTable sel hT).seg sel).table.size ∧
      (∀ b, b ≠ ((st.withTable sel hT).seg sel).hashOf s →
        (st1.seg sel).head b = ((st.withTable sel hT).seg sel).head b) ∧
      (∀ x, x ≠ hE → (st1.seg sel).atoms x = ((st.withTable sel hT).seg sel).atoms x) ∧
      (∀ sel2, sel2 ≠ sel → st1.seg sel2 = (st.withTable sel hT).seg sel2) ∧
      st1.ATOM_GlobalTable = (st.withTable sel hT).ATOM_GlobalTable := by
  refine ⟨(st.withTable sel hT).setSeg sel (((st.withTable sel hT).seg sel).link s hE), ?_, ?_⟩
  · rw [ATOM_AddAtom_withTable st sel s hT hE hint ht]
    exact ATOM_AddAtom_new _ sel s hT hE hint ht hfind hE0
  · simp only [setSeg_seg_same, link_atoms_same, link_atomtable, link_table_size, setSeg_global]
    refine ⟨trivial, trivial, atomLen_eq_min s, ?_, trivial, trivial, ?_, ?_, ?_, trivial⟩
    · rw [link_head, if_pos rfl]
    · intro b hb
      rw [link_head, if_neg hb]
    · intro x hx
      exact link_atoms_ne _ s hE x hx
    · intro sel2 h2
      exact setSeg_seg_ne _ sel sel2 _ h2

/-- Witness of claim C33: "hello" is interned in segment 7 of the blank state,
the arena returning the handle 8 for the table and 16 for the entry. -/
theorem C33_new_entry_linked_witness :
    ∃ st1, ATOM_AddAtom State.blank 7 (.str [104, 101, 108, 108, 111]) 8 16
        = some (HANDLETOATOM 16, st1) ∧
      ((st1.seg 7).atoms 16).next
        = ((State.blank.withTable 7 8).seg 7).head
            (((State.blank.withTable 7 8).seg 7).hashOf [104, 101, 108, 108, 111]) ∧
      ((st1.seg 7).atoms 16).refCount = 1 ∧
      ((st1.seg 7).atoms 16).length = min [104, 101, 108, 108, 111].length 255 ∧
      (st1.seg 7).head (((State.blank.withTable 7 8).seg 7).hashOf [104, 101, 108, 108, 111])
        = 16 ∧
      (st1.seg 7).atomtable = ((State.blank.withTable 7 8).seg 7).atomtable ∧
      (st1.seg 7).table.size = ((State.blank.withTable 7 8).seg 7).table.size ∧
      (∀ b, b ≠ ((State.blank.withTable 7 8).seg 7).hashOf [104, 101, 108, 108, 111] →
        (st1.seg 7).head b = ((State.blank.withTable 7 8).seg 7).head b) ∧
      (∀ x, x ≠ 16 → (st1.seg 7).atoms x = ((State.blank.withTable 7 8).seg 7).atoms x) ∧
      (∀ sel2, sel2 ≠ 7 → st1.seg sel2 = (State.blank.withTable 7 8).seg sel2) ∧
      st1.ATOM_GlobalTable = (State.blank.withTable 7 8).ATOM_GlobalTable :=
  C33_new_entry_linked State.blank 7 [104, 101, 108, 108, 111] 8 16 (by decide) (by decide)
    (by decide) (by decide)

/-- Claim C35. When `ATOM_AddAtom` of a string that is not an integer atom finds a
matching entry `e` in the table of the segment, it returns the atom of `e` and
the only change of the state is the reference count of `e`, one more as a
`WORD`.  When `ATOM_DeleteAtom` is called for the atom of an entry linked in the
chain of its bucket whose reference count `rc` is greater than 1, it returns 0
and the only change of the state is the reference count of the entry,
`rc - 1`.  In both, no block is allocated or freed, and the bucket arrays, the
chain links, the lengths, the strings and the other reference counts are as
before. -/
theorem C35_only_refcount_changes (st : State) (sel : Nat) (s : List Nat) (hT hE e : Nat)
    (atom rc : Nat) (l : List Nat) :
    (ATOM_IsIntAtom (.str s) = none → HasTable (st.seg sel) →
      findEntry (st.seg sel) s (atomLen s) CHAIN_FUEL
        ((st.seg sel).head ((st.seg sel).hashOf s)) = some e → e ≠ 0 →
      ∃ st1, ATOM_AddAtom st sel (.str s) hT hE = some (HANDLETOATOM e, st1) ∧
        OnlyRefCount st st1 sel e ((((st.seg sel).atoms e).refCount + 1) % 65536)) ∧
    (MIN_STR_ATOM ≤ atom → HasTable (st.seg sel) →
      chainOf (st.seg sel) CHAIN_FUEL
        ((st.seg sel).head ((st.seg sel).bucketOf (ATOMTOHANDLE atom))) = some l →
      ATOMTOHANDLE atom ∈ l → ((st.seg sel).atoms (ATOMTOHANDLE atom)).refCount = rc →
      1 < rc → rc < 65536 →
      ∃ st2, ATOM_DeleteAtom st sel atom = some (0, st2) ∧
        OnlyRefCount st st2 sel (ATOMTOHANDLE atom) (rc - 1)) := by
  constructor
  · intro hint ht hfind he0
    exact ⟨_, ATOM_AddAtom_existing st sel s hT hE e hint ht hfind he0,
      onlyRefCount_setRef st sel e _⟩
  · intro hge ht hl hmem hrc h1 h2
    obtain ⟨q, hq, hr⟩ := findPrev_chain (st.seg sel) (st.seg sel).atomtable (ATOMTOHANDLE atom)
      CHAIN_FUEL (.bucket ((st.seg sel).bucketOf (ATOMTOHANDLE atom))) l hl
    rw [if_pos hmem] at hr
    have hne : ATOMTOHANDLE atom ≠ 0 := chainOf_ne_zero _ _ _ _ hl _ hmem
    have hd := ATOM_DeleteAtom_linked st sel atom q hge ht hq (by rw [hr]; exact hne)
    have hz : ¬ ((((st.seg sel).atoms (ATOMTOHANDLE atom)).refCount + 65535) % 65536 = 0) := by
      rw [hrc]; omega
    have e2 : (((st.seg sel).atoms (ATOMTOHANDLE atom)).refCount + 65535) % 65536 = rc - 1 := by
      rw [hrc]; omega
    rw [if_neg hz, e2] at hd
    exact ⟨_, hd, onlyRefCount_setRef st sel _ _⟩

/-- Witness of claim C35: in the table that holds "hello" with reference count
1, "HELLO" is interned (the count of the entry becomes 2); and in the table that
holds "a" with reference count 2, the atom 0xC004 is released. -/
theorem C35_only_refcount_changes_witness :
    (∃ st1, ATOM_AddAtom State.withHello 7 (.str [72, 69, 76, 76, 79]) 0 0
        = some (HANDLETOATOM 16, st1) ∧
      OnlyRefCount State.withHello st1 7 16 ((1 + 1) % 65536)) ∧
    (∃ st2, ATOM_DeleteAtom State.withTwoRefs 7 0xc004 = some (0, st2) ∧
      OnlyRefCount State.withTwoRefs st2 7 (ATOMTOHANDLE 0xc004) (2 - 1)) :=
  ⟨(C35_only_refcount_changes State.withHello 7 [72, 69, 76, 76, 79] 0 0 16 0 0 []).1
      (by decide) (by decide) (by decide) (by decide),
    (C35_only_refcount_changes State.withTwoRefs 7 [] 0 0 0 0xc004 2 [16]).2
      (by decide) (by decide) (by decide) (by decide) (by decide) (by decide) (by decide)⟩


/-! ## The reachable tables: placement in the buckets and termination -/

/-- On a table with its chains, `ATOM_DeleteAtom` of an atom whose entry is
linked returns 0. -/
theorem del_linked_returns_zero (st : State) (sel : Nat) (ch : Nat → List Nat) (atom b : Nat)
    (hinv : TableInv (st.seg sel) ch) (hge : MIN_STR_ATOM ≤ atom)
    (hb : b < (st.seg sel).table.size) (hmem : ATOMTOHANDLE atom ∈ ch b) :
    ∃ st2, ATOM_DeleteAtom st sel atom = some (0, st2) := by
  have hbe : (st.seg sel).bucketOf (ATOMTOHANDLE atom) = b := (hinv.2.2.1 b hb _ hmem).2.2
  subst hbe
  obtain ⟨l1, l2, hch, hn1⟩ := List.eq_append_cons_of_mem hmem
  have hlen := tableInv_length hinv _ hb
  have hchain : IsChain (st.seg sel)
      (readSlot (st.seg sel) (st.seg sel).atomtable
        (.bucket ((st.seg sel).bucketOf (ATOMTOHANDLE atom))))
      (l1 ++ ATOMTOHANDLE atom :: l2) := hch ▸ hinv.2.1 _ hb
  have hl1 : l1.length < CHAIN_FUEL := by
    have : l1.length ≤ (ch ((st.seg sel).bucketOf (ATOMTOHANDLE atom))).length := by
      rw [hch]; simp
    unfold CHAIN_FUEL; omega
  obtain ⟨hq, hr⟩ := findPrev_isChain_mem (st.seg sel) (st.seg sel).atomtable
    (ATOMTOHANDLE atom) l2 l1 CHAIN_FUEL _ hchain hn1 hl1
  have he0 : ATOMTOHANDLE atom ≠ 0 := isChain_ne_zero _ _ _ (hinv.2.1 _ hb) _ hmem
  exact ⟨_, ATOM_DeleteAtom_linked st sel atom _ hge hinv.1 hq (by rw [hr]; exact he0)⟩

/-- On a table with its chains every call of `ATOM_AddAtom` returns. -/
theorem add_returns (st : State) (sel : Nat) (ch : Nat → List Nat) (str : LPCSTR) (hT hE : Nat)
    (hinv : TableInv (st.seg sel) ch) : ∃ r, ATOM_AddAtom st sel str hT hE = some r := by
  cases hint : ATOM_IsIntAtom str with
  | some v => exact ⟨_, ATOM_AddAtom_int st sel str hT hE v hint⟩
  | none =>
    cases str with
    | atom w => simp [ATOM_IsIntAtom] at hint
    | str s =>
      have hb0 := hashOf_lt (st.seg sel) s hinv.1
      have hlen : (ch ((st.seg sel).hashOf s)).length < CHAIN_FUEL := by
        have := tableInv_length hinv _ hb0
        unfold CHAIN_FUEL; omega
      rcases findEntry_isChain (st.seg sel) s _ CHAIN_FUEL _ (hinv.2.1 _ hb0) hlen with
        ⟨e, _, he0, _, hf⟩ | ⟨_, hf⟩
      · exact ⟨_, ATOM_AddAtom_existing st sel s hT hE e hint hinv.1 hf he0⟩
      · by_cases hE0 : hE = 0
        · subst hE0
          exact ⟨_, ATOM_AddAtom_alloc_fails st sel s hT hint hinv.1 hf⟩
        · exact ⟨_, ATOM_AddAtom_new st sel s hT hE hint hinv.1 hf hE0⟩

/-- On a table with its chains every call of `ATOM_FindAtom` returns. -/
theorem find_returns (st : State) (sel : Nat) (ch : Nat → List Nat) (str : LPCSTR)
    (hinv : TableInv (st.seg sel) ch) : ∃ r, ATOM_FindAtom st sel str = some r := by
  cases hint : ATOM_IsIntAtom str with
  | some v => exact ⟨(v, st), by unfold ATOM_FindAtom; simp only [hint]⟩
  | none =>
    cases str with
    | atom w => simp [ATOM_IsIntAtom] at hint
    | str s =>
      have hb0 := hashOf_lt (st.seg sel) s hinv.1
      have hlen : (ch ((st.seg sel).hashOf s)).length < CHAIN_FUEL := by
        have := tableInv_length hinv _ hb0
        unfold CHAIN_FUEL; omega
      rcases findEntry_isChain (st.seg sel) s _ CHAIN_FUEL _ (hinv.2.1 _ hb0) hlen with
        ⟨e, _, _, _, hf⟩ | ⟨_, hf⟩
      · exact ⟨_, ATOM_FindAtom_of_hasTable st sel s e hint hinv.1 hf⟩
      · exact ⟨_, ATOM_FindAtom_of_hasTable st sel s 0 hint hinv.1 hf⟩

/-- Claim C31. From a segment with a valid table whose buckets are all empty,
every sequence of `ATOM_AddAtom` and `ATOM_DeleteAtom` calls with well-formed
arguments returns, and in the state it reaches the chain of every bucket `b`
ends and every entry linked in it satisfies
`ATOM_Hash (table size, stored string, stored length) = b`; `ATOM_DeleteAtom` of
a string atom whose entry is linked in the table returns 0, which is not the
atom. -/
theorem C31_bucket_placement (st : State) (sel : Nat) (ops : List Op)
    (he : EmptyTable (st.seg sel)) (hok : OpsOk sel ops st) :
    ∃ st1 L, runOps sel ops st = some st1 ∧ tableEntries (st1.seg sel) = some L ∧
      (∀ b, b < (st1.seg sel).table.size →
        ∃ l, chainOf (st1.seg sel) CHAIN_FUEL ((st1.seg sel).head b) = some l ∧
          ∀ e ∈ l, ATOM_Hash (st1.seg sel).table.size ((st1.seg sel).atoms e).str
            ((st1.seg sel).atoms e).length = b) ∧
      ∀ atom, MIN_STR_ATOM ≤ atom → ATOMTOHANDLE atom ∈ L →
        ∃ st2, ATOM_DeleteAtom st1 sel atom = some (0, st2) ∧ atom ≠ 0 := by
  obtain ⟨st1, ch1, hrun, hinv⟩ :=
    runOps_tableInv sel ops st _ (tableInv_of_empty _ he) hok
  obtain ⟨L, hL, hmem, _⟩ := tableEntries_of_tableInv hinv
  refine ⟨st1, L, hrun, hL, ?_, ?_⟩
  · intro b hb
    exact ⟨ch1 b, tableInv_chainOf hinv b hb, fun e he => (hinv.2.2.1 b hb e he).2.2⟩
  · intro atom hge hin
    obtain ⟨b, hb, heb⟩ := (hmem _).mp hin
    obtain ⟨st2, h2⟩ := del_linked_returns_zero st1 sel ch1 atom b hinv hge hb heb
    exact ⟨st2, h2, by unfold MIN_STR_ATOM at hge; omega⟩

/-- Witness of claim C31: in the fresh table of segment 7, "Hello" and "hello"
are interned and their atom is released twice. -/
theorem C31_bucket_placement_witness :
    ∃ st1 L, runOps 7 sampleOps State.fresh = some st1 ∧ tableEntries (st1.seg 7) = some L ∧
      (∀ b, b < (st1.seg 7).table.size →
        ∃ l, chainOf (st1.seg 7) CHAIN_FUEL ((st1.seg 7).head b) = some l ∧
          ∀ e ∈ l, ATOM_Hash (st1.seg 7).table.size ((st1.seg 7).atoms e).str
            ((st1.seg 7).atoms e).length = b) ∧
      ∀ atom, MIN_STR_ATOM ≤ atom → ATOMTOHANDLE atom ∈ L →
        ∃ st2, ATOM_DeleteAtom st1 7 atom = some (0, st2) ∧ atom ≠ 0 :=
  C31_bucket_placement State.fresh 7 sampleOps fresh_empty opsOk_sampleOps

/-- Claim C32. From a segment with a valid table whose buckets are all empty,
every sequence of `ATOM_AddAtom` and `ATOM_DeleteAtom` calls with well-formed
arguments (the arena returning fresh handles) returns, and in the state it
reaches the chain of every bucket ends and holds no entry twice, every entry
of the table is linked in the chain of exactly one bucket and occurs once in
the table, and every call of `ATOM_AddAtom`, `ATOM_FindAtom` and `ATOM_DeleteAtom`
returns (the walks end). -/
theorem C32_chains_well_formed (st : State) (sel : Nat) (ops : List Op)
    (he : EmptyTable (st.seg sel)) (hok : OpsOk sel ops st) :
    ∃ st1 L, runOps sel ops st = some st1 ∧ tableEntries (st1.seg sel) = some L ∧ L.Nodup ∧
      (∀ b, b < (st1.seg sel).table.size →
        ∃ l, chainOf (st1.seg sel) CHAIN_FUEL ((st1.seg sel).head b) = some l ∧ l.Nodup ∧
          ∀ e ∈ l, e ∈ L) ∧
      (∀ e ∈ L, ∃! b, b < (st1.seg sel).table.size ∧
        ∃ l, chainOf (st1.seg sel) CHAIN_FUEL ((st1.seg sel).head b) = some l ∧ e ∈ l) ∧
      (∀ str hT hE, ∃ r, ATOM_AddAtom st1 sel str hT hE = some r) ∧
      (∀ str, ∃ r, ATOM_FindAtom st1 sel str = some r) ∧
      (∀ atom, ∃ r, ATOM_DeleteAtom st1 sel atom = some r) := by
  obtain ⟨st1, ch1, hrun, hinv⟩ :=
    runOps_tableInv sel ops st _ (tableInv_of_empty _ he) hok
  obtain ⟨L, hL, hmem, hpw⟩ := tableEntries_of_tableInv hinv
  have hnd : L.Nodup := by
    unfold List.Nodup
    refine List.Pairwise.imp ?_ hpw
    intro e1 e2 hn heq
    exact hn (heq ▸ sameName_refl (st1.seg sel) e1)
  refine ⟨st1, L, hrun, hL, hnd, ?_, ?_, ?_, ?_, ?_⟩
  · intro b hb
    exact ⟨ch1 b, tableInv_chainOf hinv b hb, tableInv_nodup hinv b hb,
      fun e he => (hmem e).mpr ⟨b, hb, he⟩⟩
  · intro e heL
    obtain ⟨b, hb, heb⟩ := (hmem e).mp heL
    refine ⟨b, ⟨hb, ch1 b, tableInv_chainOf hinv b hb, heb⟩, ?_⟩
    rintro c ⟨hc, l, hl, hel⟩
    rw [tableInv_chainOf hinv c hc] at hl
    have hlc : ch1 c = l := Option.some.inj hl
    exact tableInv_disjoint hinv c b e hc hb (hlc ▸ hel) heb
  · intro str hT hE
    exact add_returns st1 sel ch1 str hT hE hinv
  · intro str
    exact find_returns st1 sel ch1 str hinv
  · intro atom
    obtain ⟨r, _, hr, _⟩ := del_step st1 sel ch1 atom hinv
    exact ⟨r, hr⟩

/-- Witness of claim C32: in the fresh table of segment 7, "Hello" and "hello"
are interned and their atom is released twice. -/
theorem C32_chains_well_formed_witness :
    ∃ st1 L, runOps 7 sampleOps State.fresh = some st1 ∧ tableEntries (st1.seg 7) = some L ∧
      L.Nodup ∧
      (∀ b, b < (st1.seg 7).table.size →
        ∃ l, chainOf (st1.seg 7) CHAIN_FUEL ((st1.seg 7).head b) = some l ∧ l.Nodup ∧
          ∀ e ∈ l, e ∈ L) ∧
      (∀ e ∈ L, ∃! b, b < (st1.seg 7).table.size ∧
        ∃ l, chainOf (st1.seg 7) CHAIN_FUEL ((st1.seg 7).head b) = some l ∧ e ∈ l) ∧
      (∀ str hT hE, ∃ r, ATOM_AddAtom st1 7 str hT hE = some r) ∧
      (∀ str, ∃ r, ATOM_FindAtom st1 7 str = some r) ∧
      (∀ atom, ∃ r, ATOM_DeleteAtom st1 7 atom = some r) :=
  C32_chains_well_formed State.fresh 7 sampleOps fresh_empty opsOk_sampleOps


/-! ## Lemmas: the first match of a walk -/

/-- The walk for a string over a chain ends with the first entry that matches. -/
theorem findEntry_first (seg : Segment) (u : List Nat) (x : Nat) (l2 : List Nat) :
    ∀ (l1 : List Nat) (n h : Nat), IsChain seg h (l1 ++ x :: l2) →
    (∀ y ∈ l1, ¬ seg.isMatch u y) → seg.isMatch u x → l1.length < n →
    findEntry seg u (atomLen u) n h = some x := by
  intro l1
  induction l1 with
  | nil =>
    intro n h hc _ hm hn
    obtain ⟨k, rfl⟩ : ∃ k, n = k + 1 := ⟨n - 1, by omega⟩
    obtain ⟨h0, hx, _⟩ := hc
    subst hx
    exact findEntry_hit _ _ _ _ h0 hm
  | cons y l1 ih =>
    intro n h hc hno hm hn
    obtain ⟨k, rfl⟩ : ∃ k, n = k + 1 := ⟨n - 1, by omega⟩
    obtain ⟨h0, hy, hr⟩ := hc
    subst hy
    rw [findEntry_miss _ _ _ _ h0 (hno y (List.mem_cons_self _ _))]
    exact ih k _ hr (fun z hz => hno z (List.mem_cons_of_mem _ hz)) hm (by simpa using hn)

/-- What the walk for a string over a chain ends with: 0 when no entry of the
chain matches, the first entry that matches otherwise. -/
theorem findEntry_split (seg : Segment) (u : List Nat) : ∀ (l : List Nat) (n h x : Nat),
    IsChain seg h l → l.length < n → findEntry seg u (atomLen u) n h = some x →
    (x = 0 ∧ ∀ y ∈ l, ¬ seg.isMatch u y) ∨
    (∃ l1 l2, l = l1 ++ x :: l2 ∧ (∀ y ∈ l1, ¬ seg.isMatch u y) ∧ seg.isMatch u x) := by
  intro l
  induction l with
  | nil =>
    intro n h x hc hn hf
    obtain ⟨k, rfl⟩ : ∃ k, n = k + 1 := ⟨n - 1, by omega⟩
    have h0 : h = 0 := hc
    rw [h0, findEntry_null] at hf
    exact Or.inl ⟨(Option.some.inj hf).symm, fun y hy => by simp at hy⟩
  | cons y l ih =>
    intro n h x hc hn hf
    obtain ⟨k, rfl⟩ : ∃ k, n = k + 1 := ⟨n - 1, by omega⟩
    obtain ⟨h0, hy, hr⟩ := hc
    subst hy
    by_cases hm : seg.isMatch u y
    · rw [findEntry_hit _ _ _ _ h0 hm] at hf
      have hx : y = x := Option.some.inj hf
      subst hx
      exact Or.inr ⟨[], l, rfl, fun z hz => by simp at hz, hm⟩
    · rw [findEntry_miss _ _ _ _ h0 hm] at hf
      rcases ih k _ x hr (by simpa using hn) hf with ⟨hx, hall⟩ | ⟨l1, l2, hl, hno, hmx⟩
      · left
        refine ⟨hx, ?_⟩
        intro z hz
        rcases List.mem_cons.mp hz with rfl | hz'
        · exact hm
        · exact hall z hz'
      · right
        refine ⟨y :: l1, l2, by rw [hl]; rfl, ?_, hmx⟩
        intro z hz
        rcases List.mem_cons.mp hz with rfl | hz'
        · exact hm
        · exact hno z hz'

/-- A list without one of its entries, split at another entry. -/
theorem split_without (l L1 L2 m1 m2 : List Nat) (e x : Nat) (h1 : l = L1 ++ e :: L2)
    (hnd : l.Nodup) (h2 : l = m1 ++ x :: m2) (hx : x ≠ e) :
    ∃ n1 n2, L1 ++ L2 = n1 ++ x :: n2 ∧ ∀ y ∈ n1, y ∈ m1 := by
  have hnd1 : (L1 ++ e :: L2).Nodup := h1 ▸ hnd
  have hmid := List.nodup_middle.mp hnd1
  have he12 : e ∉ L1 ++ L2 := (List.nodup_cons.mp hmid).1
  have hF : (L1 ++ e :: L2).filter (fun y => decide (y ≠ e)) = L1 ++ L2 := by
    rw [List.filter_append, List.filter_cons_of_neg (by simp), ← List.filter_append]
    rw [List.filter_eq_self]
    intro a ha
    simp only [ne_eq, decide_not, Bool.not_eq_true', decide_eq_false_iff_not]
    rintro rfl
    exact he12 ha
  rw [← hF, ← h1, h2, List.filter_append, List.filter_cons_of_pos (by simpa using hx)]
  exact ⟨_, _, rfl, fun y hy => (List.mem_filter.mp hy).1⟩

theorem isMatch_of_atoms (seg seg1 : Segment) (u : List Nat) (x : Nat)
    (hs : (seg1.atoms x).str = (seg.atoms x).str)
    (hl : (seg1.atoms x).length = (seg.atoms x).length) :
    seg1.isMatch u x ↔ seg.isMatch u x := by
  unfold Segment.isMatch
  rw [hs, hl]

/-- Two entries that match the same C string in the walk have the same name. -/
theorem sameName_of_isMatch (seg : Segment) (s : List Nat) (e1 e2 : Nat) (hs : IsCStr s)
    (h1 : seg.isMatch s e1) (h2 : seg.isMatch s e2) : seg.sameName e1 e2 := by
  have a1 := holds_of_isMatch seg s e1 hs h1
  have a2 := holds_of_isMatch seg s e2 hs h2
  refine ⟨by rw [a1.1, a2.1], ?_⟩
  apply ciEq_of_ciUpTo
  · unfold ATOMENTRY.stored
    rw [memcpy_length, memcpy_length, a1.1, a2.1]
  · intro i hi
    unfold ATOMENTRY.stored at hi ⊢
    rw [memcpy_length] at hi
    rw [byteAt_memcpy _ _ _ hi, byteAt_memcpy _ _ _ (by rw [a2.1, ← a1.1]; exact hi),
      a1.2 i (by rw [← a1.1]; exact hi), a2.2 i (by rw [← a1.1]; exact hi)]

/-- An entry that matches a C string in the walk is in the bucket of the
string. -/
theorem bucketOf_of_isMatch (seg : Segment) (s : List Nat) (e : Nat) (hs : IsCStr s)
    (h : seg.isMatch s e) : seg.bucketOf e = seg.hashOf s := by
  have a := holds_of_isMatch seg s e hs h
  unfold Segment.bucketOf Segment.hashOf
  rw [a.1]
  exact ATOM_Hash_congr _ _ _ _ a.2

theorem sameName_symm (seg : Segment) (e1 e2 : Nat) (h : seg.sameName e1 e2) :
    seg.sameName e2 e1 := ⟨h.1.symm, h.2.symm⟩

/-- In a table with its chains no two different entries of a chain have the
same name. -/
theorem tableInv_not_sameName {seg : Segment} {ch : Nat → List Nat} (hinv : TableInv seg ch)
    (b : Nat) (hb : b < seg.table.size) (x y : Nat) (hx : x ∈ ch b) (hy : y ∈ ch b)
    (hxy : x ≠ y) : ¬ seg.sameName x y := by
  have hsym : Symmetric (fun e1 e2 => ¬ seg.sameName e1 e2) :=
    fun a c h hs => h (sameName_symm seg c a hs)
  exact List.Pairwise.forall hsym (hinv.2.2.2 b hb) hx hy hxy


/-! ## Lemmas: lookups in a table with its chains -/

theorem tableInv_fuel {seg : Segment} {ch : Nat → List Nat} (hinv : TableInv seg ch)
    (b : Nat) (hb : b < seg.table.size) : (ch b).length < CHAIN_FUEL := by
  have := tableInv_length hinv b hb
  unfold CHAIN_FUEL; omega

theorem find_first {seg : Segment} {ch : Nat → List Nat} (hinv : TableInv seg ch)
    (t : List Nat) (m1 m2 : List Nat) (x : Nat) (hch : ch (seg.hashOf t) = m1 ++ x :: m2)
    (hno : ∀ y ∈ m1, ¬ seg.isMatch t y) (hm : seg.isMatch t x) :
    findEntry seg t (atomLen t) CHAIN_FUEL (seg.head (seg.hashOf t)) = some x := by
  have hb := hashOf_lt seg t hinv.1
  have hlen := tableInv_fuel hinv _ hb
  refine findEntry_first seg t x m2 m1 CHAIN_FUEL _ (hch ▸ hinv.2.1 _ hb) hno hm ?_
  rw [hch] at hlen
  simp only [List.length_append, List.length_cons] at hlen
  omega

theorem find_none {seg : Segment} {ch : Nat → List Nat} (hinv : TableInv seg ch)
    (t : List Nat) (hno : ∀ y ∈ ch (seg.hashOf t), ¬ seg.isMatch t y) :
    findEntry seg t (atomLen t) CHAIN_FUEL (seg.head (seg.hashOf t)) = some 0 := by
  have hb := hashOf_lt seg t hinv.1
  rcases findEntry_isChain seg t _ CHAIN_FUEL _ (hinv.2.1 _ hb) (tableInv_fuel hinv _ hb) with
    ⟨e, he, _, hm, _⟩ | ⟨_, hf⟩
  · exact absurd hm (hno e he)
  · exact hf

theorem find_spec {seg : Segment} {ch : Nat → List Nat} (hinv : TableInv seg ch)
    (t : List Nat) :
    ∃ x, findEntry seg t (atomLen t) CHAIN_FUEL (seg.head (seg.hashOf t)) = some x ∧
      ((x = 0 ∧ ∀ y ∈ ch (seg.hashOf t), ¬ seg.isMatch t y) ∨
       (x ≠ 0 ∧ ∃ m1 m2, ch (seg.hashOf t) = m1 ++ x :: m2 ∧
         (∀ y ∈ m1, ¬ seg.isMatch t y) ∧ seg.isMatch t x)) := by
  have hb := hashOf_lt seg t hinv.1
  have hlen := tableInv_fuel hinv _ hb
  rcases findEntry_isChain seg t _ CHAIN_FUEL _ (hinv.2.1 _ hb) hlen with
    ⟨e, _, _, _, hf⟩ | ⟨_, hf⟩
  · refine ⟨e, hf, ?_⟩
    rcases findEntry_split seg t _ CHAIN_FUEL _ e (hinv.2.1 _ hb) hlen hf with h | ⟨m1, m2, h⟩
    · exact Or.inl h
    · refine Or.inr ⟨?_, m1, m2, h⟩
      apply isChain_ne_zero seg _ _ (hinv.2.1 _ hb)
      rw [h.1]; simp
  · refine ⟨0, hf, ?_⟩
    rcases findEntry_split seg t _ CHAIN_FUEL _ 0 (hinv.2.1 _ hb) hlen hf with h | ⟨m1, m2, h⟩
    · exact Or.inl h
    · exfalso
      have : (0 : Nat) ∈ ch (seg.hashOf t) := by rw [h.1]; simp
      exact isChain_ne_zero seg _ _ (hinv.2.1 _ hb) 0 this rfl

/-- The release of the last reference of a linked entry: what `ATOM_DeleteAtom`
returns, and the chains after it. -/
theorem del_last (st : State) (sel : Nat) (ch : Nat → List Nat) (atom b : Nat)
    (hinv : TableInv (st.seg sel) ch) (hge : MIN_STR_ATOM ≤ atom)
    (hb : b < (st.seg sel).table.size) (hmem : ATOMTOHANDLE atom ∈ ch b)
    (hrc : (((st.seg sel).atoms (ATOMTOHANDLE atom)).refCount + 65535) % 65536 = 0) :
    ∃ l1 l2, ch b = l1 ++ ATOMTOHANDLE atom :: l2 ∧ ATOMTOHANDLE atom ∉ l1 ∧
      ATOM_DeleteAtom st sel atom
        = some (0, st.setSeg sel (LOCAL_Free (writeSlot
            ((st.seg sel).setRef (ATOMTOHANDLE atom) 0) (st.seg sel).atomtable
            ((st.seg sel).atoms (ATOMTOHANDLE atom)).next (prevSlot (.bucket b) l1))
            (ATOMTOHANDLE atom))) := by
  have hbe : (st.seg sel).bucketOf (ATOMTOHANDLE atom) = b := (hinv.2.2.1 b hb _ hmem).2.2
  subst hbe
  obtain ⟨l1, l2, hch, hn1⟩ := List.eq_append_cons_of_mem hmem
  have hlen := tableInv_fuel hinv _ hb
  have hchain : IsChain (st.seg sel)
      (readSlot (st.seg sel) (st.seg sel).atomtable
        (.bucket ((st.seg sel).bucketOf (ATOMTOHANDLE atom))))
      (l1 ++ ATOMTOHANDLE atom :: l2) := hch ▸ hinv.2.1 _ hb
  have hl1 : l1.length < CHAIN_FUEL := by
    rw [hch] at hlen
    simp only [List.length_append, List.length_cons] at hlen
    omega
  obtain ⟨hq, hr⟩ := findPrev_isChain_mem (st.seg sel) (st.seg sel).atomtable
    (ATOMTOHANDLE atom) l2 l1 CHAIN_FUEL _ hchain hn1 hl1
  have he0 : ATOMTOHANDLE atom ≠ 0 := isChain_ne_zero _ _ _ (hinv.2.1 _ hb) _ hmem
  have hd := ATOM_DeleteAtom_linked st sel atom _ hge hinv.1 hq (by rw [hr]; exact he0)
  rw [if_pos hrc] at hd
  exact ⟨l1, l2, hch, hn1, hd⟩


/-- Claim C34. In a table with its chains (each entry in the bucket its stored
string hashes to, no two entries with the same name), when `ATOM_DeleteAtom` is
called for the atom of an entry `e` linked in bucket `b` whose reference count
is 1, it returns 0; the chain of `b` becomes the former chain without `e`, the
other entries in their order; the other buckets and their chains are as
before; every other entry keeps its reference count, length, string and block,
and its `next` unless it is the entry before `e` in the chain; the block of
`e` is freed; `ATOM_FindAtom` of a C string that `e` matched returns 0; and
`ATOM_FindAtom` of every string for which it returned another atom (or 0) before
returns the same as before. -/
theorem C34_last_release_unlinks (st : State) (sel : Nat) (ch : Nat → List Nat) (atom b : Nat)
    (hinv : TableInv (st.seg sel) ch) (hge : MIN_STR_ATOM ≤ atom) (hlt : atom < 65536)
    (hb : b < (st.seg sel).table.size) (hmem : ATOMTOHANDLE atom ∈ ch b)
    (hrc : ((st.seg sel).atoms (ATOMTOHANDLE atom)).refCount = 1) :
    ∃ st1 l1 l2, ATOM_DeleteAtom st sel atom = some (0, st1) ∧
      ch b = l1 ++ ATOMTOHANDLE atom :: l2 ∧
      chainOf (st1.seg sel) CHAIN_FUEL ((st1.seg sel).head b) = some (l1 ++ l2) ∧
      (st1.seg sel).table.size = (st.seg sel).table.size ∧
      (∀ c, c < (st.seg sel).table.size → c ≠ b →
        (st1.seg sel).head c = (st.seg sel).head c ∧
        chainOf (st1.seg sel) CHAIN_FUEL ((st1.seg sel).head c) = some (ch c)) ∧
      (∀ x, x ≠ ATOMTOHANDLE atom →
        ((st1.seg sel).atoms x).refCount = ((st.seg sel).atoms x).refCount ∧
        ((st1.seg sel).atoms x).length = ((st.seg sel).atoms x).length ∧
        ((st1.seg sel).atoms x).str = ((st.seg sel).atoms x).str ∧
        (st1.seg sel).arena x = (st.seg sel).arena x ∧
        (l1.getLast? ≠ some x →
          ((st1.seg sel).atoms x).next = ((st.seg sel).atoms x).next)) ∧
      (st1.seg sel).arena (ATOMTOHANDLE atom) = none ∧
      (∀ sel2, sel2 ≠ sel → st1.seg sel2 = st.seg sel2) ∧
      (∀ s, IsCStr s → ATOM_IsIntAtom (.str s) = none →
        (st.seg sel).isMatch s (ATOMTOHANDLE atom) →
        ATOM_FindAtom st1 sel (.str s) = some (0, st1)) ∧
      (∀ t a, ATOM_FindAtom st sel (.str t) = some (a, st) → a ≠ atom →
        ATOM_FindAtom st1 sel (.str t) = some (a, st1)) := by
  obtain ⟨l1, l2, hch, hn1, hd⟩ := del_last st sel ch atom b hinv hge hb hmem
    (by rw [hrc])
  obtain ⟨f1, f2, f3, f4, f5, f6, f7⟩ := unlink_facts (st.seg sel) (ATOMTOHANDLE atom) b l1
    hinv.1 _ rfl
  have hinv1 := tableInv_unlink (st.seg sel) ch (ATOMTOHANDLE atom) b l1 l2 hinv hb hch _ rfl
  have hb1 : b < (LOCAL_Free (writeSlot ((st.seg sel).setRef (ATOMTOHANDLE atom) 0)
      (st.seg sel).atomtable ((st.seg sel).atoms (ATOMTOHANDLE atom)).next
      (prevSlot (.bucket b) l1)) (ATOMTOHANDLE atom)).table.size := by rw [f2]; exact hb
  have hnd : (l1 ++ ATOMTOHANDLE atom :: l2).Nodup := hch ▸ tableInv_nodup hinv b hb
  have hsub : ∀ y, y ∈ l1 ++ l2 → y ∈ ch b ∧ y ≠ ATOMTOHANDLE atom := by
    intro y hy
    refine ⟨?_, ?_⟩
    · rw [hch]
      rcases List.mem_append.mp hy with h | h
      · exact List.mem_append_left _ h
      · exact List.mem_append_right _ (List.mem_cons_of_mem _ h)
    · rintro rfl
      exact (List.nodup_cons.mp (List.nodup_middle.mp hnd)).1 hy
  have hmatch : ∀ u x, (LOCAL_Free (writeSlot ((st.seg sel).setRef (ATOMTOHANDLE atom) 0)
      (st.seg sel).atomtable ((st.seg sel).atoms (ATOMTOHANDLE atom)).next
      (prevSlot (.bucket b) l1)) (ATOMTOHANDLE atom)).isMatch u x ↔ (st.seg sel).isMatch u x :=
    fun u x => isMatch_of_atoms _ _ u x (f5 x).1 (f5 x).2.1
  have hhash : ∀ u, (LOCAL_Free (writeSlot ((st.seg sel).setRef (ATOMTOHANDLE atom) 0)
      (st.seg sel).atomtable ((st.seg sel).atoms (ATOMTOHANDLE atom)).next
      (prevSlot (.bucket b) l1)) (ATOMTOHANDLE atom)).hashOf u = (st.seg sel).hashOf u := by
    intro u
    unfold Segment.hashOf
    rw [f2]
  refine ⟨_, l1, l2, hd, hch, ?_, ?_, ?_, ?_, ?_, ?_, ?_, ?_⟩
  · rw [setSeg_seg_same]
    have := tableInv_chainOf hinv1 b hb1
    rw [Function.update_same] at this
    exact this
  · rw [setSeg_seg_same]; exact f2
  · intro c hc hcb
    rw [setSeg_seg_same]
    have := tableInv_chainOf hinv1 c (by rw [f2]; exact hc)
    rw [Function.update_noteq hcb] at this
    exact ⟨f3 c hcb, this⟩
  · intro x hx
    rw [setSeg_seg_same]
    refine ⟨(f5 x).2.2.1 hx, (f5 x).2.1, (f5 x).1, f6 x hx, ?_⟩
    intro hl
    rw [(f5 x).2.2.2, if_neg hl]
  · rw [setSeg_seg_same]; exact f7
  · intro sel2 h2
    exact setSeg_seg_ne st sel sel2 _ h2
  · intro s hs hint hm
    have hbs : (st.seg sel).hashOf s = b := by
      rw [← bucketOf_of_isMatch _ s _ hs hm]
      exact (hinv.2.2.1 b hb _ hmem).2.2
    have hnone := find_none hinv1 s (by
      intro y hy
      rw [hhash, hbs, Function.update_same] at hy
      obtain ⟨hyb, hye⟩ := hsub y hy
      intro hmy
      exact tableInv_not_sameName hinv b hb y _ hyb hmem hye
        (sameName_of_isMatch _ s y _ hs ((hmatch s y).mp hmy) hm))
    have := ATOM_FindAtom_of_hasTable (st.setSeg sel _) sel s 0 hint
      (by rw [setSeg_seg_same]; exact f1) (by rw [setSeg_seg_same]; exact hnone)
    rw [this]
    rfl
  · intro t a hfa hne
    cases hint : ATOM_IsIntAtom (.str t) with
    | some v =>
      have e1 : ATOM_FindAtom st sel (.str t) = some (v, st) := by
        unfold ATOM_FindAtom; simp only [hint]
      rw [e1] at hfa
      have hav : v = a := (Prod.mk.inj (Option.some.inj hfa)).1
      subst hav
      unfold ATOM_FindAtom; simp only [hint]
    | none =>
      obtain ⟨x, hfx, hspec⟩ := find_spec hinv t
      rw [ATOM_FindAtom_of_hasTable st sel t x hint hinv.1 hfx] at hfa
      have hax : (if x = 0 then 0 else HANDLETOATOM x) = a :=
        (Prod.mk.inj (Option.some.inj hfa)).1
      have hc := hashOf_lt (st.seg sel) t hinv.1
      have hfx1 : findEntry (LOCAL_Free (writeSlot ((st.seg sel).setRef (ATOMTOHANDLE atom) 0)
          (st.seg sel).atomtable ((st.seg sel).atoms (ATOMTOHANDLE atom)).next
          (prevSlot (.bucket b) l1)) (ATOMTOHANDLE atom)) t (atomLen t) CHAIN_FUEL
          ((LOCAL_Free (writeSlot ((st.seg sel).setRef (ATOMTOHANDLE atom) 0)
            (st.seg sel).atomtable ((st.seg sel).atoms (ATOMTOHANDLE atom)).next
            (prevSlot (.bucket b) l1)) (ATOMTOHANDLE atom)).head
            ((LOCAL_Free (writeSlot ((st.seg sel).setRef (ATOMTOHANDLE atom) 0)
              (st.seg sel).atomtable ((st.seg sel).atoms (ATOMTOHANDLE atom)).next
              (prevSlot (.bucket b) l1)) (ATOMTOHANDLE atom)).hashOf t)) = some x := by
        rcases hspec with ⟨hx0, hall⟩ | ⟨hx0, m1, m2, hm12, hno, hmx⟩
        · rw [hx0]
          apply find_none hinv1 t
          intro y hy hmy
          rw [hhash] at hy
          have hyc : y ∈ ch ((st.seg sel).hashOf t) := by
            by_cases hcb : (st.seg sel).hashOf t = b
            · rw [hcb, Function.update_same] at hy
              rw [hcb]; exact (hsub y hy).1
            · rw [Function.update_noteq hcb] at hy; exact hy
          exact hall y hyc ((hmatch t y).mp hmy)
        · have hxe : x ≠ ATOMTOHANDLE atom := by
            intro hxe
            apply hne
            rw [← hax, if_neg hx0, hxe]
            exact HANDLETOATOM_ATOMTOHANDLE atom hge hlt
          by_cases hcb : (st.seg sel).hashOf t = b
          · obtain ⟨n1, n2, hsp, hn1m⟩ := split_without (ch b) l1 l2 m1 m2 (ATOMTOHANDLE atom) x
              hch (tableInv_nodup hinv b hb) (hcb ▸ hm12) hxe
            refine find_first hinv1 t n1 n2 x ?_ ?_ ((hmatch t x).mpr hmx)
            · rw [hhash, hcb, Function.update_same]; exact hsp
            · intro y hy hmy
              exact hno y (hn1m y hy) ((hmatch t y).mp hmy)
          · refine find_first hinv1 t m1 m2 x ?_ ?_ ((hmatch t x).mpr hmx)
            · rw [hhash, Function.update_noteq hcb]; exact hm12
            · intro y hy hmy
              exact hno y hy ((hmatch t y).mp hmy)
      have := ATOM_FindAtom_of_hasTable (st.setSeg sel _) sel t x hint
        (by rw [setSeg_seg_same]; exact f1) (by rw [setSeg_seg_same]; exact hfx1)
      rw [this, hax]


theorem withHello_eq :
    State.withHello
      = State.fresh.setSeg 7 ((State.fresh.seg 7).link [104, 101, 108, 108, 111] 16) := by
  have hadd := ATOM_AddAtom_new State.fresh 7 [104, 101, 108, 108, 111] 0 16 (by decide)
    fresh_empty.1
    (by rw [head_hashOf_of_emptyTable _ fresh_empty, CHAIN_FUEL_eq, findEntry_null])
    (by decide)
  unfold State.withHello
  rw [hadd]

/-- The chains of the table that holds "hello": the entry at handle 16 alone in
the bucket of "hello". -/
theorem tableInv_withHello :
    TableInv (State.withHello.seg 7)
      (Function.update (fun _ => []) ((State.fresh.seg 7).hashOf [104, 101, 108, 108, 111])
        [16]) := by
  rw [withHello_eq, setSeg_seg_same]
  exact tableInv_link (State.fresh.seg 7) (fun _ => []) [104, 101, 108, 108, 111] 16
    (tableInv_of_empty _ fresh_empty) (by decide) (fun x hx => by simp at hx)

/-- Witness of claim C34: the atom 0xC004 of "hello", the only entry of the
table, with reference count 1, is released; the lookup of "HELLO" then returns
0 and the lookup of "world" returns 0 as before. -/
theorem C34_last_release_unlinks_witness :
    ∃ st1, ATOM_DeleteAtom State.withHello 7 0xc004 = some (0, st1) ∧
      chainOf (st1.seg 7) CHAIN_FUEL
        ((st1.seg 7).head ((State.fresh.seg 7).hashOf [104, 101, 108, 108, 111])) = some [] ∧
      (st1.seg 7).arena (ATOMTOHANDLE 0xc004) = none ∧
      ATOM_FindAtom st1 7 (.str [72, 69, 76, 76, 79]) = some (0, st1) ∧
      ATOM_FindAtom st1 7 (.str [119, 111, 114, 108, 100]) = some (0, st1) := by
  obtain ⟨st1, l1, l2, h1, h2, h3, _, _, _, h7, _, h9, h10⟩ :=
    C34_last_release_unlinks State.withHello 7 _ 0xc004
      ((State.fresh.seg 7).hashOf [104, 101, 108, 108, 111]) tableInv_withHello (by decide)
      (by decide) (by decide) (by decide) (by decide)
  have hl : l1 = [] ∧ l2 = [] := by
    rw [Function.update_same] at h2
    have e16 : ATOMTOHANDLE 0xc004 = 16 := by decide
    rw [e16] at h2
    cases l1 with
    | nil =>
      simp only [List.nil_append, List.cons.injEq, true_and] at h2
      exact ⟨rfl, h2.symm⟩
    | cons y l1 =>
      have := congrArg List.length h2
      simp only [List.length_cons, List.length_append, List.length_nil] at this
      omega
  rw [hl.1, hl.2] at h3
  refine ⟨st1, h1, h3, h7, ?_, ?_⟩
  · exact h9 [72, 69, 76, 76, 79] (by decide) (by decide) (by unfold Segment.isMatch; decide)
  · exact h10 [119, 111, 114, 108, 100] 0
      (ATOM_FindAtom_of_hasTable State.withHello 7 _ 0 (by decide) (by decide) (by decide))
      (by decide)


/-! ## Intern followed by release -/

theorem setSeg_self (st : State) (sel : Nat) : st.setSeg sel (st.seg sel) = st := by
  unfold State.setSeg
  rw [Function.update_eq_self]

/-- The segment after a new entry for `s` is linked at a free handle and
unlinked again: the registered table, the tables, the arena and every other
entry are as before. -/
theorem unlink_frame (seg : Segment) (s : List Nat) (h : Nat) (hf : seg.arena h = none) :
    (seg.unlink s h).atomtable = seg.atomtable ∧ (seg.unlink s h).tables = seg.tables ∧
    (seg.unlink s h).arena = seg.arena ∧ ∀ x, x ≠ h → (seg.unlink s h).atoms x = seg.atoms x := by
  refine ⟨rfl, ?_, ?_, ?_⟩
  · funext t
    simp only [Segment.unlink, LOCAL_Free, writeSlot, Segment.setRef, Segment.link,
      Segment.head, Segment.table, Function.update_same, Function.update_idem]
    by_cases ht : t = seg.atomtable
    · subst ht
      rw [Function.update_same, Function.update_eq_self]
    · rw [Function.update_noteq ht]
  · funext x
    simp only [Segment.unlink, LOCAL_Free, writeSlot, Segment.setRef, Segment.link]
    by_cases hx : x = h
    · subst hx; rw [Function.update_same, hf]
    · rw [Function.update_noteq hx, Function.update_noteq hx]
  · intro x hx
    simp only [Segment.unlink, LOCAL_Free, writeSlot, Segment.setRef, Segment.link]
    rw [Function.update_noteq hx, Function.update_noteq hx]

/-- The full result of `ATOM_DeleteAtom` for the atom of an entry linked in a
table with its chains. -/
theorem del_linked_eq (st : State) (sel : Nat) (ch : Nat → List Nat) (e b : Nat)
    (hinv : TableInv (st.seg sel) ch) (hb : b < (st.seg sel).table.size) (hmem : e ∈ ch b)
    (hz : (((st.seg sel).atoms e).refCount + 65535) % 65536 ≠ 0) :
    ATOM_DeleteAtom st sel (HANDLETOATOM e)
      = some (0, st.setSeg sel
          ((st.seg sel).setRef e ((((st.seg sel).atoms e).refCount + 65535) % 65536))) := by
  have hh := (hinv.2.2.1 b hb e hmem).1
  have hae : ATOMTOHANDLE (HANDLETOATOM e) = e := ATOMTOHANDLE_HANDLETOATOM e hh.1 hh.2
  have hge : MIN_STR_ATOM ≤ HANDLETOATOM e := HANDLETOATOM_ge e
  have hbe : (st.seg sel).bucketOf e = b := (hinv.2.2.1 b hb e hmem).2.2
  subst hbe
  obtain ⟨l1, l2, hch, hn1⟩ := List.eq_append_cons_of_mem hmem
  have hlen := tableInv_fuel hinv _ hb
  have hchain : IsChain (st.seg sel)
      (readSlot (st.seg sel) (st.seg sel).atomtable (.bucket ((st.seg sel).bucketOf e)))
      (l1 ++ e :: l2) := hch ▸ hinv.2.1 _ hb
  have hl1 : l1.length < CHAIN_FUEL := by
    rw [hch] at hlen
    simp only [List.length_append, List.length_cons] at hlen
    omega
  obtain ⟨hq, hr⟩ := findPrev_isChain_mem (st.seg sel) (st.seg sel).atomtable e l2 l1
    CHAIN_FUEL _ hchain hn1 hl1
  have he0 : e ≠ 0 := isChain_ne_zero _ _ _ (hinv.2.1 _ hb) _ hmem
  have hd := ATOM_DeleteAtom_linked st sel (HANDLETOATOM e) (prevSlot (.bucket
    ((st.seg sel).bucketOf e)) l1) hge hinv.1 (by rw [hae]; exact hq)
    (by rw [hr]; exact he0)
  rw [hae, if_neg hz] at hd
  exact hd

/-- Claim C36. In a table with its chains whose entries have reference counts
from 1 to 65535, for every string `s` that is not an integer atom: if
`ATOM_AddAtom` of `s` returns an atom `a` other than 0 (the arena returning a
free handle for a new entry), then `ATOM_DeleteAtom` of `a` returns 0, and after
it the global table designation, the other segments, the registered table,
the tables (the bucket arrays), the arena, every allocated block (the entries
with their `next`, reference count, length and string) and the chains are as
before the call of `ATOM_AddAtom`. -/
theorem C36_intern_release_identity (st : State) (sel : Nat) (ch : Nat → List Nat)
    (s : List Nat) (hT hE a : Nat) (st1 : State)
    (hinv : TableInv (st.seg sel) ch)
    (hrc : ∀ b, b < (st.seg sel).table.size → ∀ e ∈ ch b,
      1 ≤ ((st.seg sel).atoms e).refCount ∧ ((st.seg sel).atoms e).refCount < 65536)
    (hint : ATOM_IsIntAtom (.str s) = none)
    (hok : hE = 0 ∨ FreshHandle (st.seg sel) hE)
    (hadd : ATOM_AddAtom st sel (.str s) hT hE = some (a, st1)) (ha : a ≠ 0) :
    ∃ st2, ATOM_DeleteAtom st1 sel a = some (0, st2) ∧
      st2.ATOM_GlobalTable = st.ATOM_GlobalTable ∧
      (∀ sel2, sel2 ≠ sel → st2.seg sel2 = st.seg sel2) ∧
      (st2.seg sel).atomtable = (st.seg sel).atomtable ∧
      (st2.seg sel).tables = (st.seg sel).tables ∧
      (st2.seg sel).arena = (st.seg sel).arena ∧
      (∀ x, (st.seg sel).arena x ≠ none → (st2.seg sel).atoms x = (st.seg sel).atoms x) ∧
      TableInv (st2.seg sel) ch := by
  obtain ⟨x, hfx, hspec⟩ := find_spec hinv s
  have hb := hashOf_lt (st.seg sel) s hinv.1
  rcases hspec with ⟨hx0, _⟩ | ⟨hx0, m1, m2, hm12, _, _⟩
  · subst hx0
    rcases hok with rfl | hfresh
    · rw [ATOM_AddAtom_alloc_fails st sel s hT hint hinv.1 hfx] at hadd
      exact absurd (Prod.mk.inj (Option.some.inj hadd)).1.symm ha
    · rw [ATOM_AddAtom_new st sel s hT hE hint hinv.1 hfx hfresh.1] at hadd
      obtain ⟨ha1, hst1⟩ := Prod.mk.inj (Option.some.inj hadd)
      subst ha1
      subst hst1
      have hself : (st.seg sel).link s hE = ((st.seg sel).link s hE).setRef hE 1 := by
        have := setRef_self ((st.seg sel).link s hE) hE
        rw [link_refCount] at this
        exact this.symm
      have hdel := ATOM_DeleteAtom_last st sel s hE 1 hinv.1 hfresh.1 hfresh.2.1.1
        hfresh.2.1.2 (by norm_num)
      rw [← hself] at hdel
      obtain ⟨u1, u2, u3, u4⟩ := unlink_frame (st.seg sel) s hE hfresh.2.2
      refine ⟨_, hdel, rfl, fun sel2 h2 => setSeg_seg_ne st sel sel2 _ h2, ?_, ?_, ?_, ?_, ?_⟩
      · rw [setSeg_seg_same]; exact u1
      · rw [setSeg_seg_same]; exact u2
      · rw [setSeg_seg_same]; exact u3
      · intro y hy
        rw [setSeg_seg_same]
        exact u4 y (fun h => hy (h ▸ hfresh.2.2))
      · rw [setSeg_seg_same]
        have hne : ∀ c, c < (st.seg sel).table.size → ∀ y ∈ ch c, y ≠ hE := by
          intro c hc y hy heq
          exact (hinv.2.2.1 c hc y hy).2.1 (heq ▸ hfresh.2.2)
        refine tableInv_frame (st.seg sel) _ ch hinv ⟨hinv.1.1, ?_⟩ ?_ ?_ ?_
        · show (((st.seg sel).unlink s hE).tables ((st.seg sel).unlink s hE).atomtable).size ≠ 0
          rw [u2, u1]; exact hinv.1.2
        · unfold Segment.table; rw [u2, u1]
        · intro c _
          unfold Segment.head Segment.table; rw [u2, u1]
        · intro c hc y hy
          rw [u4 y (hne c hc y hy), u3]
          exact ⟨rfl, rfl, rfl, (hinv.2.2.1 c hc y hy).2.1⟩
  · have hxm : x ∈ ch ((st.seg sel).hashOf s) := by rw [hm12]; simp
    have hr := hrc _ hb x hxm
    rw [ATOM_AddAtom_existing st sel s hT hE x hint hinv.1 hfx hx0] at hadd
    obtain ⟨ha1, hst1⟩ := Prod.mk.inj (Option.some.inj hadd)
    subst ha1
    subst hst1
    have hinv1 : TableInv ((st.setSeg sel ((st.seg sel).setRef x
        ((((st.seg sel).atoms x).refCount + 1) % 65536))).seg sel) ch := by
      rw [setSeg_seg_same]; exact tableInv_setRef _ ch x _ hinv
    have hdel := del_linked_eq _ sel ch x ((st.seg sel).hashOf s) hinv1
      (by rw [setSeg_seg_same]; exact hb) hxm
      (by rw [setSeg_seg_same, setRef_refCount]; omega)
    have hback : ((((st.seg sel).atoms x).refCount + 1) % 65536 + 65535) % 65536
        = ((st.seg sel).atoms x).refCount := by omega
    simp only [setSeg_seg_same, setRef_refCount, setSeg_setSeg, setRef_setRef, hback,
      setRef_self, setSeg_self] at hdel
    exact ⟨st, hdel, rfl, fun _ _ => rfl, rfl, rfl, rfl, fun _ _ => rfl, hinv⟩


/-- Witness of claim C36: "HELLO" is interned in the table that holds "hello"
with reference count 1, and the atom returned is released. -/
theorem C36_intern_release_identity_witness :
    ∃ a st1 st2, ATOM_AddAtom State.withHello 7 (.str [72, 69, 76, 76, 79]) 0 0 = some (a, st1) ∧
      ATOM_DeleteAtom st1 7 a = some (0, st2) ∧
      (st2.seg 7).tables = (State.withHello.seg 7).tables ∧
      (st2.seg 7).arena = (State.withHello.seg 7).arena ∧
      (st2.seg 7).atoms 16 = (State.withHello.seg 7).atoms 16 := by
  have hadd := ATOM_AddAtom_existing State.withHello 7 [72, 69, 76, 76, 79] 0 0 16 (by decide)
    (by decide) (by decide) (by decide)
  have hrc : ∀ b, b < (State.withHello.seg 7).table.size →
      ∀ e ∈ Function.update (fun _ => ([] : List Nat))
        ((State.fresh.seg 7).hashOf [104, 101, 108, 108, 111]) [16] b,
      1 ≤ ((State.withHello.seg 7).atoms e).refCount ∧
      ((State.withHello.seg 7).atoms e).refCount < 65536 := by
    intro b _ e he
    by_cases hb : b = (State.fresh.seg 7).hashOf [104, 101, 108, 108, 111]
    · rw [hb, Function.update_same, List.mem_singleton] at he
      subst he
      decide
    · rw [Function.update_noteq hb] at he
      simp at he
  obtain ⟨st2, h1, _, _, _, h5, h6, h7, _⟩ :=
    C36_intern_release_identity State.withHello 7 _ [72, 69, 76, 76, 79] 0 0 _ _
      tableInv_withHello hrc (by decide) (Or.inl rfl) hadd (HANDLETOATOM_ne_zero 16)
  exact ⟨_, _, st2, hadd, h1, h5, h6, h7 16 (by decide)⟩

/-! ## Interning in a reachable table -/

/-- A reachable state has a table with its chains. -/
theorem reachable_tableInv (sel : Nat) (st : State) (h : Reachable sel st) :
    ∃ ch, TableInv (st.seg sel) ch := by
  obtain ⟨st0, ops, he, hok, hrun⟩ := h
  obtain ⟨st1, ch1, h1, h2⟩ := runOps_tableInv sel ops st0 _ (tableInv_of_empty _ he) hok
  rw [hrun] at h1
  rw [Option.some.inj h1]
  exact ⟨ch1, h2⟩

/-- In a table with its chains the walk for a C string ends with the entry of
its bucket that matches it. -/
theorem find_of_mem {seg : Segment} {ch : Nat → List Nat} (hinv : TableInv seg ch)
    (s : List Nat) (hs : IsCStr s) (x : Nat) (hx : x ∈ ch (seg.hashOf s))
    (hm : seg.isMatch s x) :
    findEntry seg s (atomLen s) CHAIN_FUEL (seg.head (seg.hashOf s)) = some x := by
  obtain ⟨y, hf, hcase⟩ := find_spec hinv s
  rcases hcase with ⟨_, hno⟩ | ⟨_, m1, m2, hch, _, hmy⟩
  · exact absurd hm (hno x hx)
  · have hy : y ∈ ch (seg.hashOf s) := by rw [hch]; simp
    by_cases hxy : y = x
    · rw [← hxy]; exact hf
    · exact absurd (sameName_of_isMatch seg s y x hs hmy hm)
        (tableInv_not_sameName hinv _ (hashOf_lt seg s hinv.1) y x hy hx hxy)

/-- A call of `ATOM_AddAtom` for a string that is not an integer atom, on a table
with the chains `ch` and with the arena returning a fresh handle: it returns
the atom of an entry `x` of the bucket of the string that matches the string,
the entries of `ch` stay linked and match what they matched, and `x` is the new
entry at `hE` when the walk found none, the entry found otherwise. -/
theorem add_spec (st : State) (sel : Nat) (ch : Nat → List Nat) (s : List Nat) (hT hE : Nat)
    (hinv : TableInv (st.seg sel) ch) (hint : ATOM_IsIntAtom (.str s) = none)
    (hf : FreshHandle (st.seg sel) hE) :
    ∃ x st1 ch1, ATOM_AddAtom st sel (.str s) hT hE = some (HANDLETOATOM x, st1) ∧
      x ≠ 0 ∧ IsHandle x ∧ TableInv (st1.seg sel) ch1 ∧
      (∀ u, (st1.seg sel).hashOf u = (st.seg sel).hashOf u) ∧
      x ∈ ch1 ((st.seg sel).hashOf s) ∧ (st1.seg sel).isMatch s x ∧
      (∀ b y, y ∈ ch b → y ∈ ch1 b) ∧
      (∀ u b y, b < (st.seg sel).table.size → y ∈ ch b → (st.seg sel).isMatch u y →
        (st1.seg sel).isMatch u y) ∧
      ((findEntry (st.seg sel) s (atomLen s) CHAIN_FUEL
            ((st.seg sel).head ((st.seg sel).hashOf s)) = some 0 ∧
          x = hE ∧ st1 = st.setSeg sel ((st.seg sel).link s hE)) ∨
        (findEntry (st.seg sel) s (atomLen s) CHAIN_FUEL
            ((st.seg sel).head ((st.seg sel).hashOf s)) = some x ∧
          st1 = st.setSeg sel
            ((st.seg sel).setRef x ((((st.seg sel).atoms x).refCount + 1) % 65536)))) := by
  have hb0 := hashOf_lt (st.seg sel) s hinv.1
  have hlen := tableInv_fuel hinv _ hb0
  rcases findEntry_isChain (st.seg sel) s _ CHAIN_FUEL _ (hinv.2.1 _ hb0) hlen with
    ⟨e, hmem, he0, hm, hfe⟩ | ⟨hall, hfe⟩
  · refine ⟨e, _, ch, ATOM_AddAtom_existing st sel s hT hE e hint hinv.1 hfe he0, he0,
      (hinv.2.2.1 _ hb0 e hmem).1, ?_, ?_, hmem, ?_, fun _ _ h => h, ?_, Or.inr ⟨hfe, rfl⟩⟩
    · rw [setSeg_seg_same]; exact tableInv_setRef _ ch e _ hinv
    · intro u; rw [setSeg_seg_same]; rfl
    · rw [setSeg_seg_same]; exact setRef_isMatch _ _ _ _ _ hm
    · intro u b y _ _ hmy; rw [setSeg_seg_same]; exact setRef_isMatch _ _ _ _ _ hmy
  · refine ⟨hE, _, Function.update ch ((st.seg sel).hashOf s) (hE :: ch ((st.seg sel).hashOf s)),
      ATOM_AddAtom_new st sel s hT hE hint hinv.1 hfe hf.1, hf.1, hf.2.1, ?_, ?_, ?_, ?_, ?_, ?_,
      Or.inl ⟨hfe, rfl, rfl⟩⟩
    · rw [setSeg_seg_same]; exact tableInv_link _ ch s hE hinv hf hall
    · intro u; rw [setSeg_seg_same]; exact link_hashOf _ _ _ _
    · rw [Function.update_same]; exact List.mem_cons_self _ _
    · rw [setSeg_seg_same]; exact isMatch_link_self _ _ _
    · intro b y hy
      by_cases hb : b = (st.seg sel).hashOf s
      · subst hb
        rw [Function.update_same]
        exact List.mem_cons_of_mem _ hy
      · rw [Function.update_noteq hb]; exact hy
    · intro u b y hb hy hmy
      rw [setSeg_seg_same]
      have hne : y ≠ hE := fun hc => (hinv.2.2.1 b hb y hy).2.1 (hc ▸ hf.2.2)
      unfold Segment.isMatch at hmy ⊢
      rw [link_atoms_ne _ _ _ _ hne]
      exact hmy

/-- Claim C6. In every state reached from an empty table by calls of
`ATOM_AddAtom` and `ATOM_DeleteAtom`, when the arena returns fresh 4-byte aligned
handles, for all C strings `s` and `t` that are not integer atoms and whose
first 255 bytes are not equal up to ASCII case, `ATOM_AddAtom` of `s` and then
of `t` return different non-zero atoms; both are then found in the table
(`ATOM_FindAtom` of `s` and of `t` return these two atoms), and their entries
are two different entries of the table. -/
theorem C6_distinct_strings_distinct_atoms (st : State) (sel : Nat) (s t : List Nat)
    (hT1 hE1 hT2 hE2 : Nat)
    (hs : ATOM_IsIntAtom (.str s) = none) (hti : ATOM_IsIntAtom (.str t) = none)
    (hcs : IsCStr s) (hct : IsCStr t) (hne : ¬ ciEq (s.take 255) (t.take 255))
    (hr : Reachable sel st) (h1 : FreshHandle (st.seg sel) hE1) :
    ∃ a1 st1, ATOM_AddAtom st sel (.str s) hT1 hE1 = some (a1, st1) ∧
      (FreshHandle (st1.seg sel) hE2 →
        ∃ a2 st2, ATOM_AddAtom st1 sel (.str t) hT2 hE2 = some (a2, st2) ∧
          a1 ≠ 0 ∧ a2 ≠ 0 ∧ a1 ≠ a2 ∧
          ATOM_FindAtom st2 sel (.str s) = some (a1, st2) ∧
          ATOM_FindAtom st2 sel (.str t) = some (a2, st2) ∧
          ∃ L, tableEntries (st2.seg sel) = some L ∧ ATOMTOHANDLE a1 ∈ L ∧
            ATOMTOHANDLE a2 ∈ L ∧ ATOMTOHANDLE a1 ≠ ATOMTOHANDLE a2) := by
  obtain ⟨ch, hinv⟩ := reachable_tableInv sel st hr
  obtain ⟨x1, st1, ch1, hadd1, hx10, hx1h, hinv1, hh1, hx1m, hm1, _, _, _⟩ :=
    add_spec st sel ch s hT1 hE1 hinv hs h1
  refine ⟨_, _, hadd1, ?_⟩
  intro h2
  obtain ⟨x2, st2, ch2, hadd2, hx20, hx2h, hinv2, hh2, hx2m, hm2, hsub2, hpres2, _⟩ :=
    add_spec st1 sel ch1 t hT2 hE2 hinv1 hti h2
  have hb1 : (st.seg sel).hashOf s < (st1.seg sel).table.size := by
    rw [← hh1 s]; exact hashOf_lt _ s hinv1.1
  have hm1' : (st2.seg sel).isMatch s x1 := hpres2 s _ x1 hb1 hx1m hm1
  have hx1m' : x1 ∈ ch2 ((st2.seg sel).hashOf s) := by
    rw [hh2 s, hh1 s]; exact hsub2 _ _ hx1m
  have hx2m' : x2 ∈ ch2 ((st2.seg sel).hashOf t) := by
    rw [hh2 t]; exact hx2m
  have hfs := find_of_mem hinv2 s hcs x1 hx1m' hm1'
  have hft := find_of_mem hinv2 t hct x2 hx2m' hm2
  have hx12 : x1 ≠ x2 := by
    intro hc
    rw [← hc] at hm2
    exact hne (trunc_of_isMatch _ s t x1 hcs hct hm1' hm2)
  have e1 := ATOMTOHANDLE_HANDLETOATOM x1 hx1h.1 hx1h.2
  have e2 := ATOMTOHANDLE_HANDLETOATOM x2 hx2h.1 hx2h.2
  obtain ⟨L, hL, hLmem, _⟩ := tableEntries_of_tableInv hinv2
  refine ⟨_, _, hadd2, HANDLETOATOM_ne_zero _, HANDLETOATOM_ne_zero _, ?_, ?_, ?_, L, hL, ?_, ?_,
    ?_⟩
  · intro hc
    exact hx12 (HANDLETOATOM_inj x1 x2 hx1h.1 hx1h.2 hx2h.1 hx2h.2 hc)
  · rw [ATOM_FindAtom_of_hasTable st2 sel s x1 hs hinv2.1 hfs, if_neg hx10]
  · rw [ATOM_FindAtom_of_hasTable st2 sel t x2 hti hinv2.1 hft, if_neg hx20]
  · rw [e1]
    exact (hLmem x1).mpr ⟨_, hashOf_lt _ s hinv2.1, hx1m'⟩
  · rw [e2]
    exact (hLmem x2).mpr ⟨_, hashOf_lt _ t hinv2.1, hx2m'⟩
  · rw [e1, e2]; exact hx12

/-- The state that holds "hello" is reached by one call of `ATOM_AddAtom`. -/
theorem reachable_withHello : Reachable 7 State.withHello :=
  ⟨State.fresh, [.add [104, 101, 108, 108, 111] 0 16], fresh_empty,
    ⟨⟨by decide, Or.inr (by decide)⟩, fun _ _ => trivial⟩, rfl⟩

/-- Witness of claim C6: in the table that holds "hello" (entry at handle 16),
"World" is interned as a new entry at handle 24 and "HELLO" is found in the
entry of "hello"; and the scenario of the specification: "Hello", "hello",
"World" are interned in a fresh table of 37 buckets, "Hello" and "hello" share
the atom 0xC004 with reference count 2, "World" has the atom 0xC006, and the
table holds two entries. -/
theorem C6_distinct_strings_distinct_atoms_witness :
    (∃ st1 st2,
      ATOM_AddAtom State.withHello 7 (.str [87, 111, 114, 108, 100]) 0 24 = some (0xc006, st1) ∧
      ATOM_AddAtom st1 7 (.str [72, 69, 76, 76, 79]) 0 28 = some (0xc004, st2) ∧
      ATOM_FindAtom st2 7 (.str [87, 111, 114, 108, 100]) = some (0xc006, st2) ∧
      ATOM_FindAtom st2 7 (.str [72, 69, 76, 76, 79]) = some (0xc004, st2) ∧
      ∃ L, tableEntries (st2.seg 7) = some L ∧ ATOMTOHANDLE 0xc006 ∈ L ∧
        ATOMTOHANDLE 0xc004 ∈ L ∧ ATOMTOHANDLE 0xc006 ≠ ATOMTOHANDLE 0xc004) ∧
    scenarioHelloWorld = some (0xc004, 0xc004, 0xc006, some [24, 16], 2) := by
  refine ⟨?_, by decide⟩
  have hadd := ATOM_AddAtom_new State.withHello 7 [87, 111, 114, 108, 100] 0 24 (by decide)
    (by decide) (by decide) (by decide)
  obtain ⟨a1, st1, h1, h2⟩ :=
    C6_distinct_strings_distinct_atoms State.withHello 7 [87, 111, 114, 108, 100]
      [72, 69, 76, 76, 79] 0 24 0 28 (by decide) (by decide) (by decide) (by decide)
      (by decide) reachable_withHello (by decide)
  have h1k := h1
  rw [hadd] at h1
  obtain ⟨ha, hst⟩ := Prod.mk.inj (Option.some.inj h1)
  have hfr : FreshHandle (st1.seg 7) 28 := by
    rw [← hst, setSeg_seg_same]
    exact ⟨by decide, by decide, by simp [Segment.link]; rfl⟩
  obtain ⟨a2, st2, h3, _, _, _, h5, h6, h7⟩ := h2 hfr
  have h3k := h3
  have hadd2 : ATOM_AddAtom st1 7 (.str [72, 69, 76, 76, 79]) 0 28
      = some (0xc004, st1.setSeg 7 ((st1.seg 7).setRef 16
          ((((st1.seg 7).atoms 16).refCount + 1) % 65536))) := by
    rw [← hst]
    exact ATOM_AddAtom_existing _ 7 [72, 69, 76, 76, 79] 0 28 16 (by decide) (by decide)
      (by decide) (by decide)
  rw [hadd2] at h3
  obtain ⟨ha2, _⟩ := Prod.mk.inj (Option.some.inj h3)
  have e1 : a1 = 0xc006 := ha.symm.trans (by decide)
  rw [e1] at h1k h5 h7
  rw [← ha2] at h3k h6 h7
  exact ⟨st1, st2, h1k, h3k, h5, h6, h7⟩

/-! ## Malformed integer atoms -/

theorem isChain_next_mem (seg : Segment) : ∀ (l : List Nat) (start : Nat),
    IsChain seg start l → ∀ h ∈ l, (seg.atoms h).next ≠ 0 → (seg.atoms h).next ∈ l := by
  intro l
  induction l with
  | nil => intro _ _ h hm; exact absurd hm (List.not_mem_nil h)
  | cons e l ih =>
    intro start hc h hm hne
    obtain ⟨_, he, hrest⟩ := hc
    rcases List.mem_cons.mp hm with hh | hh
    · rw [hh, he]
      rw [hh, he] at hne
      cases l with
      | nil => exact absurd hrest hne
      | cons e2 l2 =>
        rw [hrest.2.1]
        exact List.mem_cons_of_mem _ (List.mem_cons_self _ _)
    · exact List.mem_cons_of_mem _ (ih _ hrest h hh hne)

/-- The entries linked in a table with its chains are the entries of the chains. -/
theorem linked_mem {seg : Segment} {ch : Nat → List Nat} (hinv : TableInv seg ch) (h : Nat)
    (hl : seg.Linked h) : ∃ b, b < seg.table.size ∧ h ∈ ch b := by
  induction hl with
  | head b _ hb hne =>
    have hc := hinv.2.1 b hb
    cases hcb : ch b with
    | nil => rw [hcb] at hc; exact absurd hc hne
    | cons e l =>
      rw [hcb] at hc
      exact ⟨b, hb, by rw [hcb, hc.2.1]; exact List.mem_cons_self _ _⟩
  | next h _ hne ih =>
    obtain ⟨b, hb, hm⟩ := ih
    exact ⟨b, hb, isChain_next_mem seg _ _ (hinv.2.1 b hb) h hm hne⟩

/-- The handles stored in a table with its chains are handles of the arena. -/
theorem alignedSeg_of_tableInv {seg : Segment} {ch : Nat → List Nat} (hinv : TableInv seg ch) :
    AlignedSeg seg := by
  intro h hl
  obtain ⟨b, hb, hm⟩ := linked_mem hinv h hl
  exact (hinv.2.2.1 b hb h hm).1

/-- The handles stored in the table of a reachable state are handles of the
arena. -/
theorem alignedSeg_of_reachable (sel : Nat) (st : State) (h : Reachable sel st) :
    AlignedSeg (st.seg sel) := by
  obtain ⟨ch, hinv⟩ := reachable_tableInv sel st h
  exact alignedSeg_of_tableInv hinv

/-- Witness of claim C3: in the table that holds "hello" (entry at handle 16,
atom 0xC004), "HELLO" is interned and its atom is read back with a buffer of 256
bytes: the name has 5 bytes and is "HELLO" up to case. -/
theorem C3_name_roundtrip_witness :
    ∃ st1, ATOM_AddAtom State.withHello 7 (.str [72, 69, 76, 76, 79]) 0 0 = some (0xc004, st1) ∧
      (ATOM_GetAtomName st1 7 0xc004 256).ret = 5 ∧
      ∃ name, (ATOM_GetAtomName st1 7 0xc004 256).buffer = name ++ [0] ∧
        ciEq name [72, 69, 76, 76, 79] := by
  have hadd := ATOM_AddAtom_existing State.withHello 7 [72, 69, 76, 76, 79] 0 0 16 (by decide)
    (by decide) (by decide) (by decide)
  obtain ⟨h1, name, h2, h3, _⟩ :=
    C3_name_roundtrip State.withHello 7 [72, 69, 76, 76, 79] 0 0 0xc004 _ 256 (by decide)
      (by decide) (alignedSeg_of_reachable 7 _ reachable_withHello) (by decide) (by decide)
      (by decide) hadd (by decide)
  exact ⟨_, hadd, h1.trans rfl, name, h2, h3⟩

end Atom
